import Mathlib

/-!
# MD.cpp (SHOC molecular-dynamics benchmark): neighbour list and Lennard-Jones kernel

Shallow embedding of `src/md/MD.cpp`.

* The template scalar `T` (float or double) is taken in exact arithmetic, as the rationals `ℚ`.
  The division `1.0f / r2inv` of the force law is the division of `ℚ`, which is the source's
  value when `r2inv ≠ 0`; the statements about the value of a force assume that no listed
  neighbour within the cutoff is at distance 0 (`NoCoincident`), where the source divides by
  zero. The divisions of the checker by a computed force component have the IEEE 754 outcomes
  at a zero divisor (`ErrVal`): an infinity, or NaN for `0 / 0`.
* `position` is an array that is only read: it is a `List Vec3`, and a read outside the array has
  no defined value (`none`).
* `neighborList` and `force3` are arrays that are written cell by cell: they are maps from the
  `int` index to the cell value, and a write is `Function.update`.
* The `std::list` pair `currDist` / `currList` is a pair of Lean lists.
* A run without a defined result (a read outside `position`, `back()` of an empty list, advancing
  or dereferencing an end iterator, a list of negative size) is `none`.
-/

namespace MD

/-! ## Data model -/

/-- The `float3` / `double3` record of the source: three coordinates. -/
structure Vec3 where
  x : ℚ
  y : ℚ
  z : ℚ
deriving DecidableEq, Repr

/-- The constant `FLT_MAX` of `<cfloat>`: `(2 - 2^-23) * 2^127`. -/
def FLT_MAX : ℚ := 340282346638528859811704183484516925440

/-- The loop counter values `0, 1, ..., n - 1` of `for (int c = 0; c < n; c++)`. -/
def intRange (n : Int) : List Int := (List.range n.toNat).map Int.ofNat

/-- The read `position[i]`: defined for `0 ≤ i < length`. -/
def readPos (position : List Vec3) (i : Int) : Option Vec3 :=
  if 0 ≤ i then position[i.toNat]? else none

/-! ## Neighbour-list builder -/

/-- Squared distance of two positions: the arithmetic of `distance`, lines 458-462. -/
def dist2 (ipos jpos : Vec3) : ℚ :=
  let delx := ipos.x - jpos.x
  let dely := ipos.y - jpos.y
  let delz := ipos.z - jpos.z
  delx * delx + dely * dely + delz * delz

/-- The function `distance`, lines 453-463: squared distance of atoms `i` and `j`. -/
def distance (position : List Vec3) (i j : Int) : Option ℚ :=
  match readPos position i with
  | none => none
  | some ipos =>
    match readPos position j with
    | none => none
    | some jpos => some (dist2 ipos jpos)

/-- The member `std::list::resize(n)`: cut to `n` elements, or pad with value-initialised ones. -/
def resize {α : Type} (l : List α) (n : Nat) (fill : α) : List α :=
  l.take n ++ List.replicate (n - l.length) fill

/-- The `for` loop of `insertInOrder`, lines 501-515. `preD` and `preL` are the elements already
passed by `it` and `it2`, the two list arguments after them are the elements from `it` and from
`it2` on. The result is the new pair `(currDist, currList)`. -/
def insertLoop (j : Int) (distIJ : ℚ) (maxNeighbors : Int) :
    List ℚ → List Int → List ℚ → List Int → Option (List ℚ × List Int)
  | preD, preL, [], rest => some (preD, preL ++ rest)
  | preD, preL, d :: ds, rest =>
    if distIJ < d then
      if maxNeighbors < 0 then none
      else
        some (resize (preD ++ distIJ :: d :: ds) maxNeighbors.toNat 0,
              resize (preL ++ j :: rest) maxNeighbors.toNat 0)
    else
      match rest with
      | [] => none
      | c :: cs => insertLoop j distIJ maxNeighbors (preD ++ [d]) (preL ++ [c]) ds cs

/-- The function `insertInOrder`, lines 488-516. -/
def insertInOrder (currDist : List ℚ) (currList : List Int) (j : Int) (distIJ : ℚ)
    (maxNeighbors : Int) : Option (List ℚ × List Int) :=
  match currDist.getLast? with
  | none => none
  | some currMax =>
    if distIJ > currMax then some (currDist, currList)
    else insertLoop j distIJ maxNeighbors [] [] currDist currList

/-- The iteration of `populateNeighborList`, lines 618-632: `idx` and `validPairs` are the two
counters, the list arguments are what is left from `distanceIter` and `neighborIter` on. -/
def populateLoop (i maxNeighbors : Int) (cutsq : ℚ) :
    List ℚ → List Int → Int → (Int → Int) → Int → Option ((Int → Int) × Int)
  | _, [], _, neighborList, validPairs => some (neighborList, validPairs)
  | [], _ :: _, _, _, _ => none
  | d :: ds, c :: cs, idx, neighborList, validPairs =>
    populateLoop i maxNeighbors cutsq ds cs (idx + 1)
      (Function.update neighborList (idx + maxNeighbors * i) c)
      (if d < cutsq then validPairs + 1 else validPairs)

/-- The function `populateNeighborList`, lines 607-634. `currList.sort()` orders the `int`
elements of `currList` by value. -/
def populateNeighborList (currDist : List ℚ) (currList : List Int) (i : Int) (_nAtom : Int)
    (neighborList : Int → Int) (cutsq : ℚ) (maxNeighbors : Int) :
    Option ((Int → Int) × Int) :=
  populateLoop i maxNeighbors cutsq currDist (currList.insertionSort (fun a b => a ≤ b)) 0
    neighborList 0

/-- The inner loop of `buildNeighborList`, lines 557-565, over the remaining values of `j`. -/
def scanAtoms (position : List Vec3) (i maxNeighbors : Int) :
    List Int → List ℚ → List Int → Option (List ℚ × List Int)
  | [], currDist, currList => some (currDist, currList)
  | j :: js, currDist, currList =>
    if i = j then scanAtoms position i maxNeighbors js currDist currList
    else
      match distance position i j with
      | none => none
      | some distIJ =>
        match insertInOrder currDist currList j distIJ maxNeighbors with
        | none => none
        | some r => scanAtoms position i maxNeighbors js r.1 r.2

/-- The lists `currDist` and `currList` of atom `i` when its inner loop has ended
(lines 550-565). -/
def nearestOf (nAtom : Int) (position : List Vec3) (maxNeighbors : Int) (i : Int) :
    Option (List ℚ × List Int) :=
  if maxNeighbors < 0 then none
  else
    scanAtoms position i maxNeighbors (intRange nAtom)
      (List.replicate maxNeighbors.toNat FLT_MAX) (List.replicate maxNeighbors.toNat (-1))

/-- The outer loop of `buildNeighborList`, lines 548-577, run in sequence over the remaining
values of `i`. -/
def buildLoop (nAtom : Int) (position : List Vec3) (cutsq : ℚ) (maxNeighbors : Int) :
    List Int → (Int → Int) → Int → Option ((Int → Int) × Int)
  | [], neighborList, totalPairs => some (neighborList, totalPairs)
  | i :: is, neighborList, totalPairs =>
    match nearestOf nAtom position maxNeighbors i with
    | none => none
    | some r =>
      match populateNeighborList r.1 r.2 i nAtom neighborList cutsq maxNeighbors with
      | none => none
      | some p => buildLoop nAtom position cutsq maxNeighbors is p.1 (totalPairs + p.2)

/-- The function `buildNeighborList`, lines 540-579: the neighbour list after the call and the
returned `totalPairs`. -/
def buildNeighborList (nAtom : Int) (position : List Vec3) (neighborList : Int → Int)
    (cutsq : ℚ) (maxNeighbors : Int) : Option ((Int → Int) × Int) :=
  buildLoop nAtom position cutsq maxNeighbors (intRange nAtom) neighborList 0

/-- Row `i` of a packed neighbour list: the cells `neighborList[k + maxNeighbors * i]` for
`k = 0, ..., maxNeighbors - 1`. -/
def rowOf (neighborList : Int → Int) (maxNeighbors : Int) (i : Int) : List Int :=
  (intRange maxNeighbors).map (fun k => neighborList (k + maxNeighbors * i))

/-! ## Force kernel -/

/-- The body of the neighbour loop of `compute_lj_force`, lines 203-217 (and of `checkResults`,
lines 250-265): the accumulators after the neighbour at `jpos` has been treated. The division
of line 210 is the division of `ℚ`, the source's value when `r2inv ≠ 0`. -/
def ljStep (cutsq lj1 lj2 : ℚ) (ipos jpos f : Vec3) : Vec3 :=
  let delx := ipos.x - jpos.x
  let dely := ipos.y - jpos.y
  let delz := ipos.z - jpos.z
  let r2inv := delx * delx + dely * dely + delz * delz
  if r2inv < cutsq then
    let r2inv := 1 / r2inv
    let r6inv := r2inv * r2inv * r2inv
    let force := r2inv * r6inv * (lj1 * r6inv - lj2)
    ⟨f.x + delx * force, f.y + dely * force, f.z + delz * force⟩
  else f

/-- The neighbour loop of `compute_lj_force`, lines 159-218, over the remaining values of `j`;
`f` holds the accumulators `fx, fy, fz`. The prefetches are hints and are left out. -/
def ljNeighbors (position : List Vec3) (neighList : Int → Int) (cutsq lj1 lj2 : ℚ)
    (i maxNeighbors : Int) (ipos : Vec3) : List Int → Vec3 → Option Vec3
  | [], f => some f
  | j :: js, f =>
    match readPos position (neighList (j + i * maxNeighbors)) with
    | none => none
    | some jpos =>
      ljNeighbors position neighList cutsq lj1 lj2 i maxNeighbors ipos js
        (ljStep cutsq lj1 lj2 ipos jpos f)

/-- The loop over the atoms of `compute_lj_force`, lines 143-223, over the remaining values of
`i`. -/
def ljAtoms (position : List Vec3) (neighList : Int → Int) (cutsq lj1 lj2 : ℚ)
    (maxNeighbors : Int) : List Int → (Int → Vec3) → Option (Int → Vec3)
  | [], force3 => some force3
  | i :: is, force3 =>
    match readPos position i with
    | none => none
    | some ipos =>
      match ljNeighbors position neighList cutsq lj1 lj2 i maxNeighbors ipos
          (intRange maxNeighbors) ⟨0, 0, 0⟩ with
      | none => none
      | some f =>
        ljAtoms position neighList cutsq lj1 lj2 maxNeighbors is (Function.update force3 i f)

/-- The repetition loop of `compute_lj_force`, lines 140-224, with `n` repetitions left. -/
def ljIters (position : List Vec3) (neighList : Int → Int) (cutsq lj1 lj2 : ℚ)
    (inum maxNeighbors : Int) : Nat → (Int → Vec3) → Option (Int → Vec3)
  | 0, force3 => some force3
  | n + 1, force3 =>
    match ljAtoms position neighList cutsq lj1 lj2 maxNeighbors (intRange inum) force3 with
    | none => none
    | some g => ljIters position neighList cutsq lj1 lj2 inum maxNeighbors n g

/-- The function `compute_lj_force`, lines 126-226: the force array after the call. -/
def compute_lj_force (force3 : Int → Vec3) (position : List Vec3) (_neighCount : Int)
    (neighList : Int → Int) (cutsq lj1 lj2 : ℚ) (inum maxNeighbors nIters : Int) :
    Option (Int → Vec3) :=
  ljIters position neighList cutsq lj1 lj2 inum maxNeighbors nIters.toNat force3

/-! ## Correctness checker -/

/-- The `while` loop of `checkResults`, lines 244-268, over the remaining values of `j`. -/
def refNeighbors (position : List Vec3) (neighList : Int → Int) (cutsq lj1 lj2 : ℚ)
    (i maxNeighbors : Int) (ipos : Vec3) : List Int → Vec3 → Option Vec3
  | [], f => some f
  | j :: js, f =>
    match readPos position (neighList (j + maxNeighbors * i)) with
    | none => none
    | some jpos =>
      refNeighbors position neighList cutsq lj1 lj2 i maxNeighbors ipos js
        (ljStep cutsq lj1 lj2 ipos jpos f)

/-- A value of the error arithmetic of `checkResults`, lines 271-276: a number, an infinity
(of either sign), or the NaN of IEEE 754. -/
inductive ErrVal where
  | finite (q : ℚ)
  | infinite
  | undefined
  deriving DecidableEq

/-- The division `a / b` of two numbers of type `T`, lines 271-273: a zero divisor gives NaN
for `0 / 0` and an infinity otherwise. -/
def fdiv (a b : ℚ) : ErrVal :=
  if b = 0 then (if a = 0 then ErrVal.undefined else ErrVal.infinite) else ErrVal.finite (a / b)

/-- The term `sqrt(d * d)` of line 275: `|d|` for a number, `+inf` for an infinity, NaN for
NaN. -/
def ErrVal.magnitude : ErrVal → ErrVal
  | ErrVal.finite q => ErrVal.finite |q|
  | ErrVal.infinite => ErrVal.infinite
  | ErrVal.undefined => ErrVal.undefined

/-- The sum of two terms `sqrt(d * d)` of line 275, which are numbers `≥ 0`, `+inf` or NaN:
NaN if one is NaN, else `+inf` if one is `+inf`. -/
def ErrVal.add : ErrVal → ErrVal → ErrVal
  | ErrVal.finite a, ErrVal.finite b => ErrVal.finite (a + b)
  | ErrVal.undefined, _ => ErrVal.undefined
  | _, ErrVal.undefined => ErrVal.undefined
  | _, _ => ErrVal.infinite

/-- The comparison `err > bound` of line 276 with a number `bound`: true for `+inf`, false for
NaN. -/
def ErrVal.exceeds : ErrVal → ℚ → Bool
  | ErrVal.finite q, bound => decide (bound < q)
  | ErrVal.infinite, _ => true
  | ErrVal.undefined, _ => false

/-- The error of one atom, lines 271-275. -/
def relErr (d f : Vec3) : ErrVal :=
  let diffx := fdiv (d.x - f.x) d.x
  let diffy := fdiv (d.y - f.y) d.y
  let diffz := fdiv (d.z - f.z) d.z
  (diffx.magnitude.add diffy.magnitude).add diffz.magnitude

/-- The loop over the atoms of `checkResults`, lines 238-281, over the remaining values of `i`.
`lj1` and `lj2` are the constants of `MD.h`. -/
def checkLoop (d_force : Int → Vec3) (position : List Vec3) (neighList : Int → Int) (eps : ℚ)
    (maxNeighbors : Int) (cutsq lj1 lj2 : ℚ) : List Int → Option Bool
  | [] => some true
  | i :: is =>
    match readPos position i with
    | none => none
    | some ipos =>
      match refNeighbors position neighList cutsq lj1 lj2 i maxNeighbors ipos
          (intRange maxNeighbors) ⟨0, 0, 0⟩ with
      | none => none
      | some f =>
        if (relErr (d_force i) f).exceeds (3 * eps) then some false
        else checkLoop d_force position neighList eps maxNeighbors cutsq lj1 lj2 is

/-- The function `checkResults`, lines 229-285. -/
def checkResults (lj1 lj2 : ℚ) (d_force : Int → Vec3) (position : List Vec3)
    (neighList : Int → Int) (nAtom : Int) (eps : ℚ) (maxNeighbors : Int) (cutsq : ℚ) :
    Option Bool :=
  checkLoop d_force position neighList eps maxNeighbors cutsq lj1 lj2 (intRange nAtom)

/-! ## Definitions used by the statements and proofs -/

/-- The loop of `insertInOrder` on the list of pairs `(currDist[k], currList[k])`. -/
def pairInsert (d : ℚ) (j : Int) (K : Nat) :
    List (ℚ × Int) → List (ℚ × Int) → List (ℚ × Int)
  | pre, [] => pre
  | pre, e :: es =>
    if d < e.1 then (pre ++ (d, j) :: e :: es).take K else pairInsert d j K (pre ++ [e]) es

/-- A list of pairs in non-decreasing order of the first component. -/
def SortedFst (E : List (ℚ × Int)) : Prop := E.Pairwise (fun a b => a.1 ≤ b.1)

/-- Invariant of the inner loop of `buildNeighborList` for one atom. `E` is the list of pairs
`(currDist[k], currList[k])`, `P` holds of the atoms `j` treated so far and `δ j` is the squared
distance of atom `j` to the current atom. -/
structure ScanInv (δ : Int → ℚ) (K : Nat) (P : Int → Prop) (E : List (ℚ × Int)) : Prop where
  len : E.length = K
  sorted : SortedFst E
  entry : ∀ e ∈ E, e = (FLT_MAX, -1) ∨ (P e.2 ∧ e.1 = δ e.2)
  once : ∀ m, m ≠ -1 → (E.map Prod.snd).count m ≤ 1
  best : ∀ m, P m → m ∉ E.map Prod.snd → ∀ e ∈ E, e.1 ≤ δ m

/-- Squared distance of atoms `i` and `m`, with the value 0 where `distance` has none. -/
def sqDist (position : List Vec3) (i m : Int) : ℚ := (distance position i m).getD 0

/-- Number of distances of `currDist` below the cutoff: the counter `validPairs`. -/
def validCount (cutsq : ℚ) (currDist : List ℚ) : Nat :=
  currDist.countP (fun d => decide (d < cutsq))

/-- The number of pairs that the iteration for atom `i` adds to `totalPairs`. -/
def pairsOf (nAtom : Int) (position : List Vec3) (cutsq : ℚ) (K : Int) (i : Int) : Int :=
  match nearestOf nAtom position K i with
  | some r => validCount cutsq r.1
  | none => 0

/-- The atoms other than `i`, in increasing order. -/
def othersOf (nAtom i : Int) : List Int := (intRange nAtom).erase i

/-- The four atoms of the scenario of the specification. -/
def scenario : List Vec3 := [⟨0, 0, 0⟩, ⟨1, 0, 0⟩, ⟨0, 2, 0⟩, ⟨5, 5, 5⟩]

/-- A row in non-decreasing order of squared distance to atom `i`. -/
def RowByDistance (position : List Vec3) (i : Int) (row : List Int) : Prop :=
  row.Pairwise (fun a b => ∃ da db, distance position i a = some da ∧
    distance position i b = some db ∧ da ≤ db)

/-- The rows and the count that `buildNeighborList` leaves, as values that can be compared. -/
def builtRows (nAtom : Int) (position : List Vec3) (cutsq : ℚ) (maxNeighbors : Int) :
    Option (List (List Int) × Int) :=
  (buildNeighborList nAtom position (fun _ => 0) cutsq maxNeighbors).map
    (fun r => ((intRange nAtom).map (rowOf r.1 maxNeighbors), r.2))

/-- Whether `j` is an atom at squared distance below `cutsq` from atom `i`. -/
def withinCutoff (position : List Vec3) (cutsq : ℚ) (i j : Int) : Bool :=
  match distance position i j with
  | some d => decide (d < cutsq)
  | none => false

/-- Number of entries of row `i` that are atoms at squared distance below `cutsq` from `i`. -/
def listedWithin (position : List Vec3) (cutsq : ℚ) (neighborList : Int → Int)
    (maxNeighbors : Int) (i : Int) : Nat :=
  (rowOf neighborList maxNeighbors i).countP (withinCutoff position cutsq i)

/-- Two atoms at squared distance `2^128`, above `FLT_MAX`. -/
def farPair : List Vec3 := [⟨0, 0, 0⟩, ⟨18446744073709551616, 0, 0⟩]

/-- The force that one pass of `compute_lj_force` stores for atom `i` (lines 145-222): the
neighbour loop started from zero accumulators. -/
def atomForce (position : List Vec3) (neighList : Int → Int) (cutsq lj1 lj2 : ℚ)
    (maxNeighbors : Int) (i : Int) : Option Vec3 :=
  match readPos position i with
  | none => none
  | some ipos =>
    ljNeighbors position neighList cutsq lj1 lj2 i maxNeighbors ipos (intRange maxNeighbors)
      ⟨0, 0, 0⟩

/-- The Lennard-Jones force of the atom at `pj` on the atom at `pi`, as the specification
writes it: `(pi - pj) * (1/r2) * (1/r2)^3 * (lj1 * (1/r2)^3 - lj2)`. -/
def ljPair (lj1 lj2 : ℚ) (pi pj : Vec3) : Vec3 :=
  let r2 := dist2 pi pj
  let s := (1 / r2) * (1 / r2) ^ 3 * (lj1 * (1 / r2) ^ 3 - lj2)
  ⟨(pi.x - pj.x) * s, (pi.y - pj.y) * s, (pi.z - pj.z) * s⟩

/-- The sum of the Lennard-Jones forces on the atom at `pi` of those atoms of `ps` whose
squared distance to it is below `cutsq`. -/
def ljSum (cutsq lj1 lj2 : ℚ) (pi : Vec3) (ps : List Vec3) : Vec3 :=
  let near := ps.filter (fun pj => decide (dist2 pi pj < cutsq))
  ⟨(near.map (fun pj => (ljPair lj1 lj2 pi pj).x)).sum,
   (near.map (fun pj => (ljPair lj1 lj2 pi pj).y)).sum,
   (near.map (fun pj => (ljPair lj1 lj2 pi pj).z)).sum⟩

/-- Every cell of the first `inum` rows of the neighbour list holds an atom index. -/
def ValidList (neighList : Int → Int) (inum maxNeighbors : Int) : Prop :=
  ∀ i j, 0 ≤ i → i < inum → 0 ≤ j → j < maxNeighbors →
    0 ≤ neighList (j + i * maxNeighbors) ∧ neighList (j + i * maxNeighbors) < inum

/-- No atom of the first `inum` rows has a listed neighbour within the cutoff at distance 0:
every division `1.0f / r2inv` of line 210 is by a number other than 0. -/
def NoCoincident (position : List Vec3) (neighList : Int → Int) (cutsq : ℚ)
    (inum maxNeighbors : Int) : Prop :=
  ∀ i j, 0 ≤ i → i < inum → 0 ≤ j → j < maxNeighbors →
    ∀ pi pj, readPos position i = some pi →
      readPos position (neighList (j + i * maxNeighbors)) = some pj →
      dist2 pi pj < cutsq → dist2 pi pj ≠ 0

/-- Two atoms at distance 3, no coordinate of which is equal. -/
def skewPair : List Vec3 := [⟨0, 0, 0⟩, ⟨1, 2, 2⟩]

/-- A force array that holds `(1, 1, 1)` in every cell. -/
def onesForce : Int → Vec3 := fun _ => ⟨1, 1, 1⟩

/-- Two atoms at distance 1 on the x axis. -/
def unitPair : List Vec3 := [⟨0, 0, 0⟩, ⟨1, 0, 0⟩]

/-- The neighbour list `[1, 0]` of two atoms with one neighbour each. -/
def swapList : Int → Int := fun m => if m = 0 then 1 else 0

/-- The reference force that `checkResults` recomputes for atom `i` (lines 240-268). -/
def refForce (position : List Vec3) (neighList : Int → Int) (cutsq lj1 lj2 : ℚ)
    (maxNeighbors : Int) (i : Int) : Option Vec3 :=
  match readPos position i with
  | none => none
  | some ipos =>
    refNeighbors position neighList cutsq lj1 lj2 i maxNeighbors ipos (intRange maxNeighbors)
      ⟨0, 0, 0⟩

/-- The invariant of `insertInOrder` on the two lists: both have `K` entries, `currDist` is in
non-decreasing order, and the pair at every position is either the initial fill
(`currList[k] = -1` with `currDist[k] = FLT_MAX`) or an atom with its squared distance `δ`. -/
def ListsInv (δ : Int → ℚ) (K : Nat) (currDist : List ℚ) (currList : List Int) : Prop :=
  currDist.length = K ∧ currList.length = K ∧ currDist.Sorted (fun a b => a ≤ b) ∧
  ∀ e ∈ currDist.zip currList, (e.2 = -1 ∧ e.1 = FLT_MAX) ∨ e.1 = δ e.2

/-- The table `probSizes` of `runTest`, line 302. -/
def probSizes : List Int := [12288, 24576, 36864, 73728]

/-- What lines 304-312 of `runTest` do with the options `size` and `nAtom`: the assertion
fails, the table is read outside its four entries, or `nAtom` gets a value. -/
inductive SizeChoice where
  | assertionFailed : SizeChoice
  | readOutside : SizeChoice
  | atoms : Int → SizeChoice
deriving DecidableEq, Repr

/-- The choice of `nAtom` in `runTest`, lines 304-312: `sizeClass` is the option `size` and
`nAtomOption` the option `nAtom` (0 when it is not given). -/
def chooseAtoms (sizeClass nAtomOption : Int) : SizeChoice :=
  if sizeClass ≥ 0 ∧ sizeClass < 5 then
    if 0 ≤ sizeClass - 1 then
      match probSizes[(sizeClass - 1).toNat]? with
      | none => SizeChoice.readOutside
      | some nAtom =>
        if nAtomOption ≠ 0 then SizeChoice.atoms nAtomOption else SizeChoice.atoms nAtom
    else SizeChoice.readOutside
  else SizeChoice.assertionFailed

/-- The order that the builder keeps between two pairs `(distance, index)` of its lists: `a`
stands before `b` when it is nearer, or as near and of lower index (or `b` is initial fill). -/
def TieBefore (a b : ℚ × Int) : Prop :=
  a.1 < b.1 ∨ (a.1 = b.1 ∧ (a.2 < b.2 ∨ b.2 = -1))

/-- The part of the invariant of the inner loop of `buildNeighborList` that is about ties. The
atoms are treated in increasing order of index; `P` holds of those treated so far. -/
structure TieInv (δ : Int → ℚ) (P : Int → Prop) (E : List (ℚ × Int)) : Prop where
  le_max : ∀ e ∈ E, e.1 ≤ FLT_MAX
  order : E.Pairwise TieBefore
  excl : ∀ m, P m → m ∉ E.map Prod.snd → ∀ e ∈ E, e.1 < δ m ∨ (e.1 = δ m ∧ e.2 < m)

/-- Three atoms on a line: atoms 1 and 2 are both at squared distance 1 from atom 0. -/
def tieTriple : List Vec3 := [⟨0, 0, 0⟩, ⟨1, 0, 0⟩, ⟨-1, 0, 0⟩]

/-- The neighbour list `[1, 2, 0, 2, 0, 1]` of three atoms with two neighbours each: the rows
`[1, 2]`, `[0, 2]` and `[0, 1]`. -/
def listA : Int → Int := fun m =>
  if m = 0 then 1 else if m = 1 then 2 else if m = 2 then 0 else if m = 3 then 2
  else if m = 4 then 0 else if m = 5 then 1 else 0

/-- The neighbour list of `listA` with the two entries of every row exchanged. -/
def listB : Int → Int := fun m =>
  if m = 0 then 2 else if m = 1 then 1 else if m = 2 then 2 else if m = 3 then 0
  else if m = 4 then 1 else if m = 5 then 0 else 0

/-- The constant `PF2_THRESHOLD`, line 69. -/
def PF2_THRESHOLD : Int := 36960

/-- The indices of `neighList` that one group of sixteen prefetch lines reads to form its
addresses (lines 161-176 with `off = 16`, lines 181-196 with `off = 32`):
`i * maxNeighbors + j + c + off` for `c = 0, ..., 15`. -/
def lookAhead (i maxNeighbors j off : Int) : List Int :=
  (intRange 16).map (fun c => i * maxNeighbors + j + c + off)

/-- The indices at which the body of the neighbour loop of `compute_lj_force` reads `neighList`
for atom `i` and neighbour `j` (lines 161-201). `isDouble` says that `T` is `double`. -/
def listReadsAt (inum maxNeighbors : Int) (isDouble : Bool) (i j : Int) : List Int :=
  lookAhead i maxNeighbors j 16 ++
    (if inum > PF2_THRESHOLD ∨ isDouble = true then lookAhead i maxNeighbors j 32 else []) ++
    [j + i * maxNeighbors]

/-- The indices at which one pass of `compute_lj_force` reads `neighList`. -/
def listReads (inum maxNeighbors : Int) (isDouble : Bool) : List Int :=
  ((intRange inum).map (fun i =>
    ((intRange maxNeighbors).map (listReadsAt inum maxNeighbors isDouble i)).flatten)).flatten

/-! # Theorems -/

/-! ## The builder's two lists as one list of pairs -/

theorem insertLoop_map (j : Int) (d : ℚ) (K : Int) (hK : 0 ≤ K) :
    ∀ (E pre : List (ℚ × Int)), K.toNat ≤ pre.length + E.length + 1 →
      insertLoop j d K (pre.map Prod.fst) (pre.map Prod.snd) (E.map Prod.fst) (E.map Prod.snd)
        = some ((pairInsert d j K.toNat pre E).map Prod.fst,
                (pairInsert d j K.toNat pre E).map Prod.snd) := by
  intro E
  induction E with
  | nil => intro pre _; simp [insertLoop, pairInsert]
  | cons e es ih =>
    intro pre hlen
    simp only [List.map_cons, insertLoop, pairInsert]
    by_cases hlt : d < e.1
    · have hK' : ¬ K < 0 := not_lt.mpr hK
      simp only [hlt, if_true, hK', if_false]
      have h3 : K.toNat - (pre.length + (es.length + 1 + 1)) = 0 := by
        simp only [List.length_cons] at hlen
        omega
      simp [resize, h3, List.map_take]
    · simp only [hlt, if_false]
      have := ih (pre ++ [e]) (by simp only [List.length_append, List.length_cons, List.length_nil] at *; omega)
      simpa using this

theorem pairInsert_cases (d : ℚ) (j : Int) (K : Nat) :
    ∀ (E pre : List (ℚ × Int)),
      (pairInsert d j K pre E = pre ++ E ∧ ∀ e ∈ E, e.1 ≤ d) ∨
      (∃ a x b, E = a ++ x :: b ∧ (∀ e ∈ a, e.1 ≤ d) ∧ d < x.1 ∧
        pairInsert d j K pre E = (pre ++ a ++ (d, j) :: x :: b).take K) := by
  intro E
  induction E with
  | nil => intro pre; left; simp [pairInsert]
  | cons e es ih =>
    intro pre
    by_cases hlt : d < e.1
    · right
      exact ⟨[], e, es, by simp, by simp, hlt, by simp [pairInsert, hlt]⟩
    · have hle : e.1 ≤ d := not_lt.mp hlt
      rcases ih (pre ++ [e]) with ⟨h1, h2⟩ | ⟨a, x, b, h1, h2, h3, h4⟩
      · left
        refine ⟨by simp [pairInsert, hlt, h1], ?_⟩
        intro f hf
        rcases List.mem_cons.mp hf with rfl | hf
        · exact hle
        · exact h2 f hf
      · right
        refine ⟨e :: a, x, b, by simp [h1], ?_, h3, by simp [pairInsert, hlt, h4]⟩
        intro f hf
        rcases List.mem_cons.mp hf with rfl | hf
        · exact hle
        · exact h2 f hf

theorem insertInOrder_pairs (E : List (ℚ × Int)) (j : Int) (d : ℚ) (K : Int)
    (hK : 1 ≤ K) (hlen : E.length = K.toNat) (hs : SortedFst E) :
    ∃ R, insertInOrder (E.map Prod.fst) (E.map Prod.snd) j d K
          = some (R.map Prod.fst, R.map Prod.snd) ∧
      ((R = E ∧ ∀ e ∈ E, e.1 ≤ d) ∨
       (∃ a b l, E = a ++ b ++ [l] ∧ R = a ++ (d, j) :: b ∧ (∀ e ∈ a, e.1 ≤ d) ∧
          (∀ e ∈ b, d < e.1) ∧ d < l.1)) := by
  have hne : E ≠ [] := by
    intro h
    rw [h] at hlen
    simp at hlen
    omega
  obtain ⟨F, l, rfl⟩ : ∃ F l, E = F ++ [l] :=
    ⟨E.dropLast, E.getLast hne, (List.dropLast_append_getLast hne).symm⟩
  have hFl : ∀ e ∈ F, e.1 ≤ l.1 := by
    intro e he
    have := (List.pairwise_append.mp hs).2.2 e he l (by simp)
    exact this
  have hlast : (List.map Prod.fst (F ++ [l])).getLast? = some l.1 := by simp
  unfold insertInOrder
  rw [hlast]
  by_cases hgt : d > l.1
  · refine ⟨F ++ [l], by simp [hgt], Or.inl ⟨rfl, ?_⟩⟩
    intro e he
    rcases List.mem_append.mp he with he | he
    · exact le_trans (hFl e he) (le_of_lt hgt)
    · simp at he
      rw [he]
      exact le_of_lt hgt
  · simp only [hgt, if_false]
    have hmap := insertLoop_map j d K (by omega) (F ++ [l]) [] (by rw [hlen]; omega)
    simp only [List.map_nil] at hmap
    rw [hmap]
    rcases pairInsert_cases d j K.toNat (F ++ [l]) [] with ⟨h1, h2⟩ | ⟨a, x, b, h1, h2, h3, h4⟩
    · exact ⟨F ++ [l], by simp [h1], Or.inl ⟨rfl, h2⟩⟩
    · have hxb : x :: b ≠ [] := by simp
      obtain ⟨bb, l', hbb⟩ : ∃ bb l', x :: b = bb ++ [l'] :=
        ⟨(x :: b).dropLast, (x :: b).getLast hxb, (List.dropLast_append_getLast hxb).symm⟩
      rw [hbb] at h1
      have h1' : F ++ [l] = (a ++ bb) ++ [l'] := by rw [h1, List.append_assoc]
      have hF : F = a ++ bb := List.append_inj_left' h1' rfl
      have hl : [l] = [l'] := List.append_inj_right' h1' rfl
      have hl' : l' = l := by simpa using hl.symm
      subst hl'
      subst hF
      have hsx : SortedFst (x :: b) := by
        have h5 : SortedFst (a ++ x :: b) := by
          rw [hbb, ← List.append_assoc]
          exact hs
        exact (List.pairwise_append.mp h5).2.1
      have hgtall : ∀ e ∈ x :: b, d < e.1 := by
        intro e he
        rcases List.mem_cons.mp he with rfl | he
        · exact h3
        · exact lt_of_lt_of_le h3 (List.rel_of_pairwise_cons hsx he)
      refine ⟨a ++ (d, j) :: bb, ?_, Or.inr ⟨a, bb, l', rfl, rfl, h2, ?_, ?_⟩⟩
      · have : pairInsert d j K.toNat [] (a ++ bb ++ [l']) = a ++ (d, j) :: bb := by
          have e1 : pairInsert d j K.toNat [] (a ++ bb ++ [l']) =
              pairInsert d j K.toNat [] (a ++ x :: b) := by rw [hbb, List.append_assoc]
          rw [e1] at h4 ⊢
          rw [h4, hbb]
          have e2 : [] ++ a ++ (d, j) :: (bb ++ [l']) = (a ++ (d, j) :: bb) ++ [l'] := by simp
          rw [e2]
          apply List.take_left'
          simp only [List.length_append, List.length_cons, List.length_nil] at hlen ⊢
          omega
        rw [this]
      · intro e he
        exact hgtall e (by rw [hbb]; exact List.mem_append_left _ he)
      · exact hgtall l' (by rw [hbb]; simp)

theorem ScanInv.congr {δ : Int → ℚ} {K : Nat} {P Q : Int → Prop} {E : List (ℚ × Int)}
    (h : ScanInv δ K P E) (hPQ : ∀ m, P m ↔ Q m) : ScanInv δ K Q E where
  len := h.len
  sorted := h.sorted
  entry := fun e he => (h.entry e he).imp id (fun hh => ⟨(hPQ _).mp hh.1, hh.2⟩)
  once := h.once
  best := fun m hm => h.best m ((hPQ m).mpr hm)

theorem ScanInv.init (δ : Int → ℚ) (K : Nat) :
    ScanInv δ K (fun _ => False) (List.replicate K (FLT_MAX, -1)) where
  len := by simp
  sorted := by
    apply List.pairwise_of_forall_mem_list
    intro a ha b hb
    rw [List.eq_of_mem_replicate ha, List.eq_of_mem_replicate hb]
  entry := fun e he => Or.inl (List.eq_of_mem_replicate he)
  once := by
    intro m hm
    have : List.count m (List.map Prod.snd (List.replicate K (FLT_MAX, (-1 : Int)))) = 0 := by
      rw [List.count_eq_zero]
      intro hmem
      simp only [List.map_replicate] at hmem
      exact hm (List.eq_of_mem_replicate hmem)
    omega
  best := fun m hm => hm.elim

theorem ScanInv.step {δ : Int → ℚ} {K : Int} {P : Int → Prop} {E : List (ℚ × Int)}
    (hK : 1 ≤ K) (h : ScanInv δ K.toNat P E) (hP : ∀ m, P m → m ≠ -1) (j : Int)
    (hj : ¬ P j) (hj1 : j ≠ -1) :
    ∃ R, insertInOrder (E.map Prod.fst) (E.map Prod.snd) j (δ j) K
          = some (R.map Prod.fst, R.map Prod.snd) ∧
      ScanInv δ K.toNat (fun m => P m ∨ m = j) R := by
  obtain ⟨R, hR, hcase⟩ := insertInOrder_pairs E j (δ j) K hK h.len h.sorted
  refine ⟨R, hR, ?_⟩
  have hjE : ∀ e ∈ E, e.2 ≠ j := by
    intro e he hej
    rcases h.entry e he with rfl | ⟨hp, _⟩
    · exact hj1 hej.symm
    · exact hj (hej ▸ hp)
  rcases hcase with ⟨rfl, hle⟩ | ⟨a, b, l, rfl, rfl, ha, hb, hl⟩
  · exact
      { len := h.len
        sorted := h.sorted
        entry := fun e he => (h.entry e he).imp id (fun hh => ⟨Or.inl hh.1, hh.2⟩)
        once := h.once
        best := by
          intro m hm hmem e he
          rcases hm with hm | rfl
          · exact h.best m hm hmem e he
          · exact hle e he }
  · have hs := h.sorted
    unfold SortedFst at hs
    have hs1 := List.pairwise_append.mp hs
    have hs2 := List.pairwise_append.mp hs1.1
    have hal : ∀ e ∈ a, e.1 ≤ l.1 := fun e he =>
      hs1.2.2 e (List.mem_append_left _ he) l (by simp)
    have hbl : ∀ e ∈ b, e.1 ≤ l.1 := fun e he =>
      hs1.2.2 e (List.mem_append_right _ he) l (by simp)
    refine
      { len := ?_
        sorted := ?_
        entry := ?_
        once := ?_
        best := ?_ }
    · have := h.len
      simp only [List.length_append, List.length_cons, List.length_nil] at this ⊢
      omega
    · unfold SortedFst
      rw [List.pairwise_append]
      refine ⟨hs2.1, ?_, ?_⟩
      · rw [List.pairwise_cons]
        exact ⟨fun e he => le_of_lt (hb e he), hs2.2.1⟩
      · intro x hx y hy
        rcases List.mem_cons.mp hy with rfl | hy
        · exact ha x hx
        · exact hs2.2.2 x hx y hy
    · intro e he
      rcases List.mem_append.mp he with he | he
      · exact (h.entry e (by simp [he])).imp id (fun hh => ⟨Or.inl hh.1, hh.2⟩)
      · rcases List.mem_cons.mp he with rfl | he
        · exact Or.inr ⟨Or.inr rfl, rfl⟩
        · exact (h.entry e (by simp [he])).imp id (fun hh => ⟨Or.inl hh.1, hh.2⟩)
    · intro m hm
      have h1 := h.once m hm
      simp only [List.map_append, List.map_cons, List.map_nil, List.count_append,
        List.count_cons, List.count_nil] at h1 ⊢
      by_cases hmj : j = m
      · subst hmj
        have ha0 : List.count j (List.map Prod.snd a) = 0 := by
          rw [List.count_eq_zero]
          intro hmem
          obtain ⟨e, he, hej⟩ := List.mem_map.mp hmem
          exact hjE e (by simp [he]) hej
        have hb0 : List.count j (List.map Prod.snd b) = 0 := by
          rw [List.count_eq_zero]
          intro hmem
          obtain ⟨e, he, hej⟩ := List.mem_map.mp hmem
          exact hjE e (by simp [he]) hej
        simp [ha0, hb0]
      · have : (j == m) = false := by simpa using hmj
        simp only [this] at h1 ⊢
        split at h1 <;> simp at h1 ⊢ <;> omega
    · intro m hm hmem e he
      have hmne : m ≠ j := by
        intro hmj
        apply hmem
        simp [hmj]
      have hPm : P m := by
        rcases hm with hm | hm
        · exact hm
        · exact absurd hm hmne
      have hma : m ∉ List.map Prod.snd a := fun hh => hmem (by
        simp only [List.map_append, List.map_cons, List.mem_append, List.mem_cons]
        exact Or.inl hh)
      have hmb : m ∉ List.map Prod.snd b := fun hh => hmem (by
        simp only [List.map_append, List.map_cons, List.mem_append, List.mem_cons]
        exact Or.inr (Or.inr hh))
      have hlm : l.1 ≤ δ m := by
        by_cases hml : l.2 = m
        · rcases h.entry l (by simp) with hsent | ⟨_, hd⟩
          · exfalso
            apply hP m hPm
            rw [← hml, hsent]
          · rw [hd, hml]
        · apply h.best m hPm _ l (by simp)
          simp only [List.map_append, List.map_cons, List.map_nil, List.mem_append,
            List.mem_cons, List.mem_singleton, List.not_mem_nil, or_false]
          intro hh
          rcases hh with (hh | hh) | hh
          · exact hma hh
          · exact hmb hh
          · exact hml hh.symm
      rcases List.mem_append.mp he with he | he
      · exact le_trans (hal e he) hlm
      · rcases List.mem_cons.mp he with rfl | he
        · exact le_trans (le_of_lt hl) hlm
        · exact le_trans (hbl e he) hlm

theorem scanAtoms_inv (position : List Vec3) (i K : Int) (hK : 1 ≤ K) (δ : Int → ℚ) :
    ∀ (js : List Int) (P : Int → Prop) (E : List (ℚ × Int)),
      ScanInv δ K.toNat P E → (∀ m, P m → m ≠ -1) → js.Nodup →
      (∀ j ∈ js, ¬ P j ∧ j ≠ -1) →
      (∀ j ∈ js, j ≠ i → distance position i j = some (δ j)) →
      ∃ R, scanAtoms position i K js (E.map Prod.fst) (E.map Prod.snd)
            = some (R.map Prod.fst, R.map Prod.snd) ∧
        ScanInv δ K.toNat (fun m => P m ∨ (m ∈ js ∧ m ≠ i)) R := by
  intro js
  induction js with
  | nil =>
    intro P E h _ _ _ _
    exact ⟨E, by simp [scanAtoms], h.congr (by simp)⟩
  | cons j js ih =>
    intro P E h hP hnd hjs hdist
    have hnd' := List.nodup_cons.mp hnd
    by_cases hij : i = j
    · obtain ⟨R, hR, hinv⟩ := ih P E h hP hnd'.2
        (fun m hm => hjs m (List.mem_cons_of_mem _ hm))
        (fun m hm => hdist m (List.mem_cons_of_mem _ hm))
      refine ⟨R, by simp [scanAtoms, hij, ← hR], hinv.congr ?_⟩
      intro m
      constructor
      · rintro (hm | ⟨hm, hmi⟩)
        · exact Or.inl hm
        · exact Or.inr ⟨List.mem_cons_of_mem _ hm, hmi⟩
      · rintro (hm | ⟨hm, hmi⟩)
        · exact Or.inl hm
        · rcases List.mem_cons.mp hm with rfl | hm
          · exact absurd hij.symm hmi
          · exact Or.inr ⟨hm, hmi⟩
    · have hj := hjs j (List.mem_cons_self _ _)
      obtain ⟨R1, hR1, hinv1⟩ := ScanInv.step hK h hP j hj.1 hj.2
      have hP1 : ∀ m, (P m ∨ m = j) → m ≠ -1 := by
        rintro m (hm | rfl)
        · exact hP m hm
        · exact hj.2
      obtain ⟨R, hR, hinv⟩ := ih (fun m => P m ∨ m = j) R1 hinv1 hP1 hnd'.2
        (by
          intro m hm
          refine ⟨?_, (hjs m (List.mem_cons_of_mem _ hm)).2⟩
          rintro (hpm | rfl)
          · exact (hjs m (List.mem_cons_of_mem _ hm)).1 hpm
          · exact hnd'.1 hm)
        (fun m hm => hdist m (List.mem_cons_of_mem _ hm))
      refine ⟨R, ?_, hinv.congr ?_⟩
      · have hd := hdist j (List.mem_cons_self _ _) (fun hh => hij hh.symm)
        simp only [scanAtoms, hij, if_false, hd, hR1]
        exact hR
      · intro m
        constructor
        · rintro ((hm | rfl) | ⟨hm, hmi⟩)
          · exact Or.inl hm
          · exact Or.inr ⟨List.mem_cons_self _ _, fun hh => hij hh.symm⟩
          · exact Or.inr ⟨List.mem_cons_of_mem _ hm, hmi⟩
        · rintro (hm | ⟨hm, hmi⟩)
          · exact Or.inl (Or.inl hm)
          · rcases List.mem_cons.mp hm with rfl | hm
            · exact Or.inl (Or.inr rfl)
            · exact Or.inr ⟨hm, hmi⟩

/-! ## Index ranges and reads -/

theorem mem_intRange {n j : Int} : j ∈ intRange n ↔ 0 ≤ j ∧ j < n := by
  unfold intRange
  simp only [List.mem_map, List.mem_range]
  constructor
  · rintro ⟨a, ha, rfl⟩
    constructor
    · exact Int.ofNat_nonneg a
    · simp only [Int.ofNat_eq_coe]
      omega
  · rintro ⟨h0, hn⟩
    refine ⟨j.toNat, by omega, ?_⟩
    simp only [Int.ofNat_eq_coe]
    omega

theorem nodup_intRange (n : Int) : (intRange n).Nodup := by
  unfold intRange
  apply List.Nodup.map _ (List.nodup_range _)
  intro a b hab
  simpa using hab

theorem length_intRange (n : Int) : (intRange n).length = n.toNat := by
  simp [intRange]

theorem readPos_eq_some {position : List Vec3} {i : Int} (h0 : 0 ≤ i)
    (h1 : i < position.length) : ∃ p, readPos position i = some p ∧ p ∈ position := by
  have hlt : i.toNat < position.length := by omega
  refine ⟨position[i.toNat], ?_, List.getElem_mem _⟩
  simp [readPos, h0, List.getElem?_eq_getElem hlt]

theorem readPos_eq_none {position : List Vec3} {i : Int} (h : i < 0 ∨ (position.length : Int) ≤ i) :
    readPos position i = none := by
  unfold readPos
  by_cases h0 : 0 ≤ i
  · have : position.length ≤ i.toNat := by omega
    simp [h0, List.getElem?_eq_none this]
  · simp [h0]

theorem readPos_isSome_iff {position : List Vec3} {i : Int} :
    (∃ p, readPos position i = some p) ↔ 0 ≤ i ∧ i < position.length := by
  constructor
  · rintro ⟨p, hp⟩
    by_contra hcon
    have : i < 0 ∨ (position.length : Int) ≤ i := by omega
    rw [readPos_eq_none this] at hp
    exact Option.noConfusion hp
  · rintro ⟨h0, h1⟩
    obtain ⟨p, hp, _⟩ := readPos_eq_some h0 h1
    exact ⟨p, hp⟩

theorem distance_eq_some {position : List Vec3} {i j : Int} (hi0 : 0 ≤ i)
    (hi1 : i < position.length) (hj0 : 0 ≤ j) (hj1 : j < position.length) :
    ∃ a ∈ position, ∃ b ∈ position, distance position i j = some (dist2 a b) := by
  obtain ⟨a, ha, hma⟩ := readPos_eq_some hi0 hi1
  obtain ⟨b, hb, hmb⟩ := readPos_eq_some hj0 hj1
  exact ⟨a, hma, b, hmb, by simp [distance, ha, hb]⟩

theorem distance_sentinel (position : List Vec3) (i : Int) : distance position i (-1) = none := by
  unfold distance
  cases readPos position i with
  | none => rfl
  | some p => simp [readPos]

/-- The list of pairs left by the inner loop of `buildNeighborList` for atom `i`. -/
theorem nearestOf_inv (position : List Vec3) (nAtom K i : Int)
    (hN : nAtom = position.length) (hK : 1 ≤ K) (_hi0 : 0 ≤ i) (hi1 : i < nAtom) :
    ∃ E, nearestOf nAtom position K i = some (E.map Prod.fst, E.map Prod.snd) ∧
      ScanInv (sqDist position i) K.toNat (fun m => (0 ≤ m ∧ m < nAtom) ∧ m ≠ i) E := by
  have h0 := ScanInv.init (sqDist position i) K.toNat
  obtain ⟨R, hR, hinv⟩ := scanAtoms_inv position i K hK (sqDist position i) (intRange nAtom)
    (fun _ => False) _ h0 (fun _ hm => hm.elim) (nodup_intRange nAtom)
    (by
      intro j hj
      have := mem_intRange.mp hj
      exact ⟨id, by omega⟩)
    (by
      intro j hj _
      have hj' := mem_intRange.mp hj
      have hi1' : i < position.length := by omega
      have hj1' : j < position.length := by omega
      obtain ⟨a, _, b, _, hd⟩ := distance_eq_some _hi0 hi1' hj'.1 hj1'
      simp [sqDist, hd])
  refine ⟨R, ?_, hinv.congr ?_⟩
  · have hK' : ¬ K < 0 := by omega
    simp only [nearestOf, hK', if_false]
    simpa using hR
  · intro m
    simp [mem_intRange]

/-! ## Writing the rows -/

theorem populateLoop_spec (i K : Int) (cutsq : ℚ) :
    ∀ (cs : List Int) (ds : List ℚ) (idx : Int) (nl : Int → Int) (vp : Int),
      ds.length = cs.length →
      ∃ nl', populateLoop i K cutsq ds cs idx nl vp = some (nl', vp + validCount cutsq ds) ∧
        (∀ (k : Nat) (hk : k < cs.length), nl' (idx + k + K * i) = cs[k]) ∧
        (∀ m, (∀ k : Nat, k < cs.length → m ≠ idx + k + K * i) → nl' m = nl m) := by
  intro cs
  induction cs with
  | nil =>
    intro ds idx nl vp hlen
    have : ds = [] := List.length_eq_zero.mp (by simpa using hlen)
    subst this
    exact ⟨nl, by simp [populateLoop, validCount], by simp, by simp⟩
  | cons c cs ih =>
    intro ds idx nl vp hlen
    cases ds with
    | nil => simp at hlen
    | cons d ds =>
      have hlen' : ds.length = cs.length := by simpa using hlen
      obtain ⟨nl', h1, h2, h3⟩ := ih ds (idx + 1)
        (Function.update nl (idx + K * i) c) (if d < cutsq then vp + 1 else vp) hlen'
      refine ⟨nl', ?_, ?_, ?_⟩
      · simp only [populateLoop, h1, validCount, List.countP_cons]
        by_cases hd : d < cutsq
        · simp [hd]; ring
        · simp [hd]
      · intro k hk
        cases k with
        | zero =>
          have := h3 (idx + K * i) (by intro k _; omega)
          simp [this]
        | succ k =>
          have := h2 k (by simpa using hk)
          simp only [List.getElem_cons_succ]
          rw [← this]
          congr 1
          push_cast
          ring
      · intro m hm
        have := h3 m (by
          intro k hk
          have := hm (k + 1) (by simp; omega)
          push_cast at this
          intro hh
          apply this
          rw [hh]
          ring)
        rw [this]
        apply Function.update_noteq
        have := hm 0 (by simp)
        simpa using this

theorem rowOf_congr {nl1 nl2 : Int → Int} {K i : Int}
    (h : ∀ k, 0 ≤ k → k < K → nl1 (k + K * i) = nl2 (k + K * i)) :
    rowOf nl1 K i = rowOf nl2 K i := by
  unfold rowOf
  apply List.map_congr_left
  intro k hk
  have := mem_intRange.mp hk
  exact h k this.1 this.2

theorem rowOf_eq_of_cells {nl : Int → Int} {K i : Int} {cs : List Int}
    (hlen : cs.length = K.toNat)
    (h : ∀ (k : Nat) (hk : k < cs.length), nl (0 + k + K * i) = cs[k]) :
    rowOf nl K i = cs := by
  apply List.ext_getElem
  · simp [rowOf, length_intRange, hlen]
  · intro n h1 h2
    simp only [rowOf, intRange, List.map_map, List.getElem_map, List.getElem_range,
      Function.comp_apply, Int.ofNat_eq_coe]
    have := h n h2
    simpa using this

theorem row_index {K i k : Int} (h0 : 0 ≤ k) (h1 : k < K) : (k + K * i) / K = i := by
  have hK : K ≠ 0 := by omega
  rw [Int.add_mul_ediv_left _ _ hK, Int.ediv_eq_zero_of_lt h0 h1]
  simp

theorem populateNeighborList_spec (cd : List ℚ) (cl : List Int) (i nAtom : Int)
    (nl : Int → Int) (cutsq : ℚ) (K : Int) (h1 : cd.length = K.toNat)
    (h2 : cl.length = K.toNat) :
    ∃ nl', populateNeighborList cd cl i nAtom nl cutsq K = some (nl', (validCount cutsq cd : Int)) ∧
      rowOf nl' K i = cl.insertionSort (fun a b => a ≤ b) ∧
      (∀ m, m / K ≠ i → nl' m = nl m) := by
  have hlen : cd.length = (cl.insertionSort (fun a b => a ≤ b)).length := by
    rw [List.length_insertionSort, h1, h2]
  obtain ⟨nl', e1, e2, e3⟩ := populateLoop_spec i K cutsq _ cd 0 nl 0 hlen
  refine ⟨nl', by simpa [populateNeighborList] using e1, ?_, ?_⟩
  · exact rowOf_eq_of_cells (by rw [List.length_insertionSort, h2]) e2
  · intro m hm
    apply e3
    intro k hk hmk
    apply hm
    rw [hmk]
    rw [List.length_insertionSort, h2] at hk
    have : (0 : Int) + k + K * i = (k : Int) + K * i := by ring
    rw [this]
    exact row_index (by omega) (by omega)

theorem buildLoop_spec (nAtom : Int) (position : List Vec3) (cutsq : ℚ) (K : Int) :
    ∀ (is : List Int) (nl : Int → Int) (tot : Int), is.Nodup →
      (∀ i ∈ is, ∃ cd cl, nearestOf nAtom position K i = some (cd, cl) ∧
        cd.length = K.toNat ∧ cl.length = K.toNat) →
      ∃ nl', buildLoop nAtom position cutsq K is nl tot
          = some (nl', tot + (is.map (pairsOf nAtom position cutsq K)).sum) ∧
        (∀ i ∈ is, ∀ cd cl, nearestOf nAtom position K i = some (cd, cl) →
          rowOf nl' K i = cl.insertionSort (fun a b => a ≤ b)) ∧
        (∀ m, (∀ i ∈ is, m / K ≠ i) → nl' m = nl m) := by
  intro is
  induction is with
  | nil =>
    intro nl tot _ _
    exact ⟨nl, by simp [buildLoop], by simp, by simp⟩
  | cons i is ih =>
    intro nl tot hnd hall
    have hnd' := List.nodup_cons.mp hnd
    obtain ⟨cd, cl, hr, hcd, hcl⟩ := hall i (List.mem_cons_self _ _)
    obtain ⟨nl1, hp, hrow, hframe⟩ :=
      populateNeighborList_spec cd cl i nAtom nl cutsq K hcd hcl
    obtain ⟨nl2, hb, hrows, hframe2⟩ := ih nl1 (tot + validCount cutsq cd) hnd'.2
      (fun m hm => hall m (List.mem_cons_of_mem _ hm))
    refine ⟨nl2, ?_, ?_, ?_⟩
    · simp only [buildLoop, hr, hp, hb, List.map_cons, List.sum_cons, pairsOf]
      congr 2
      ring
    · intro m hm cd' cl' hr'
      rcases List.mem_cons.mp hm with rfl | hm
      · rw [hr] at hr'
        have hcl' : cl = cl' := by
          have := Option.some.inj hr'
          exact (Prod.mk.inj this).2
        subst hcl'
        rw [← hrow]
        apply rowOf_congr
        intro k hk0 hk1
        apply hframe2
        intro i' hi'
        rw [row_index hk0 hk1]
        intro hh
        exact hnd'.1 (hh ▸ hi')
      · exact hrows m hm cd' cl' hr'
    · intro m hm
      rw [hframe2 m (fun i' hi' => hm i' (List.mem_cons_of_mem _ hi'))]
      exact hframe m (hm i (List.mem_cons_self _ _))

/-! ## The builder as a whole -/

theorem sqDist_spec {position : List Vec3} {i m : Int} (hi0 : 0 ≤ i)
    (hi1 : i < position.length) (hm0 : 0 ≤ m) (hm1 : m < position.length) :
    distance position i m = some (sqDist position i m) := by
  obtain ⟨a, _, b, _, hd⟩ := distance_eq_some hi0 hi1 hm0 hm1
  simp [sqDist, hd]

theorem sqDist_lt {position : List Vec3} {i m : Int}
    (hD : ∀ a ∈ position, ∀ b ∈ position, dist2 a b < FLT_MAX) (hi0 : 0 ≤ i)
    (hi1 : i < position.length) (hm0 : 0 ≤ m) (hm1 : m < position.length) :
    sqDist position i m < FLT_MAX := by
  obtain ⟨a, ha, b, hb, hd⟩ := distance_eq_some hi0 hi1 hm0 hm1
  simp only [sqDist, hd, Option.getD_some]
  exact hD a ha b hb

/-- What `buildNeighborList` returns and writes when the position array holds `nAtom` atoms and
`maxNeighbors` is at least 1: it has a result, the returned count is the sum of the counters
`validPairs`, and row `i` is the list `currList` of atom `i` in increasing order of index. -/
theorem buildNeighborList_spec (position : List Vec3) (nAtom K : Int) (nl0 : Int → Int)
    (cutsq : ℚ) (hN : nAtom = position.length) (hK : 1 ≤ K) :
    ∃ nl, buildNeighborList nAtom position nl0 cutsq K
        = some (nl, ((intRange nAtom).map (pairsOf nAtom position cutsq K)).sum) ∧
      (∀ m, ¬ (0 ≤ m / K ∧ m / K < nAtom) → nl m = nl0 m) ∧
      ∀ i, 0 ≤ i → i < nAtom →
        ∃ E, nearestOf nAtom position K i = some (E.map Prod.fst, E.map Prod.snd) ∧
          ScanInv (sqDist position i) K.toNat (fun m => (0 ≤ m ∧ m < nAtom) ∧ m ≠ i) E ∧
          rowOf nl K i = (E.map Prod.snd).insertionSort (fun a b => a ≤ b) := by
  obtain ⟨nl, h1, h2, h3⟩ := buildLoop_spec nAtom position cutsq K (intRange nAtom) nl0 0
    (nodup_intRange nAtom) (by
      intro i hi
      have hi' := mem_intRange.mp hi
      obtain ⟨E, hE, hinv⟩ := nearestOf_inv position nAtom K i hN hK hi'.1 hi'.2
      exact ⟨_, _, hE, by simp [hinv.len], by simp [hinv.len]⟩)
  refine ⟨nl, by simpa [buildNeighborList] using h1, ?_, ?_⟩
  · intro m hm
    apply h3
    intro i hi hmi
    apply hm
    rw [hmi]
    exact mem_intRange.mp hi
  · intro i hi0 hi1
    obtain ⟨E, hE, hinv⟩ := nearestOf_inv position nAtom K i hN hK hi0 hi1
    exact ⟨E, hE, hinv, h2 i (mem_intRange.mpr ⟨hi0, hi1⟩) _ _ hE⟩

theorem mem_othersOf {nAtom i m : Int} : m ∈ othersOf nAtom i ↔ (0 ≤ m ∧ m < nAtom) ∧ m ≠ i := by
  unfold othersOf
  rw [(nodup_intRange nAtom).mem_erase_iff, mem_intRange]
  tauto

theorem nodup_othersOf (nAtom i : Int) : (othersOf nAtom i).Nodup :=
  (nodup_intRange nAtom).erase i

theorem length_othersOf {nAtom i : Int} (h0 : 0 ≤ i) (h1 : i < nAtom) :
    (othersOf nAtom i).length = nAtom.toNat - 1 := by
  unfold othersOf
  rw [List.length_erase_of_mem (mem_intRange.mpr ⟨h0, h1⟩), length_intRange]

/-- When every distance is below `FLT_MAX`, a sentinel that is left in the lists means that
every atom treated so far is in the list. -/
theorem ScanInv.all_listed {δ : Int → ℚ} {K : Nat} {P : Int → Prop} {E : List (ℚ × Int)}
    (h : ScanInv δ K P E) (hδ : ∀ m, P m → δ m < FLT_MAX)
    (hs : (FLT_MAX, (-1 : Int)) ∈ E) : ∀ m, P m → m ∈ E.map Prod.snd := by
  intro m hm
  by_contra hcon
  have := h.best m hm hcon _ hs
  exact absurd (hδ m hm) (not_lt.mpr this)

/-- With at most `nAtom - 1` places and every distance below `FLT_MAX`, no sentinel is left. -/
theorem ScanInv.no_sentinel {position : List Vec3} {nAtom K i : Int} {E : List (ℚ × Int)}
    (h : ScanInv (sqDist position i) K.toNat (fun m => (0 ≤ m ∧ m < nAtom) ∧ m ≠ i) E)
    (hN : nAtom = position.length) (hi0 : 0 ≤ i) (hi1 : i < nAtom) (hK2 : K ≤ nAtom - 1)
    (hD : ∀ a ∈ position, ∀ b ∈ position, dist2 a b < FLT_MAX) :
    ∀ e ∈ E, ((0 ≤ e.2 ∧ e.2 < nAtom) ∧ e.2 ≠ i) ∧ e.1 = sqDist position i e.2 := by
  have hδ : ∀ m, ((0 ≤ m ∧ m < nAtom) ∧ m ≠ i) → sqDist position i m < FLT_MAX := by
    intro m hm
    exact sqDist_lt hD hi0 (by omega) hm.1.1 (by omega)
  have hns : (FLT_MAX, (-1 : Int)) ∉ E := by
    intro hs
    have hall := h.all_listed hδ hs
    have hsub : (-1 : Int) :: othersOf nAtom i ⊆ E.map Prod.snd := by
      intro m hm
      rcases List.mem_cons.mp hm with rfl | hm
      · exact List.mem_map.mpr ⟨_, hs, rfl⟩
      · exact hall m (mem_othersOf.mp hm)
    have hnd : ((-1 : Int) :: othersOf nAtom i).Nodup := by
      rw [List.nodup_cons]
      refine ⟨?_, nodup_othersOf nAtom i⟩
      intro hm
      have := (mem_othersOf.mp hm).1.1
      omega
    have hle := (List.subperm_of_subset hnd hsub).length_le
    simp only [List.length_cons, List.length_map, h.len, length_othersOf hi0 hi1] at hle
    omega
  intro e he
  rcases h.entry e he with rfl | hh
  · exact absurd he hns
  · exact hh

/-- C1. For a particle set of `N ≥ 2` atoms, `1 ≤ K ≤ N - 1` and all squared distances below
`FLT_MAX`, `buildNeighborList` has a result and every row `i` of the list it writes holds `K`
pairwise distinct atom indices, none equal to `i`, and each listed atom is at least as close
to `i` (by squared distance) as each atom other than `i` that is not listed. -/
theorem buildNeighborList_rows_nearest (position : List Vec3) (nAtom K : Int)
    (nl0 : Int → Int) (cutsq : ℚ) (hN : nAtom = position.length) (hK1 : 1 ≤ K)
    (hK2 : K ≤ nAtom - 1) (hD : ∀ a ∈ position, ∀ b ∈ position, dist2 a b < FLT_MAX) :
    ∃ nl total, buildNeighborList nAtom position nl0 cutsq K = some (nl, total) ∧
      ∀ i, 0 ≤ i → i < nAtom →
        (rowOf nl K i).length = K.toNat ∧ (rowOf nl K i).Nodup ∧
        (∀ j ∈ rowOf nl K i, (0 ≤ j ∧ j < nAtom) ∧ j ≠ i) ∧
        (∀ j ∈ rowOf nl K i, ∀ m, 0 ≤ m → m < nAtom → m ≠ i → m ∉ rowOf nl K i →
          ∃ dj dm, distance position i j = some dj ∧ distance position i m = some dm ∧
            dj ≤ dm) := by
  obtain ⟨nl, hb, _, hrows⟩ := buildNeighborList_spec position nAtom K nl0 cutsq hN hK1
  refine ⟨nl, _, hb, ?_⟩
  intro i hi0 hi1
  obtain ⟨E, _, hinv, hrow⟩ := hrows i hi0 hi1
  have hreal := hinv.no_sentinel hN hi0 hi1 hK2 hD
  have hperm := List.perm_insertionSort (fun a b : Int => a ≤ b) (E.map Prod.snd)
  have hmem : ∀ j, j ∈ rowOf nl K i ↔ j ∈ E.map Prod.snd := by
    intro j
    rw [hrow]
    exact hperm.mem_iff
  refine ⟨?_, ?_, ?_, ?_⟩
  · rw [hrow, List.length_insertionSort, List.length_map, hinv.len]
  · rw [hrow, hperm.nodup_iff, List.nodup_iff_count_le_one]
    intro a
    by_cases ha : a = -1
    · have : List.count a (E.map Prod.snd) = 0 := by
        rw [List.count_eq_zero]
        intro hmm
        obtain ⟨e, he, hea⟩ := List.mem_map.mp hmm
        have := (hreal e he).1.1.1
        omega
      omega
    · exact hinv.once a ha
  · intro j hj
    obtain ⟨e, he, rfl⟩ := List.mem_map.mp ((hmem j).mp hj)
    exact (hreal e he).1
  · intro j hj m hm0 hm1 hmi hm
    obtain ⟨e, he, rfl⟩ := List.mem_map.mp ((hmem j).mp hj)
    have hej := hreal e he
    refine ⟨sqDist position i e.2, sqDist position i m,
      sqDist_spec hi0 (by omega) hej.1.1.1 (by omega),
      sqDist_spec hi0 (by omega) hm0 (by omega), ?_⟩
    rw [← hej.2]
    exact hinv.best m ⟨⟨hm0, hm1⟩, hmi⟩ (fun hh => hm ((hmem m).mpr hh)) e he

/-- Witness of C1 on the four atoms of the scenario with `K = 2`. -/
theorem buildNeighborList_rows_nearest_witness :
    ((4 : Int) = (scenario.length : Int) ∧ (1 : Int) ≤ 2 ∧ (2 : Int) ≤ 4 - 1 ∧
      ∀ a ∈ scenario, ∀ b ∈ scenario, dist2 a b < FLT_MAX) ∧
    ∃ nl total, buildNeighborList 4 scenario (fun _ => 0) 10 2 = some (nl, total) ∧
      ∀ i, 0 ≤ i → i < 4 →
        (rowOf nl 2 i).length = (2 : Int).toNat ∧ (rowOf nl 2 i).Nodup ∧
        (∀ j ∈ rowOf nl 2 i, (0 ≤ j ∧ j < 4) ∧ j ≠ i) ∧
        (∀ j ∈ rowOf nl 2 i, ∀ m, 0 ≤ m → m < 4 → m ≠ i → m ∉ rowOf nl 2 i →
          ∃ dj dm, distance scenario i j = some dj ∧ distance scenario i m = some dm ∧
            dj ≤ dm) :=
  ⟨⟨by rfl, by decide, by decide, by simp [scenario, dist2, FLT_MAX]; norm_num⟩,
    buildNeighborList_rows_nearest scenario 4 2 (fun _ => 0) 10 (by rfl) (by decide) (by decide)
      (by simp [scenario, dist2, FLT_MAX]; norm_num)⟩

/-- C2, counterexample. On the four atoms of the scenario with `K = 2`, row 3 is `[1, 2]`:
atom 1 at squared distance 66 comes before atom 2 at squared distance 59. -/
theorem rows_by_distance_counterexample :
    ∃ nl total, buildNeighborList 4 scenario (fun _ => 0) 10 2 = some (nl, total) ∧
      rowOf nl 2 3 = [1, 2] ∧ distance scenario 3 1 = some 66 ∧
      distance scenario 3 2 = some 59 ∧ ¬ RowByDistance scenario 3 (rowOf nl 2 3) := by
  have hrows : builtRows 4 scenario 10 2 = some ([[1, 2], [0, 2], [0, 1], [1, 2]], 6) := by
    decide!
  have hd : distance scenario 3 1 = some 66 ∧ distance scenario 3 2 = some 59 := by decide!
  unfold builtRows at hrows
  cases hb : buildNeighborList 4 scenario (fun _ => 0) 10 2 with
  | none => rw [hb] at hrows; exact Option.noConfusion hrows
  | some r =>
    rw [hb] at hrows
    have hr : rowOf r.1 2 3 = [1, 2] := by
      have h1 := Option.some.inj hrows
      have h2 := (Prod.mk.inj h1).1
      have hi : intRange 4 = [0, 1, 2, 3] := by decide
      rw [hi] at h2
      simp only [List.map_cons, List.map_nil] at h2
      injection h2 with _ h2
      injection h2 with _ h2
      injection h2 with _ h2
      injection h2 with h2 _
    refine ⟨r.1, r.2, rfl, hr, hd.1, hd.2, ?_⟩
    rw [hr]
    intro hp
    obtain ⟨da, db, h1, h2, hle⟩ := List.rel_of_pairwise_cons hp (List.mem_singleton_self _)
    rw [hd.1] at h1
    rw [hd.2] at h2
    have e1 := Option.some.inj h1
    have e2 := Option.some.inj h2
    rw [← e1, ← e2] at hle
    exact absurd hle (by norm_num)

/-- C2, as amended. When the position array holds `nAtom` atoms and `maxNeighbors ≥ 1`,
`buildNeighborList` has a result, and row `i` of the list it writes is the list `currList` of
atom `i` (whose distances `currDist` are in non-decreasing order) put in non-decreasing order of
atom index by `currList.sort()`. -/
theorem buildNeighborList_rows_index_sorted (position : List Vec3) (nAtom K : Int)
    (nl0 : Int → Int) (cutsq : ℚ) (hN : nAtom = position.length) (hK1 : 1 ≤ K) :
    ∃ nl total, buildNeighborList nAtom position nl0 cutsq K = some (nl, total) ∧
      ∀ i, 0 ≤ i → i < nAtom →
        ∃ currDist currList, nearestOf nAtom position K i = some (currDist, currList) ∧
          currDist.Sorted (fun a b => a ≤ b) ∧
          rowOf nl K i = currList.insertionSort (fun a b => a ≤ b) ∧
          (rowOf nl K i).Sorted (fun a b => a ≤ b) := by
  obtain ⟨nl, hb, _, hrows⟩ := buildNeighborList_spec position nAtom K nl0 cutsq hN hK1
  refine ⟨nl, _, hb, ?_⟩
  intro i hi0 hi1
  obtain ⟨E, hE, hinv, hrow⟩ := hrows i hi0 hi1
  refine ⟨_, _, hE, ?_, hrow, ?_⟩
  · exact List.pairwise_map.mpr hinv.sorted
  · rw [hrow]
    exact List.sorted_insertionSort _ _

/-- Witness of the amended C2 on the four atoms of the scenario with `K = 2`. -/
theorem buildNeighborList_rows_index_sorted_witness :
    ((4 : Int) = (scenario.length : Int) ∧ (1 : Int) ≤ 2) ∧
    ∃ nl total, buildNeighborList 4 scenario (fun _ => 0) 10 2 = some (nl, total) ∧
      ∀ i, 0 ≤ i → i < 4 →
        ∃ currDist currList, nearestOf 4 scenario 2 i = some (currDist, currList) ∧
          currDist.Sorted (fun a b => a ≤ b) ∧
          rowOf nl 2 i = currList.insertionSort (fun a b => a ≤ b) ∧
          (rowOf nl 2 i).Sorted (fun a b => a ≤ b) :=
  ⟨⟨by rfl, by decide⟩,
    buildNeighborList_rows_index_sorted scenario 4 2 (fun _ => 0) 10 (by rfl) (by decide)⟩

/-- C3, counterexample. For two atoms at squared distance `2^128 > FLT_MAX`, `K = 1` and
`cutsq = 2^128`, both rows hold the sentinel, the returned count is 2 and no entry of a row is
an atom within the cutoff. -/
theorem pair_count_counterexample :
    ∃ nl total, buildNeighborList 2 farPair (fun _ => 0)
        340282366920938463463374607431768211456 1 = some (nl, total) ∧
      rowOf nl 1 0 = [-1] ∧ rowOf nl 1 1 = [-1] ∧ total = 2 ∧
      ((intRange 2).map (fun i =>
        (listedWithin farPair 340282366920938463463374607431768211456 nl 1 i : Int))).sum = 0 ∧
      total ≠ ((intRange 2).map (fun i =>
        (listedWithin farPair 340282366920938463463374607431768211456 nl 1 i : Int))).sum := by
  have h : (buildNeighborList 2 farPair (fun _ => 0)
        340282366920938463463374607431768211456 1).map
      (fun r => (rowOf r.1 1 0, rowOf r.1 1 1, r.2,
        ((intRange 2).map (fun i =>
          (listedWithin farPair 340282366920938463463374607431768211456 r.1 1 i : Int))).sum))
      = some ([-1], [-1], 2, 0) := by decide!
  obtain ⟨r, hr, hf⟩ := Option.map_eq_some'.mp h
  have h1 := (Prod.mk.inj hf).1
  have h2 := (Prod.mk.inj (Prod.mk.inj hf).2).1
  have h3 := (Prod.mk.inj (Prod.mk.inj (Prod.mk.inj hf).2).2).1
  have h4 := (Prod.mk.inj (Prod.mk.inj (Prod.mk.inj hf).2).2).2
  refine ⟨r.1, r.2, hr, h1, h2, h3, h4, ?_⟩
  rw [h3, h4]
  decide

theorem withinCutoff_sentinel (position : List Vec3) (cutsq : ℚ) (i : Int) :
    withinCutoff position cutsq i (-1) = false := by
  simp [withinCutoff, distance_sentinel]

/-- The counter `validPairs` of one atom is the number of listed atoms within the cutoff, as
long as no sentinel is counted. -/
theorem ScanInv.count_eq {position : List Vec3} {nAtom i : Int} {K : Nat}
    {E : List (ℚ × Int)} (cutsq : ℚ)
    (h : ScanInv (sqDist position i) K (fun m => (0 ≤ m ∧ m < nAtom) ∧ m ≠ i) E)
    (hN : nAtom = position.length) (hi0 : 0 ≤ i) (hi1 : i < nAtom)
    (hs : (FLT_MAX, (-1 : Int)) ∈ E → cutsq ≤ FLT_MAX) :
    validCount cutsq (E.map Prod.fst) =
      ((E.map Prod.snd).insertionSort (fun a b => a ≤ b)).countP
        (withinCutoff position cutsq i) := by
  rw [(List.perm_insertionSort _ _).countP_eq]
  unfold validCount
  rw [List.countP_map, List.countP_map]
  apply List.countP_congr
  intro e he
  rcases h.entry e he with rfl | ⟨hp, hd⟩
  · have := hs he
    simp [withinCutoff_sentinel, not_lt.mpr this]
  · have hi2 : i < position.length := by omega
    have hm2 : e.2 < position.length := by omega
    have hdist := sqDist_spec hi0 hi2 hp.1.1 hm2
    simp only [Function.comp_apply, withinCutoff, hdist, hd]

/-- C3, as amended. When the position array holds `nAtom` atoms, `maxNeighbors ≥ 1`, and either
`cutsq ≤ FLT_MAX` or `maxNeighbors ≤ nAtom - 1` with all squared distances below `FLT_MAX`,
the value returned by `buildNeighborList` is the sum over the atoms `i` of the number of
entries of row `i` that are atoms at squared distance below `cutsq` from `i`. -/
theorem buildNeighborList_count (position : List Vec3) (nAtom K : Int) (nl0 : Int → Int)
    (cutsq : ℚ) (hN : nAtom = position.length) (hK1 : 1 ≤ K)
    (h : cutsq ≤ FLT_MAX ∨
      (K ≤ nAtom - 1 ∧ ∀ a ∈ position, ∀ b ∈ position, dist2 a b < FLT_MAX)) :
    ∃ nl total, buildNeighborList nAtom position nl0 cutsq K = some (nl, total) ∧
      total = ((intRange nAtom).map (fun i => (listedWithin position cutsq nl K i : Int))).sum := by
  obtain ⟨nl, hb, _, hrows⟩ := buildNeighborList_spec position nAtom K nl0 cutsq hN hK1
  refine ⟨nl, _, hb, ?_⟩
  congr 1
  apply List.map_congr_left
  intro i hi
  have hi' := mem_intRange.mp hi
  obtain ⟨E, hE, hinv, hrow⟩ := hrows i hi'.1 hi'.2
  simp only [pairsOf, hE, listedWithin, hrow]
  congr 1
  apply hinv.count_eq cutsq hN hi'.1 hi'.2
  intro hs
  rcases h with h | ⟨hK2, hD⟩
  · exact h
  · have := (hinv.no_sentinel hN hi'.1 hi'.2 hK2 hD) _ hs
    have h0 := this.1.1.1
    simp at h0

/-- Witness of the amended C3 on the four atoms of the scenario with `K = 2`, `cutsq = 10`. -/
theorem buildNeighborList_count_witness :
    ((4 : Int) = (scenario.length : Int) ∧ (1 : Int) ≤ 2 ∧ ((10 : ℚ) ≤ FLT_MAX ∨
      ((2 : Int) ≤ 4 - 1 ∧ ∀ a ∈ scenario, ∀ b ∈ scenario, dist2 a b < FLT_MAX))) ∧
    ∃ nl total, buildNeighborList 4 scenario (fun _ => 0) 10 2 = some (nl, total) ∧
      total = ((intRange 4).map (fun i => (listedWithin scenario 10 nl 2 i : Int))).sum :=
  ⟨⟨by rfl, by decide, Or.inl (by decide)⟩,
    buildNeighborList_count scenario 4 2 (fun _ => 0) 10 (by rfl) (by decide)
      (Or.inl (by decide))⟩

/-- With more places than other atoms and every distance below `FLT_MAX`, the final lists hold
every other atom once and sentinels in the places that are left. -/
theorem ScanInv.padded {position : List Vec3} {nAtom K i : Int} {E : List (ℚ × Int)}
    (h : ScanInv (sqDist position i) K.toNat (fun m => (0 ≤ m ∧ m < nAtom) ∧ m ≠ i) E)
    (hN : nAtom = position.length) (hi0 : 0 ≤ i) (hi1 : i < nAtom) (hK : nAtom - 1 < K)
    (hD : ∀ a ∈ position, ∀ b ∈ position, dist2 a b < FLT_MAX) :
    (∀ j, 0 ≤ j → j < nAtom → j ≠ i → (E.map Prod.snd).count j = 1) ∧
    ((E.map Prod.snd).count (-1) : Int) = K - (nAtom - 1) ∧
    (∀ c ∈ E.map Prod.snd, c = -1 ∨ ((0 ≤ c ∧ c < nAtom) ∧ c ≠ i)) := by
  have hδ : ∀ m, ((0 ≤ m ∧ m < nAtom) ∧ m ≠ i) → sqDist position i m < FLT_MAX := by
    intro m hm
    exact sqDist_lt hD hi0 (by omega) hm.1.1 (by omega)
  have hent : ∀ c ∈ E.map Prod.snd, c = -1 ∨ ((0 ≤ c ∧ c < nAtom) ∧ c ≠ i) := by
    intro c hc
    obtain ⟨e, he, rfl⟩ := List.mem_map.mp hc
    rcases h.entry e he with rfl | hh
    · exact Or.inl rfl
    · exact Or.inr hh.1
  have hs : (FLT_MAX, (-1 : Int)) ∈ E := by
    by_contra hns
    have hreal : ∀ c ∈ E.map Prod.snd, (0 ≤ c ∧ c < nAtom) ∧ c ≠ i := by
      intro c hc
      obtain ⟨e, he, rfl⟩ := List.mem_map.mp hc
      rcases h.entry e he with rfl | hh
      · exact absurd he hns
      · exact hh.1
    have hnd : (E.map Prod.snd).Nodup := by
      rw [List.nodup_iff_count_le_one]
      intro a
      by_cases ha : a = -1
      · have : List.count a (E.map Prod.snd) = 0 := by
          rw [List.count_eq_zero]
          intro hmm
          have := (hreal a hmm).1.1
          omega
        omega
      · exact h.once a ha
    have hsub : E.map Prod.snd ⊆ othersOf nAtom i := fun c hc => mem_othersOf.mpr (hreal c hc)
    have hle := (List.subperm_of_subset hnd hsub).length_le
    simp only [List.length_map, h.len, length_othersOf hi0 hi1] at hle
    omega
  have hall := h.all_listed hδ hs
  have hcount : ∀ j, 0 ≤ j → j < nAtom → j ≠ i → (E.map Prod.snd).count j = 1 := by
    intro j hj0 hj1 hji
    have h1 := h.once j (by omega)
    have h2 := List.count_pos_iff.mpr (hall j ⟨⟨hj0, hj1⟩, hji⟩)
    omega
  refine ⟨hcount, ?_, hent⟩
  have hlen := List.length_eq_countP_add_countP (fun c : Int => c == -1) (E.map Prod.snd)
  have hreal : ((E.map Prod.snd).filter (fun c : Int => ¬ (c == -1))).Perm (othersOf nAtom i) := by
    rw [List.perm_ext_iff_of_nodup _ (nodup_othersOf nAtom i)]
    · intro a
      rw [List.mem_filter, mem_othersOf]
      constructor
      · rintro ⟨ha, hne⟩
        rcases hent a ha with rfl | hh
        · simp at hne
        · exact hh
      · intro ha
        refine ⟨hall a ha, ?_⟩
        have := ha.1.1
        simp only [beq_iff_eq, decide_not, Bool.not_eq_true', decide_eq_false_iff_not]
        omega
    · rw [List.nodup_iff_count_le_one]
      intro a
      by_cases ha : a = -1
      · have : List.count a ((E.map Prod.snd).filter (fun c : Int => ¬ (c == -1))) = 0 := by
          rw [List.count_eq_zero, List.mem_filter]
          rintro ⟨_, hne⟩
          simp [ha] at hne
        omega
      · rw [List.count_filter (by simpa using ha)]
        exact h.once a ha
  have hrl := hreal.length_eq
  rw [length_othersOf hi0 hi1, ← List.countP_eq_length_filter] at hrl
  rw [List.count_eq_countP]
  simp only [List.length_map, h.len] at hlen
  omega

/-- C10, counterexample. For two atoms at squared distance `2^128 > FLT_MAX` and `K = 2`,
both rows are `[-1, -1]`: the other atom is not listed. -/
theorem padded_rows_counterexample :
    ∃ nl total, buildNeighborList 2 farPair (fun _ => 0) 16 2 = some (nl, total) ∧
      rowOf nl 2 0 = [-1, -1] ∧ rowOf nl 2 1 = [-1, -1] ∧ (rowOf nl 2 0).count 1 = 0 ∧
      (rowOf nl 2 0).count (-1) = 2 := by
  have h : (buildNeighborList 2 farPair (fun _ => 0) 16 2).map
      (fun r => (rowOf r.1 2 0, rowOf r.1 2 1)) = some ([-1, -1], [-1, -1]) := by decide!
  obtain ⟨r, hr, hf⟩ := Option.map_eq_some'.mp h
  have h1 := (Prod.mk.inj hf).1
  have h2 := (Prod.mk.inj hf).2
  refine ⟨r.1, r.2, hr, h1, h2, ?_, ?_⟩
  · rw [h1]; decide
  · rw [h1]; decide

/-- C10, as amended. When the position array holds `nAtom ≥ 1` atoms, `maxNeighbors > nAtom - 1`
and all squared distances are below `FLT_MAX`, `buildNeighborList` has a result and every row
`i` of the list it writes has `maxNeighbors` entries: each atom other than `i` once, and the
sentinel `-1` in the `maxNeighbors - (nAtom - 1)` places that are left. -/
theorem buildNeighborList_rows_padded (position : List Vec3) (nAtom K : Int)
    (nl0 : Int → Int) (cutsq : ℚ) (hN : nAtom = position.length) (hN1 : 1 ≤ nAtom)
    (hK : nAtom - 1 < K) (hD : ∀ a ∈ position, ∀ b ∈ position, dist2 a b < FLT_MAX) :
    ∃ nl total, buildNeighborList nAtom position nl0 cutsq K = some (nl, total) ∧
      ∀ i, 0 ≤ i → i < nAtom →
        (rowOf nl K i).length = K.toNat ∧
        (∀ j, 0 ≤ j → j < nAtom → j ≠ i → (rowOf nl K i).count j = 1) ∧
        ((rowOf nl K i).count (-1) : Int) = K - (nAtom - 1) ∧
        (∀ c ∈ rowOf nl K i, c = -1 ∨ ((0 ≤ c ∧ c < nAtom) ∧ c ≠ i)) := by
  obtain ⟨nl, hb, _, hrows⟩ :=
    buildNeighborList_spec position nAtom K nl0 cutsq hN (by omega)
  refine ⟨nl, _, hb, ?_⟩
  intro i hi0 hi1
  obtain ⟨E, _, hinv, hrow⟩ := hrows i hi0 hi1
  obtain ⟨h1, h2, h3⟩ := hinv.padded hN hi0 hi1 hK hD
  have hperm := List.perm_insertionSort (fun a b : Int => a ≤ b) (E.map Prod.snd)
  refine ⟨?_, ?_, ?_, ?_⟩
  · rw [hrow, List.length_insertionSort, List.length_map, hinv.len]
  · intro j hj0 hj1 hji
    rw [hrow, hperm.count_eq]
    exact h1 j hj0 hj1 hji
  · rw [hrow, hperm.count_eq]
    exact h2
  · intro c hc
    rw [hrow] at hc
    exact h3 c (hperm.mem_iff.mp hc)

/-- Witness of the amended C10 on the four atoms of the scenario with `K = 5`. -/
theorem buildNeighborList_rows_padded_witness :
    ((4 : Int) = (scenario.length : Int) ∧ (1 : Int) ≤ 4 ∧ (4 : Int) - 1 < 5 ∧
      ∀ a ∈ scenario, ∀ b ∈ scenario, dist2 a b < FLT_MAX) ∧
    ∃ nl total, buildNeighborList 4 scenario (fun _ => 0) 10 5 = some (nl, total) ∧
      ∀ i, 0 ≤ i → i < 4 →
        (rowOf nl 5 i).length = (5 : Int).toNat ∧
        (∀ j, 0 ≤ j → j < 4 → j ≠ i → (rowOf nl 5 i).count j = 1) ∧
        ((rowOf nl 5 i).count (-1) : Int) = 5 - (4 - 1) ∧
        (∀ c ∈ rowOf nl 5 i, c = -1 ∨ ((0 ≤ c ∧ c < 4) ∧ c ≠ i)) :=
  ⟨⟨by rfl, by decide, by decide, by simp [scenario, dist2, FLT_MAX]; norm_num⟩,
    buildNeighborList_rows_padded scenario 4 5 (fun _ => 0) 10 (by rfl) (by decide) (by decide)
      (by simp [scenario, dist2, FLT_MAX]; norm_num)⟩

theorem intRange_nonpos {n : Int} (h : n ≤ 0) : intRange n = [] := by
  have : n.toNat = 0 := by omega
  simp [intRange, this]

theorem intRange_one : intRange 1 = [0] := by decide

theorem intRange_cons {n : Int} (h : 1 ≤ n) : ∃ t, intRange n = 0 :: t := by
  obtain ⟨m, hm⟩ : ∃ m, n.toNat = m + 1 := ⟨n.toNat - 1, by omega⟩
  rw [intRange, hm, List.range_succ_eq_map]
  exact ⟨_, rfl⟩

theorem intRange_cons_cons {n : Int} (h : 2 ≤ n) : ∃ t, intRange n = 0 :: 1 :: t := by
  obtain ⟨m, hm⟩ : ∃ m, n.toNat = m + 2 := ⟨n.toNat - 2, by omega⟩
  rw [intRange, hm, List.range_succ_eq_map, List.range_succ_eq_map]
  exact ⟨_, rfl⟩

theorem validCount_replicate (cutsq : ℚ) (n : Nat) :
    (validCount cutsq (List.replicate n FLT_MAX) : Int) = if FLT_MAX < cutsq then (n : Int) else 0 := by
  unfold validCount
  by_cases h : FLT_MAX < cutsq
  · simp [h, List.countP_replicate]
  · simp [h, List.countP_replicate]

/-- C8, counterexample. With one atom and `K = 1`, `buildNeighborList` returns: it writes the
row `[-1]` and returns the count 0. With no atom at all it returns 0 as well. -/
theorem no_configuration_error_counterexample :
    (∃ nl total, buildNeighborList 1 [⟨0, 0, 0⟩] (fun _ => 0) 10 1 = some (nl, total) ∧
      rowOf nl 1 0 = [-1] ∧ total = 0) ∧
    (∃ nl total, buildNeighborList 0 [] (fun _ => 0) 10 1 = some (nl, total) ∧ total = 0) := by
  have h : (buildNeighborList 1 [⟨0, 0, 0⟩] (fun _ => 0) 10 1).map
      (fun r => (rowOf r.1 1 0, r.2)) = some ([-1], 0) := by decide!
  have h0 : (buildNeighborList 0 [] (fun _ => 0) 10 1).map (fun r => r.2) = some 0 := by
    decide!
  obtain ⟨r, hr, hf⟩ := Option.map_eq_some'.mp h
  obtain ⟨r0, hr0, hf0⟩ := Option.map_eq_some'.mp h0
  exact ⟨⟨r.1, r.2, hr, (Prod.mk.inj hf).1, (Prod.mk.inj hf).2⟩, ⟨r0.1, r0.2, hr0, hf0⟩⟩

/-- C8, as amended. `buildNeighborList` checks neither `nAtom` nor `maxNeighbors` and reports
no error. With `nAtom ≤ 0` it writes nothing and returns 0; with `nAtom = 1` and
`maxNeighbors ≥ 0` it writes one row of sentinels and returns 0 (or `maxNeighbors`, when
`cutsq > FLT_MAX`). It has no defined result when `maxNeighbors < 0` with `nAtom ≥ 1` (a list
of negative size) and when `maxNeighbors = 0` with `nAtom ≥ 2` (`back()` of an empty list). -/
theorem buildNeighborList_no_validation (position : List Vec3) (nAtom K : Int)
    (nl0 : Int → Int) (cutsq : ℚ) :
    (nAtom ≤ 0 → buildNeighborList nAtom position nl0 cutsq K = some (nl0, 0)) ∧
    (nAtom = 1 → 0 ≤ K →
      ∃ nl, buildNeighborList nAtom position nl0 cutsq K
          = some (nl, if FLT_MAX < cutsq then K else 0) ∧
        rowOf nl K 0 = List.replicate K.toNat (-1)) ∧
    (1 ≤ nAtom → K < 0 → buildNeighborList nAtom position nl0 cutsq K = none) ∧
    (2 ≤ nAtom → K ≤ 0 → buildNeighborList nAtom position nl0 cutsq K = none) := by
  have hneg : 1 ≤ nAtom → K < 0 → buildNeighborList nAtom position nl0 cutsq K = none := by
    intro hn hk
    obtain ⟨t, ht⟩ := intRange_cons hn
    rw [buildNeighborList, ht]
    simp [buildLoop, nearestOf, hk]
  refine ⟨?_, ?_, hneg, ?_⟩
  · intro hn
    rw [buildNeighborList, intRange_nonpos hn]
    simp [buildLoop]
  · intro hn hk
    subst hn
    have hk' : ¬ K < 0 := by omega
    have hnear : nearestOf 1 position K 0
        = some (List.replicate K.toNat FLT_MAX, List.replicate K.toNat (-1)) := by
      rw [nearestOf, intRange_one]
      simp [hk', scanAtoms]
    obtain ⟨nl, hp, hrow, _⟩ := populateNeighborList_spec (List.replicate K.toNat FLT_MAX)
      (List.replicate K.toNat (-1)) 0 1 nl0 cutsq K (by simp) (by simp)
    refine ⟨nl, ?_, ?_⟩
    · rw [buildNeighborList, intRange_one]
      simp only [buildLoop, hnear, hp, zero_add, validCount_replicate]
      have : ((K.toNat : Nat) : Int) = K := by omega
      rw [this]
    · rw [hrow]
      apply List.Sorted.insertionSort_eq
      apply List.pairwise_of_forall_mem_list
      intro a ha b hb
      rw [List.eq_of_mem_replicate ha, List.eq_of_mem_replicate hb]
  · intro hn hk
    rcases lt_or_eq_of_le hk with hk | hk
    · exact hneg (by omega) hk
    · subst hk
      obtain ⟨t, ht⟩ := intRange_cons_cons hn
      have hnear : nearestOf nAtom position 0 0 = none := by
        rw [nearestOf, ht]
        cases hd : distance position 0 1 with
        | none => simp [scanAtoms, hd]
        | some d => simp [scanAtoms, hd, insertInOrder]
      rw [buildNeighborList, ht]
      simp [buildLoop, hnear]

/-! ## The force kernel -/

theorem ljStep_eq (cutsq lj1 lj2 : ℚ) (ipos jpos f : Vec3) :
    ljStep cutsq lj1 lj2 ipos jpos f =
      if dist2 ipos jpos < cutsq then
        ⟨f.x + (ljPair lj1 lj2 ipos jpos).x, f.y + (ljPair lj1 lj2 ipos jpos).y,
         f.z + (ljPair lj1 lj2 ipos jpos).z⟩
      else f := by
  unfold ljStep dist2 ljPair dist2
  by_cases h : (ipos.x - jpos.x) * (ipos.x - jpos.x) + (ipos.y - jpos.y) * (ipos.y - jpos.y)
      + (ipos.z - jpos.z) * (ipos.z - jpos.z) < cutsq
  · simp only [h, if_true]
    congr 1 <;> ring
  · simp only [h, if_false]

theorem ljNeighbors_append (position : List Vec3) (nl : Int → Int) (cutsq lj1 lj2 : ℚ)
    (i K : Int) (ipos : Vec3) :
    ∀ (a b : List Int) (f : Vec3),
      ljNeighbors position nl cutsq lj1 lj2 i K ipos (a ++ b) f =
        (ljNeighbors position nl cutsq lj1 lj2 i K ipos a f).bind
          (ljNeighbors position nl cutsq lj1 lj2 i K ipos b) := by
  intro a
  induction a with
  | nil => intro b f; simp [ljNeighbors]
  | cons j js ih =>
    intro b f
    simp only [List.cons_append, ljNeighbors]
    cases readPos position (nl (j + i * K)) with
    | none => simp
    | some jpos => simp [ih]

theorem ljNeighbors_sum (position : List Vec3) (nl : Int → Int) (cutsq lj1 lj2 : ℚ)
    (i K : Int) (ipos : Vec3) :
    ∀ (js : List Int) (ps : List Vec3) (f : Vec3),
      js.map (fun j => readPos position (nl (j + i * K))) = ps.map some →
      ljNeighbors position nl cutsq lj1 lj2 i K ipos js f =
        some ⟨f.x + (ljSum cutsq lj1 lj2 ipos ps).x, f.y + (ljSum cutsq lj1 lj2 ipos ps).y,
              f.z + (ljSum cutsq lj1 lj2 ipos ps).z⟩ := by
  intro js
  induction js with
  | nil =>
    intro ps f h
    have : ps = [] := by
      cases ps with
      | nil => rfl
      | cons p ps => simp at h
    subst this
    simp [ljNeighbors, ljSum]
  | cons j js ih =>
    intro ps f h
    cases ps with
    | nil => simp at h
    | cons p ps =>
      simp only [List.map_cons, List.cons.injEq] at h
      simp only [ljNeighbors, h.1]
      rw [ih ps _ h.2, ljStep_eq]
      by_cases hlt : dist2 ipos p < cutsq
      · simp only [hlt, if_true, ljSum, List.filter_cons, decide_True, List.map_cons,
          List.sum_cons]
        congr 2 <;> ring
      · simp only [hlt, if_false, ljSum, List.filter_cons, decide_False]
        simp

theorem validList_reads {nl : Int → Int} {inum K : Int} {position : List Vec3}
    (hv : ValidList nl inum K) (hN : inum = position.length) {i : Int} (hi0 : 0 ≤ i)
    (hi1 : i < inum) :
    ∃ ps : List Vec3,
      (intRange K).map (fun j => readPos position (nl (j + i * K))) = ps.map some := by
  have : ∀ js : List Int, (∀ j ∈ js, 0 ≤ j ∧ j < K) →
      ∃ ps : List Vec3, js.map (fun j => readPos position (nl (j + i * K))) = ps.map some := by
    intro js
    induction js with
    | nil => intro _; exact ⟨[], rfl⟩
    | cons j js ih =>
      intro hjs
      obtain ⟨ps, hps⟩ := ih (fun m hm => hjs m (List.mem_cons_of_mem _ hm))
      have hj := hjs j (List.mem_cons_self _ _)
      have hval := hv i j hi0 hi1 hj.1 hj.2
      have hval2 : nl (j + i * K) < position.length := by omega
      obtain ⟨p, hp, _⟩ := readPos_eq_some hval.1 hval2
      exact ⟨p :: ps, by simp [hp, hps]⟩
  exact this _ (fun j hj => mem_intRange.mp hj)

theorem atomForce_eq_sum {position : List Vec3} {nl : Int → Int} {inum K : Int}
    (cutsq lj1 lj2 : ℚ) (hv : ValidList nl inum K) (hN : inum = position.length) {i : Int}
    (hi0 : 0 ≤ i) (hi1 : i < inum) :
    ∃ ipos ps, readPos position i = some ipos ∧
      (intRange K).map (fun j => readPos position (nl (j + i * K))) = ps.map some ∧
      atomForce position nl cutsq lj1 lj2 K i = some (ljSum cutsq lj1 lj2 ipos ps) := by
  have hi2 : i < position.length := by omega
  obtain ⟨ipos, hipos, _⟩ := readPos_eq_some hi0 hi2
  obtain ⟨ps, hps⟩ := validList_reads hv hN hi0 hi1
  refine ⟨ipos, ps, hipos, hps, ?_⟩
  simp only [atomForce, hipos]
  rw [ljNeighbors_sum position nl cutsq lj1 lj2 i K ipos _ ps _ hps]
  simp

theorem ljAtoms_spec (position : List Vec3) (nl : Int → Int) (cutsq lj1 lj2 : ℚ) (K : Int) :
    ∀ (is : List Int) (f0 : Int → Vec3),
      (∀ i ∈ is, ∃ f, atomForce position nl cutsq lj1 lj2 K i = some f) →
      ∃ F, ljAtoms position nl cutsq lj1 lj2 K is f0 = some F ∧
        (∀ i ∈ is, atomForce position nl cutsq lj1 lj2 K i = some (F i)) ∧
        (∀ m, m ∉ is → F m = f0 m) := by
  intro is
  induction is with
  | nil => intro f0 _; exact ⟨f0, by simp [ljAtoms], by simp, by simp⟩
  | cons i is ih =>
    intro f0 hall
    obtain ⟨f, hf⟩ := hall i (List.mem_cons_self _ _)
    obtain ⟨F, hF, h1, h2⟩ := ih (Function.update f0 i f)
      (fun m hm => hall m (List.mem_cons_of_mem _ hm))
    have hf' := hf
    unfold atomForce at hf'
    cases hr : readPos position i with
    | none => rw [hr] at hf'; exact Option.noConfusion hf'
    | some ipos =>
      rw [hr] at hf'
      simp only at hf'
      refine ⟨F, ?_, ?_, ?_⟩
      · simp only [ljAtoms, hr, hf', hF]
      · intro m hm
        by_cases hmis : m ∈ is
        · exact h1 m hmis
        · rcases List.mem_cons.mp hm with rfl | hm
          · rw [h2 m hmis, Function.update_same, hf]
          · exact absurd hm hmis
      · intro m hm
        rw [h2 m (fun hh => hm (List.mem_cons_of_mem _ hh))]
        apply Function.update_noteq
        intro hh
        exact hm (hh ▸ List.mem_cons_self _ _)

theorem ljIters_spec (position : List Vec3) (nl : Int → Int) (cutsq lj1 lj2 : ℚ)
    (inum K : Int)
    (hall : ∀ i ∈ intRange inum, ∃ f, atomForce position nl cutsq lj1 lj2 K i = some f) :
    ∀ (n : Nat) (f0 : Int → Vec3),
      ∃ F, ljIters position nl cutsq lj1 lj2 inum K n f0 = some F ∧
        (1 ≤ n → ∀ i ∈ intRange inum, atomForce position nl cutsq lj1 lj2 K i = some (F i)) ∧
        (∀ m, m ∉ intRange inum → F m = f0 m) := by
  intro n
  induction n with
  | zero => intro f0; exact ⟨f0, by simp [ljIters], by simp, by simp⟩
  | succ n ih =>
    intro f0
    obtain ⟨g, hg, hg1, hg2⟩ := ljAtoms_spec position nl cutsq lj1 lj2 K (intRange inum) f0 hall
    obtain ⟨F, hF, hF1, hF2⟩ := ih g
    refine ⟨F, by simp only [ljIters, hg, hF], ?_, ?_⟩
    · intro _ i hi
      cases n with
      | zero =>
        simp only [ljIters] at hF
        have := Option.some.inj hF
        rw [← this]
        exact hg1 i hi
      | succ n => exact hF1 (by omega) i hi
    · intro m hm
      rw [hF2 m hm, hg2 m hm]

theorem rowOf_eq_cells (nl : Int → Int) (K i : Int) :
    rowOf nl K i = (intRange K).map (fun j => nl (j + i * K)) := by
  unfold rowOf
  apply List.map_congr_left
  intro k _
  rw [mul_comm]

theorem atomForce_some {position : List Vec3} {nl : Int → Int} {inum K : Int}
    (cutsq lj1 lj2 : ℚ) (hv : ValidList nl inum K) (hN : inum = position.length) :
    ∀ i ∈ intRange inum, ∃ f, atomForce position nl cutsq lj1 lj2 K i = some f := by
  intro i hi
  have hi' := mem_intRange.mp hi
  obtain ⟨_, _, _, _, h⟩ := atomForce_eq_sum cutsq lj1 lj2 hv hN hi'.1 hi'.2
  exact ⟨_, h⟩

/-- What `compute_lj_force` leaves in the force array on a valid neighbour list: after at least
one repetition, cell `i` of every atom holds the force of one pass from zero accumulators, and
the cells outside `[0, inum)` are as before. -/
theorem compute_lj_force_spec (force3 : Int → Vec3) (position : List Vec3) (neighCount : Int)
    (nl : Int → Int) (cutsq lj1 lj2 : ℚ) (inum K nIters : Int)
    (hN : inum = position.length) (hv : ValidList nl inum K) :
    ∃ F, compute_lj_force force3 position neighCount nl cutsq lj1 lj2 inum K nIters = some F ∧
      (1 ≤ nIters → ∀ i, 0 ≤ i → i < inum →
        atomForce position nl cutsq lj1 lj2 K i = some (F i)) ∧
      (∀ m, ¬ (0 ≤ m ∧ m < inum) → F m = force3 m) := by
  obtain ⟨F, hF, h1, h2⟩ := ljIters_spec position nl cutsq lj1 lj2 inum K
    (atomForce_some cutsq lj1 lj2 hv hN) nIters.toNat force3
  refine ⟨F, hF, ?_, ?_⟩
  · intro hn i hi0 hi1
    exact h1 (by omega) i (mem_intRange.mpr ⟨hi0, hi1⟩)
  · intro m hm
    exact h2 m (fun hh => hm (mem_intRange.mp hh))

/-- C4. For a position array of `inum` atoms, a neighbour list whose entries are atom indices
and in which no listed neighbour within the cutoff is at distance 0, and at least one
repetition, `compute_lj_force` has a result, and the force it stores for each atom `i` is the
sum, over the entries `j` of row `i` with `r2 = |p_i - p_j|^2 < cutsq`, of
`(p_i - p_j) * (1/r2) * (1/r2)^3 * (lj1 * (1/r2)^3 - lj2)`, axis by axis, in which every `r2`
is other than 0. -/
theorem compute_lj_force_sum (force3 : Int → Vec3) (position : List Vec3) (neighCount : Int)
    (nl : Int → Int) (cutsq lj1 lj2 : ℚ) (inum K nIters : Int)
    (hN : inum = position.length) (hv : ValidList nl inum K)
    (hnc : NoCoincident position nl cutsq inum K) (hIt : 1 ≤ nIters) :
    ∃ F, compute_lj_force force3 position neighCount nl cutsq lj1 lj2 inum K nIters = some F ∧
      ∀ i, 0 ≤ i → i < inum →
        ∃ ipos ps, readPos position i = some ipos ∧
          (rowOf nl K i).map (readPos position) = ps.map some ∧
          (∀ pj ∈ ps, dist2 ipos pj < cutsq → dist2 ipos pj ≠ 0) ∧
          F i = ljSum cutsq lj1 lj2 ipos ps := by
  obtain ⟨F, hF, h1, _⟩ :=
    compute_lj_force_spec force3 position neighCount nl cutsq lj1 lj2 inum K nIters hN hv
  refine ⟨F, hF, ?_⟩
  intro i hi0 hi1
  obtain ⟨ipos, ps, hipos, hps, hsum⟩ := atomForce_eq_sum cutsq lj1 lj2 hv hN hi0 hi1
  refine ⟨ipos, ps, hipos, ?_, ?_, ?_⟩
  · rw [rowOf_eq_cells, List.map_map]
    exact hps
  · intro pj hpj hlt
    have hmem : some pj ∈ ps.map some := List.mem_map_of_mem _ hpj
    rw [← hps] at hmem
    obtain ⟨j, hj, hjr⟩ := List.mem_map.mp hmem
    have hj' := mem_intRange.mp hj
    exact hnc i j hi0 hi1 hj'.1 hj'.2 ipos pj hipos hjr hlt
  · have := h1 hIt i hi0 hi1
    rw [hsum] at this
    exact (Option.some.inj this).symm

theorem validList_swapList : ValidList swapList 2 1 := by
  intro i j hi0 hi1 hj0 hj1
  unfold swapList
  split <;> omega

theorem noCoincident_pair (p0 p1 : Vec3) (nl : Int → Int) (cutsq : ℚ) (h0 : nl 0 = 1)
    (h1 : nl 1 = 0) (hd : dist2 p0 p1 ≠ 0) (hd' : dist2 p1 p0 ≠ 0) :
    NoCoincident [p0, p1] nl cutsq 2 1 := by
  intro i j hi0 hi1 hj0 hj1 pi pj hpi hpj _
  have hj : j = 0 := by omega
  subst hj
  have hr0 : readPos [p0, p1] 0 = some p0 := by simp [readPos]
  have hr1 : readPos [p0, p1] 1 = some p1 := by simp [readPos]
  rcases (by omega : i = 0 ∨ i = 1) with rfl | rfl
  · have hc : nl (0 + 0 * 1) = 1 := by simpa using h0
    rw [hc, hr1] at hpj
    rw [hr0] at hpi
    rw [← Option.some.inj hpi, ← Option.some.inj hpj]
    exact hd
  · have hc : nl (0 + 1 * 1) = 0 := by simpa using h1
    rw [hc, hr0] at hpj
    rw [hr1] at hpi
    rw [← Option.some.inj hpi, ← Option.some.inj hpj]
    exact hd'

theorem noCoincident_unitPair : NoCoincident unitPair swapList 16 2 1 :=
  noCoincident_pair ⟨0, 0, 0⟩ ⟨1, 0, 0⟩ swapList 16 rfl rfl (by norm_num [dist2])
    (by norm_num [dist2])

theorem noCoincident_skewPair : NoCoincident skewPair swapList 16 2 1 :=
  noCoincident_pair ⟨0, 0, 0⟩ ⟨1, 2, 2⟩ swapList 16 rfl rfl (by norm_num [dist2])
    (by norm_num [dist2])

/-- Witness of C4 on two atoms at distance 1 with the neighbour list `[1, 0]`. -/
theorem compute_lj_force_sum_witness :
    ((2 : Int) = (unitPair.length : Int) ∧ ValidList swapList 2 1 ∧
      NoCoincident unitPair swapList 16 2 1 ∧ (1 : Int) ≤ 1) ∧
    ∃ F, compute_lj_force (fun _ => ⟨0, 0, 0⟩) unitPair 1 swapList 16 (3 / 2) 2 2 1 1 = some F ∧
      ∀ i, 0 ≤ i → i < 2 →
        ∃ ipos ps, readPos unitPair i = some ipos ∧
          (rowOf swapList 1 i).map (readPos unitPair) = ps.map some ∧
          (∀ pj ∈ ps, dist2 ipos pj < 16 → dist2 ipos pj ≠ 0) ∧
          F i = ljSum 16 (3 / 2) 2 ipos ps :=
  ⟨⟨by rfl, validList_swapList, noCoincident_unitPair, by decide⟩,
    compute_lj_force_sum (fun _ => ⟨0, 0, 0⟩) unitPair 1 swapList 16 (3 / 2) 2 2 1 1 (by rfl)
      validList_swapList noCoincident_unitPair (by decide)⟩

/-- C5. In the neighbour loop of `compute_lj_force`, an entry `j` whose atom is at squared
distance exactly `cutsq` leaves the accumulators as they are (the test is `r2 < cutsq`), so the
loop gives the same force as the loop without that entry. -/
theorem cutoff_boundary_adds_nothing (position : List Vec3) (nl : Int → Int)
    (cutsq lj1 lj2 : ℚ) (i K : Int) (ipos jpos : Vec3) (js1 js2 : List Int) (j : Int)
    (f : Vec3) (hr : readPos position (nl (j + i * K)) = some jpos)
    (hd : dist2 ipos jpos = cutsq) :
    ljStep cutsq lj1 lj2 ipos jpos f = f ∧
    ljNeighbors position nl cutsq lj1 lj2 i K ipos (js1 ++ j :: js2) f =
      ljNeighbors position nl cutsq lj1 lj2 i K ipos (js1 ++ js2) f := by
  have hstep : ∀ g, ljStep cutsq lj1 lj2 ipos jpos g = g := by
    intro g
    rw [ljStep_eq, hd]
    simp
  refine ⟨hstep f, ?_⟩
  rw [ljNeighbors_append, ljNeighbors_append]
  congr 1
  funext g
  simp only [ljNeighbors, hr, hstep]

/-- Witness of C5: two atoms at squared distance 4 with `cutsq = 4`. -/
theorem cutoff_boundary_adds_nothing_witness :
    (readPos [⟨0, 0, 0⟩, ⟨2, 0, 0⟩] (swapList (0 + 0 * 1)) = some ⟨2, 0, 0⟩ ∧
      dist2 ⟨0, 0, 0⟩ ⟨2, 0, 0⟩ = 4) ∧
    (ljStep 4 (3 / 2) 2 ⟨0, 0, 0⟩ ⟨2, 0, 0⟩ ⟨0, 0, 0⟩ = ⟨0, 0, 0⟩ ∧
    ljNeighbors [⟨0, 0, 0⟩, ⟨2, 0, 0⟩] swapList 4 (3 / 2) 2 0 1 ⟨0, 0, 0⟩ ([] ++ 0 :: [])
        ⟨0, 0, 0⟩ =
      ljNeighbors [⟨0, 0, 0⟩, ⟨2, 0, 0⟩] swapList 4 (3 / 2) 2 0 1 ⟨0, 0, 0⟩ ([] ++ [])
        ⟨0, 0, 0⟩) :=
  ⟨⟨by decide, by norm_num [dist2]⟩,
    cutoff_boundary_adds_nothing [⟨0, 0, 0⟩, ⟨2, 0, 0⟩] swapList 4 (3 / 2) 2 0 1 ⟨0, 0, 0⟩
      ⟨2, 0, 0⟩ [] [] 0 ⟨0, 0, 0⟩ (by decide) (by norm_num [dist2])⟩

/-- C6. On a valid neighbour list, for every repetition count `nIters ≥ 1` and every prior
content of the force array, `compute_lj_force` has a result in which the force of every atom is
the force of a single pass started from zero accumulators: two calls, with any repetition
counts and any prior contents, leave the same forces. -/
theorem compute_lj_force_overwrites (force3 force3' : Int → Vec3) (position : List Vec3)
    (neighCount : Int) (nl : Int → Int) (cutsq lj1 lj2 : ℚ) (inum K nIters nIters' : Int)
    (hN : inum = position.length) (hv : ValidList nl inum K) (hIt : 1 ≤ nIters)
    (hIt' : 1 ≤ nIters') :
    ∃ F F',
      compute_lj_force force3 position neighCount nl cutsq lj1 lj2 inum K nIters = some F ∧
      compute_lj_force force3' position neighCount nl cutsq lj1 lj2 inum K nIters' = some F' ∧
      ∀ i, 0 ≤ i → i < inum →
        atomForce position nl cutsq lj1 lj2 K i = some (F i) ∧ F' i = F i := by
  obtain ⟨F, hF, h1, _⟩ :=
    compute_lj_force_spec force3 position neighCount nl cutsq lj1 lj2 inum K nIters hN hv
  obtain ⟨F', hF', h1', _⟩ :=
    compute_lj_force_spec force3' position neighCount nl cutsq lj1 lj2 inum K nIters' hN hv
  refine ⟨F, F', hF, hF', ?_⟩
  intro i hi0 hi1
  have e1 := h1 hIt i hi0 hi1
  have e2 := h1' hIt' i hi0 hi1
  refine ⟨e1, ?_⟩
  rw [e1] at e2
  exact (Option.some.inj e2).symm

/-- Witness of C6: one repetition from a zero force array against 100 repetitions from a force
array filled with other values. -/
theorem compute_lj_force_overwrites_witness :
    ((2 : Int) = (unitPair.length : Int) ∧ ValidList swapList 2 1 ∧ (1 : Int) ≤ 1 ∧
      (1 : Int) ≤ 100) ∧
    ∃ F F',
      compute_lj_force (fun _ => ⟨0, 0, 0⟩) unitPair 1 swapList 16 (3 / 2) 2 2 1 1 = some F ∧
      compute_lj_force (fun _ => ⟨7, 8, 9⟩) unitPair 1 swapList 16 (3 / 2) 2 2 1 100
        = some F' ∧
      ∀ i, 0 ≤ i → i < 2 →
        atomForce unitPair swapList 16 (3 / 2) 2 1 i = some (F i) ∧ F' i = F i :=
  ⟨⟨by rfl, validList_swapList, by decide, by decide⟩,
    compute_lj_force_overwrites (fun _ => ⟨0, 0, 0⟩) (fun _ => ⟨7, 8, 9⟩) unitPair 1 swapList
      16 (3 / 2) 2 2 1 1 100 (by rfl) validList_swapList (by decide) (by decide)⟩

/-! ## The checker -/

theorem refNeighbors_eq_ljNeighbors (position : List Vec3) (nl : Int → Int)
    (cutsq lj1 lj2 : ℚ) (i K : Int) (ipos : Vec3) :
    ∀ (js : List Int) (f : Vec3),
      refNeighbors position nl cutsq lj1 lj2 i K ipos js f =
        ljNeighbors position nl cutsq lj1 lj2 i K ipos js f := by
  intro js
  induction js with
  | nil => intro f; simp [refNeighbors, ljNeighbors]
  | cons j js ih =>
    intro f
    simp only [refNeighbors, ljNeighbors, mul_comm K i]
    cases readPos position (nl (j + i * K)) with
    | none => rfl
    | some jpos => exact ih _

theorem refForce_eq_atomForce (position : List Vec3) (nl : Int → Int) (cutsq lj1 lj2 : ℚ)
    (K i : Int) :
    refForce position nl cutsq lj1 lj2 K i = atomForce position nl cutsq lj1 lj2 K i := by
  unfold refForce atomForce
  cases readPos position i with
  | none => rfl
  | some ipos => exact refNeighbors_eq_ljNeighbors position nl cutsq lj1 lj2 i K ipos _ _

theorem checkLoop_spec (d_force : Int → Vec3) (position : List Vec3) (nl : Int → Int)
    (eps : ℚ) (K : Int) (cutsq lj1 lj2 : ℚ) :
    ∀ (is : List Int), (∀ i ∈ is, ∃ ref, refForce position nl cutsq lj1 lj2 K i = some ref) →
      ∃ b, checkLoop d_force position nl eps K cutsq lj1 lj2 is = some b ∧
        (b = false ↔ ∃ i ∈ is, ∃ ref, refForce position nl cutsq lj1 lj2 K i = some ref ∧
          (relErr (d_force i) ref).exceeds (3 * eps) = true) := by
  intro is
  induction is with
  | nil => intro _; exact ⟨true, by simp [checkLoop], by simp⟩
  | cons i is ih =>
    intro hall
    obtain ⟨ref, href⟩ := hall i (List.mem_cons_self _ _)
    obtain ⟨b, hb, hiff⟩ := ih (fun m hm => hall m (List.mem_cons_of_mem _ hm))
    have href' := href
    unfold refForce at href'
    cases hr : readPos position i with
    | none => rw [hr] at href'; exact Option.noConfusion href'
    | some ipos =>
      rw [hr] at href'
      simp only at href'
      by_cases herr : (relErr (d_force i) ref).exceeds (3 * eps) = true
      · refine ⟨false, by simp only [checkLoop, hr, href', herr, if_true], ?_⟩
        simp only [true_iff]
        exact ⟨i, List.mem_cons_self _ _, ref, href, herr⟩
      · refine ⟨b, by simp [checkLoop, hr, href', herr, hb], ?_⟩
        rw [hiff]
        constructor
        · rintro ⟨m, hm, r, hr1, hr2⟩
          exact ⟨m, List.mem_cons_of_mem _ hm, r, hr1, hr2⟩
        · rintro ⟨m, hm, r, hr1, hr2⟩
          rcases List.mem_cons.mp hm with rfl | hm
          · rw [href] at hr1
            have := Option.some.inj hr1
            subst this
            exact absurd hr2 herr
          · exact ⟨m, hm, r, hr1, hr2⟩

theorem relErr_finite (d f : Vec3) (hx : d.x ≠ 0) (hy : d.y ≠ 0) (hz : d.z ≠ 0) :
    relErr d f =
      ErrVal.finite (|(d.x - f.x) / d.x| + |(d.y - f.y) / d.y| + |(d.z - f.z) / d.z|) := by
  simp [relErr, fdiv, hx, hy, hz, ErrVal.magnitude, ErrVal.add]

/-- The three outcomes of the comparison of line 276: with no zero divisor the sum of the three
absolute quotients is compared; a quotient `0 / 0` makes the error NaN, which exceeds nothing;
without such a quotient, a zero divisor makes the error `+inf`, which exceeds every bound. -/
theorem relErr_exceeds_cases (d f : Vec3) (bound : ℚ) :
    (d.x ≠ 0 ∧ d.y ≠ 0 ∧ d.z ≠ 0 →
      ((relErr d f).exceeds bound = true ↔
        bound < |(d.x - f.x) / d.x| + |(d.y - f.y) / d.y| + |(d.z - f.z) / d.z|)) ∧
    ((d.x = 0 ∧ f.x = 0) ∨ (d.y = 0 ∧ f.y = 0) ∨ (d.z = 0 ∧ f.z = 0) →
      (relErr d f).exceeds bound = false) ∧
    (¬ ((d.x = 0 ∧ f.x = 0) ∨ (d.y = 0 ∧ f.y = 0) ∨ (d.z = 0 ∧ f.z = 0)) →
      d.x = 0 ∨ d.y = 0 ∨ d.z = 0 → (relErr d f).exceeds bound = true) := by
  refine ⟨?_, ?_, ?_⟩
  · rintro ⟨hx, hy, hz⟩
    rw [relErr_finite d f hx hy hz]
    simp [ErrVal.exceeds]
  · intro h
    by_cases hx : d.x = 0 <;> by_cases hy : d.y = 0 <;> by_cases hz : d.z = 0 <;>
      by_cases gx : f.x = 0 <;> by_cases gy : f.y = 0 <;> by_cases gz : f.z = 0 <;>
      simp [hx, hy, hz, gx, gy, gz] at h <;>
      simp [relErr, fdiv, ErrVal.magnitude, ErrVal.add, ErrVal.exceeds, hx, hy, hz, gx, gy, gz]
  · intro h1 h2
    by_cases hx : d.x = 0 <;> by_cases hy : d.y = 0 <;> by_cases hz : d.z = 0 <;>
      by_cases gx : f.x = 0 <;> by_cases gy : f.y = 0 <;> by_cases gz : f.z = 0 <;>
      simp [hx, hy, hz, gx, gy, gz] at h1 h2 <;>
      simp [relErr, fdiv, ErrVal.magnitude, ErrVal.add, ErrVal.exceeds, hx, hy, hz, gx, gy, gz]

/-- C7. On a position array of `nAtom` atoms and a valid neighbour list in which no listed
neighbour within the cutoff is at distance 0, `checkResults` has a result, and it returns false
exactly when there is an atom `i` whose error `err_i` exceeds `3 * eps` in the comparison of
line 276, where `ref` is the force recomputed by the reference loop; otherwise it returns true.
Where no computed component is 0, `err_i` is the number
`|(computed_x - ref_x) / computed_x| + |(computed_y - ref_y) / computed_y| +
|(computed_z - ref_z) / computed_z|`; where a quotient is `0 / 0` it is NaN and does not
exceed; otherwise a computed component is 0, `err_i` is `+inf` and exceeds. -/
theorem checkResults_false_iff (lj1 lj2 : ℚ) (d_force : Int → Vec3) (position : List Vec3)
    (nl : Int → Int) (nAtom : Int) (eps : ℚ) (K : Int) (cutsq : ℚ)
    (hN : nAtom = position.length) (hv : ValidList nl nAtom K)
    (_hnc : NoCoincident position nl cutsq nAtom K) :
    ∃ b, checkResults lj1 lj2 d_force position nl nAtom eps K cutsq = some b ∧
      (b = false ↔ ∃ i, 0 ≤ i ∧ i < nAtom ∧
        ∃ ref, refForce position nl cutsq lj1 lj2 K i = some ref ∧
          (relErr (d_force i) ref).exceeds (3 * eps) = true) ∧
      ∀ i ref,
        ((d_force i).x ≠ 0 ∧ (d_force i).y ≠ 0 ∧ (d_force i).z ≠ 0 →
          ((relErr (d_force i) ref).exceeds (3 * eps) = true ↔
            3 * eps < |((d_force i).x - ref.x) / (d_force i).x|
              + |((d_force i).y - ref.y) / (d_force i).y|
              + |((d_force i).z - ref.z) / (d_force i).z|)) ∧
        (((d_force i).x = 0 ∧ ref.x = 0) ∨ ((d_force i).y = 0 ∧ ref.y = 0) ∨
            ((d_force i).z = 0 ∧ ref.z = 0) →
          (relErr (d_force i) ref).exceeds (3 * eps) = false) ∧
        (¬ (((d_force i).x = 0 ∧ ref.x = 0) ∨ ((d_force i).y = 0 ∧ ref.y = 0) ∨
            ((d_force i).z = 0 ∧ ref.z = 0)) →
          (d_force i).x = 0 ∨ (d_force i).y = 0 ∨ (d_force i).z = 0 →
          (relErr (d_force i) ref).exceeds (3 * eps) = true) := by
  obtain ⟨b, hb, hiff⟩ := checkLoop_spec d_force position nl eps K cutsq lj1 lj2
    (intRange nAtom) (by
      intro i hi
      rw [refForce_eq_atomForce]
      exact atomForce_some cutsq lj1 lj2 hv hN i hi)
  refine ⟨b, hb, ?_, fun i ref => relErr_exceeds_cases (d_force i) ref (3 * eps)⟩
  rw [hiff]
  constructor
  · rintro ⟨i, hi, ref, h1, h2⟩
    have hi' := mem_intRange.mp hi
    exact ⟨i, hi'.1, hi'.2, ref, h1, h2⟩
  · rintro ⟨i, hi0, hi1, ref, h1, h2⟩
    exact ⟨i, mem_intRange.mpr ⟨hi0, hi1⟩, ref, h1, h2⟩

/-- Witness of C7 on two atoms at distance 3 with the neighbour list `[1, 0]`, against a force
array that holds `(1, 1, 1)` for every atom. -/
theorem checkResults_false_iff_witness :
    ((2 : Int) = (skewPair.length : Int) ∧ ValidList swapList 2 1 ∧
      NoCoincident skewPair swapList 16 2 1) ∧
    ∃ b, checkResults (3 / 2) 2 onesForce skewPair swapList 2 (1 / 10) 1 16 = some b ∧
      (b = false ↔ ∃ i, 0 ≤ i ∧ i < 2 ∧
        ∃ ref, refForce skewPair swapList 16 (3 / 2) 2 1 i = some ref ∧
          (relErr (onesForce i) ref).exceeds (3 * (1 / 10)) = true) ∧
      ∀ i ref,
        ((onesForce i).x ≠ 0 ∧ (onesForce i).y ≠ 0 ∧ (onesForce i).z ≠ 0 →
          ((relErr (onesForce i) ref).exceeds (3 * (1 / 10)) = true ↔
            3 * (1 / 10) < |((onesForce i).x - ref.x) / (onesForce i).x|
              + |((onesForce i).y - ref.y) / (onesForce i).y|
              + |((onesForce i).z - ref.z) / (onesForce i).z|)) ∧
        (((onesForce i).x = 0 ∧ ref.x = 0) ∨ ((onesForce i).y = 0 ∧ ref.y = 0) ∨
            ((onesForce i).z = 0 ∧ ref.z = 0) →
          (relErr (onesForce i) ref).exceeds (3 * (1 / 10)) = false) ∧
        (¬ (((onesForce i).x = 0 ∧ ref.x = 0) ∨ ((onesForce i).y = 0 ∧ ref.y = 0) ∨
            ((onesForce i).z = 0 ∧ ref.z = 0)) →
          (onesForce i).x = 0 ∨ (onesForce i).y = 0 ∨ (onesForce i).z = 0 →
          (relErr (onesForce i) ref).exceeds (3 * (1 / 10)) = true) :=
  ⟨⟨by rfl, validList_swapList, noCoincident_skewPair⟩,
    checkResults_false_iff (3 / 2) 2 onesForce skewPair swapList 2 (1 / 10) 1 16
      (by rfl) validList_swapList noCoincident_skewPair⟩

/-- A neighbour list built with `1 ≤ maxNeighbors ≤ nAtom - 1` from atoms whose squared
distances are all below `FLT_MAX` holds atom indices only. -/
theorem buildNeighborList_validList (position : List Vec3) (nAtom K : Int) (nl0 : Int → Int)
    (cutsq : ℚ) (hN : nAtom = position.length) (hK1 : 1 ≤ K) (hK2 : K ≤ nAtom - 1)
    (hD : ∀ a ∈ position, ∀ b ∈ position, dist2 a b < FLT_MAX) :
    ∃ nl total, buildNeighborList nAtom position nl0 cutsq K = some (nl, total) ∧
      ValidList nl nAtom K := by
  obtain ⟨nl, hb, _, hrows⟩ := buildNeighborList_spec position nAtom K nl0 cutsq hN hK1
  refine ⟨nl, _, hb, ?_⟩
  intro i j hi0 hi1 hj0 hj1
  obtain ⟨E, _, hinv, hrow⟩ := hrows i hi0 hi1
  have hreal := hinv.no_sentinel hN hi0 hi1 hK2 hD
  have hmem : nl (j + i * K) ∈ rowOf nl K i := by
    rw [rowOf_eq_cells]
    exact List.mem_map.mpr ⟨j, mem_intRange.mpr ⟨hj0, hj1⟩, rfl⟩
  rw [hrow] at hmem
  have hmem' := (List.perm_insertionSort _ _).mem_iff.mp hmem
  obtain ⟨e, he, hej⟩ := List.mem_map.mp hmem'
  have := (hreal e he).1.1
  rw [hej] at this
  exact this

/-- C9, counterexample. For two atoms and `K = 2`, each row written by `buildNeighborList`
holds the sentinel: cell 0 of the list is `-1`, the read `position[-1]` is outside the array,
and neither `compute_lj_force` nor `checkResults` has a defined result on that list. -/
theorem sentinel_read_counterexample :
    ∃ nl total, buildNeighborList 2 unitPair (fun _ => 0) 16 2 = some (nl, total) ∧
      rowOf nl 2 0 = [-1, 1] ∧ nl (0 + 0 * 2) = -1 ∧ readPos unitPair (nl (0 + 0 * 2)) = none ∧
      compute_lj_force (fun _ => ⟨0, 0, 0⟩) unitPair 2 nl 16 (3 / 2) 2 2 2 1 = none ∧
      checkResults (3 / 2) 2 (fun _ => ⟨1, 1, 1⟩) unitPair nl 2 (1 / 10) 2 16 = none := by
  have h : (buildNeighborList 2 unitPair (fun _ => 0) 16 2).map
      (fun r => (rowOf r.1 2 0, r.1 (0 + 0 * 2), readPos unitPair (r.1 (0 + 0 * 2)),
        (compute_lj_force (fun _ => ⟨0, 0, 0⟩) unitPair 2 r.1 16 (3 / 2) 2 2 2 1).isNone,
        checkResults (3 / 2) 2 (fun _ => ⟨1, 1, 1⟩) unitPair r.1 2 (1 / 10) 2 16))
      = some ([-1, 1], -1, none, true, none) := by decide!
  obtain ⟨r, hr, hf⟩ := Option.map_eq_some'.mp h
  have h1 := (Prod.mk.inj hf).1
  have h2 := (Prod.mk.inj (Prod.mk.inj hf).2).1
  have h3 := (Prod.mk.inj (Prod.mk.inj (Prod.mk.inj hf).2).2).1
  have h4 := (Prod.mk.inj (Prod.mk.inj (Prod.mk.inj (Prod.mk.inj hf).2).2).2).1
  have h5 := (Prod.mk.inj (Prod.mk.inj (Prod.mk.inj (Prod.mk.inj hf).2).2).2).2
  exact ⟨r.1, r.2, hr, h1, h2, h3, Option.isNone_iff_eq_none.mp h4, h5⟩

/-- C9, as amended. For a neighbour list built by `buildNeighborList` with
`1 ≤ maxNeighbors ≤ nAtom - 1` from atoms whose squared distances are all below `FLT_MAX`
(no sentinel is left), every read `position[neighList[...]]` of `compute_lj_force` and of the
reference loop of `checkResults` is inside the array, and both have a result. -/
theorem built_list_reads_in_bounds (position : List Vec3) (nAtom K : Int) (nl0 : Int → Int)
    (cutsq : ℚ) (force3 : Int → Vec3) (neighCount : Int) (cutsq' lj1 lj2 eps : ℚ)
    (nIters : Int) (hN : nAtom = position.length) (hK1 : 1 ≤ K) (hK2 : K ≤ nAtom - 1)
    (hD : ∀ a ∈ position, ∀ b ∈ position, dist2 a b < FLT_MAX) :
    ∃ nl total, buildNeighborList nAtom position nl0 cutsq K = some (nl, total) ∧
      (∀ i j, 0 ≤ i → i < nAtom → 0 ≤ j → j < K →
        (∃ p, readPos position (nl (j + i * K)) = some p) ∧
        (∃ p, readPos position (nl (j + K * i)) = some p)) ∧
      (∃ F, compute_lj_force force3 position neighCount nl cutsq' lj1 lj2 nAtom K nIters
        = some F) ∧
      (∃ b, checkResults lj1 lj2 force3 position nl nAtom eps K cutsq' = some b) := by
  obtain ⟨nl, total, hb, hv⟩ :=
    buildNeighborList_validList position nAtom K nl0 cutsq hN hK1 hK2 hD
  refine ⟨nl, total, hb, ?_, ?_, ?_⟩
  · intro i j hi0 hi1 hj0 hj1
    have := hv i j hi0 hi1 hj0 hj1
    have hsome : ∃ p, readPos position (nl (j + i * K)) = some p :=
      readPos_isSome_iff.mpr ⟨this.1, by omega⟩
    refine ⟨hsome, ?_⟩
    rw [mul_comm K i]
    exact hsome
  · obtain ⟨F, hF, _⟩ :=
      compute_lj_force_spec force3 position neighCount nl cutsq' lj1 lj2 nAtom K nIters hN hv
    exact ⟨F, hF⟩
  · obtain ⟨b, hb, _⟩ := checkLoop_spec force3 position nl eps K cutsq' lj1 lj2
      (intRange nAtom) (by
        intro i hi
        rw [refForce_eq_atomForce]
        exact atomForce_some cutsq' lj1 lj2 hv hN i hi)
    exact ⟨b, hb⟩

/-- Witness of the amended C9 on the four atoms of the scenario with `K = 2`. -/
theorem built_list_reads_in_bounds_witness :
    ((4 : Int) = (scenario.length : Int) ∧ (1 : Int) ≤ 2 ∧ (2 : Int) ≤ 4 - 1 ∧
      ∀ a ∈ scenario, ∀ b ∈ scenario, dist2 a b < FLT_MAX) ∧
    ∃ nl total, buildNeighborList 4 scenario (fun _ => 0) 10 2 = some (nl, total) ∧
      (∀ i j, 0 ≤ i → i < 4 → 0 ≤ j → j < 2 →
        (∃ p, readPos scenario (nl (j + i * 2)) = some p) ∧
        (∃ p, readPos scenario (nl (j + 2 * i)) = some p)) ∧
      (∃ F, compute_lj_force (fun _ => ⟨0, 0, 0⟩) scenario 2 nl 10 (3 / 2) 2 4 2 1 = some F) ∧
      (∃ b, checkResults (3 / 2) 2 (fun _ => ⟨0, 0, 0⟩) scenario nl 4 (1 / 10) 2 10 = some b) :=
  ⟨⟨by rfl, by decide, by decide, by simp [scenario, dist2, FLT_MAX]; norm_num⟩,
    built_list_reads_in_bounds scenario 4 2 (fun _ => 0) 10 (fun _ => ⟨0, 0, 0⟩) 2 10 (3 / 2) 2
      (1 / 10) 1 (by rfl) (by decide) (by decide)
      (by simp [scenario, dist2, FLT_MAX]; norm_num)⟩

/-- C11, counterexample. On the scenario with `K = 2` and `cutsq = 10`, the row that
`buildNeighborList` writes for atom 3 is `[1, 2]`, not `[1, 0]`: the squared distances of
atom 3 to atoms 0, 1, 2 are 75, 66 and 59, so atom 0 is not among its two nearest. -/
theorem scenario_row_three_counterexample :
    ∃ nl total, buildNeighborList 4 scenario (fun _ => 0) 10 2 = some (nl, total) ∧
      rowOf nl 2 3 ≠ [1, 0] ∧ (0 : Int) ∉ rowOf nl 2 3 ∧
      distance scenario 3 0 = some 75 ∧ distance scenario 3 1 = some 66 ∧
      distance scenario 3 2 = some 59 := by
  have h : (buildNeighborList 4 scenario (fun _ => 0) 10 2).map (fun r => rowOf r.1 2 3)
      = some [1, 2] := by decide!
  have hd : distance scenario 3 0 = some 75 ∧ distance scenario 3 1 = some 66 ∧
      distance scenario 3 2 = some 59 := by decide!
  obtain ⟨r, hr, hf⟩ := Option.map_eq_some'.mp h
  refine ⟨r.1, r.2, hr, ?_, ?_, hd⟩
  · rw [hf]; decide
  · rw [hf]; decide

/-- C11, as amended. On the scenario with `K = 2` and `cutsq = 10`, `buildNeighborList` writes
the row `[1, 2]` for atom 0 (squared distances 1 and 4) and the row `[1, 2]` for atom 3: its
two nearest atoms are atom 2 at squared distance 59 and atom 1 at 66, written in increasing
order of index. -/
theorem scenario_rows :
    ∃ nl total, buildNeighborList 4 scenario (fun _ => 0) 10 2 = some (nl, total) ∧
      rowOf nl 2 0 = [1, 2] ∧ rowOf nl 2 3 = [1, 2] ∧
      nearestOf 4 scenario 2 0 = some ([1, 4], [1, 2]) ∧
      nearestOf 4 scenario 2 3 = some ([59, 66], [2, 1]) := by
  have h : (buildNeighborList 4 scenario (fun _ => 0) 10 2).map
      (fun r => (rowOf r.1 2 0, rowOf r.1 2 3)) = some ([1, 2], [1, 2]) := by decide!
  have hn : nearestOf 4 scenario 2 0 = some ([1, 4], [1, 2]) ∧
      nearestOf 4 scenario 2 3 = some ([59, 66], [2, 1]) := by decide!
  obtain ⟨r, hr, hf⟩ := Option.map_eq_some'.mp h
  exact ⟨r.1, r.2, hr, (Prod.mk.inj hf).1, (Prod.mk.inj hf).2, hn.1, hn.2⟩

/-- C12, counterexample. On the scenario with `K = 2` and `cutsq = 10`, the count returned by
`buildNeighborList` is 6, not 2. -/
theorem scenario_count_counterexample :
    ∃ nl total, buildNeighborList 4 scenario (fun _ => 0) 10 2 = some (nl, total) ∧
      total = 6 ∧ total ≠ 2 := by
  have h : (buildNeighborList 4 scenario (fun _ => 0) 10 2).map (fun r => r.2) = some 6 := by
    decide!
  obtain ⟨r, hr, hf⟩ := Option.map_eq_some'.mp h
  refine ⟨r.1, r.2, hr, hf, ?_⟩
  rw [hf]; decide

/-- C12, as amended. On the scenario with `K = 2` and `cutsq = 10`, the count returned by
`buildNeighborList` is 6: the two entries of each of the atoms 0, 1 and 2 are within the
cutoff (squared distances 1 and 4, 1 and 5, 4 and 5), those of atom 3 (59 and 66) are not. -/
theorem scenario_count :
    (∃ nl, buildNeighborList 4 scenario (fun _ => 0) 10 2 = some (nl, 6)) ∧
      (intRange 4).map (nearestOf 4 scenario 2) =
        [some ([1, 4], [1, 2]), some ([1, 5], [0, 2]), some ([4, 5], [0, 1]),
         some ([59, 66], [2, 1])] ∧
      (intRange 4).map (pairsOf 4 scenario 10 2) = [2, 2, 2, 0] := by
  have h : (buildNeighborList 4 scenario (fun _ => 0) 10 2).map (fun r => r.2) = some 6 := by
    decide!
  obtain ⟨r, hr, hf⟩ := Option.map_eq_some'.mp h
  refine ⟨⟨r.1, ?_⟩, by decide!, by decide!⟩
  rw [hr, ← hf]

/-- C14. On the scenario with `K = 2`, `buildNeighborList` returns a list that is not
symmetric: atom 1 is in the row of atom 3, and atom 3 is not in the row of atom 1. -/
theorem scenario_not_symmetric :
    ∃ nl total, buildNeighborList 4 scenario (fun _ => 0) 10 2 = some (nl, total) ∧
      ∃ i j, (0 ≤ i ∧ i < 4) ∧ (0 ≤ j ∧ j < 4) ∧ j ∈ rowOf nl 2 i ∧ i ∉ rowOf nl 2 j := by
  have h : (buildNeighborList 4 scenario (fun _ => 0) 10 2).map
      (fun r => (rowOf r.1 2 3, rowOf r.1 2 1)) = some ([1, 2], [0, 2]) := by decide!
  obtain ⟨r, hr, hf⟩ := Option.map_eq_some'.mp h
  refine ⟨r.1, r.2, hr, 3, 1, by decide, by decide, ?_, ?_⟩
  · rw [(Prod.mk.inj hf).1]; decide
  · rw [(Prod.mk.inj hf).2]; decide

theorem atomForce_pair (p0 p1 : Vec3) (nl : Int → Int) (cutsq lj1 lj2 : ℚ)
    (h0 : nl 0 = 1) :
    atomForce [p0, p1] nl cutsq lj1 lj2 1 0 = some (ljStep cutsq lj1 lj2 p0 p1 ⟨0, 0, 0⟩) := by
  have hr0 : readPos [p0, p1] 0 = some p0 := by simp [readPos]
  have hr1 : readPos [p0, p1] 1 = some p1 := by simp [readPos]
  have hc : nl (0 + 0 * 1) = 1 := by simpa using h0
  unfold atomForce
  rw [hr0, intRange_one]
  simp only [ljNeighbors, hc, hr1]

theorem validList_pair (nl : Int → Int) (h0 : nl 0 = 1) (h1 : nl 1 = 0) : ValidList nl 2 1 := by
  intro i j hi0 hi1 hj0 hj1
  have hj : j = 0 := by omega
  subst hj
  rcases (by omega : i = 0 ∨ i = 1) with rfl | rfl
  · simp [h0]
  · simp [h1]

theorem dist2_pos_ne {p q : Vec3} (h : 0 < dist2 p q) :
    p.x - q.x ≠ 0 ∨ p.y - q.y ≠ 0 ∨ p.z - q.z ≠ 0 := by
  by_contra hcon
  push_neg at hcon
  obtain ⟨hx, hy, hz⟩ := hcon
  simp [dist2, hx, hy, hz] at h

theorem magnitude_algebra (dx dy dz r c : ℚ) (hr : dx * dx + dy * dy + dz * dz = r)
    (hne : r ≠ 0) :
    (0 + dx * (1 / r * (1 / r) ^ 3 * c)) ^ 2 + (0 + dy * (1 / r * (1 / r) ^ 3 * c)) ^ 2
      + (0 + dz * (1 / r * (1 / r) ^ 3 * c)) ^ 2 = c ^ 2 / r ^ 7 := by
  have e1 : (0 + dx * (1 / r * (1 / r) ^ 3 * c)) ^ 2 + (0 + dy * (1 / r * (1 / r) ^ 3 * c)) ^ 2
      + (0 + dz * (1 / r * (1 / r) ^ 3 * c)) ^ 2
      = (dx * dx + dy * dy + dz * dz) * (1 / r * (1 / r) ^ 3 * c) ^ 2 := by ring
  rw [e1, hr]
  field_simp
  ring

/-- C13. For two atoms at squared distance `r2` with `0 < r2 < cutsq`, the neighbour list
`[1, 0]` (`K = 1`) and at least one repetition, the force that `compute_lj_force` stores for
atom 0 has squared magnitude `(lj1 * r2^-3 - lj2)^2 / r2^7`, the square of the closed-form
Lennard-Jones magnitude `|lj1 / d^13 - lj2 / d^7|` at distance `d` with `d^2 = r2`. -/
theorem two_atom_force_magnitude (force3 : Int → Vec3) (p0 p1 : Vec3) (neighCount : Int)
    (nl : Int → Int) (cutsq lj1 lj2 : ℚ) (nIters : Int) (h0 : nl 0 = 1) (h1 : nl 1 = 0)
    (hpos : 0 < dist2 p0 p1) (hcut : dist2 p0 p1 < cutsq) (hIt : 1 ≤ nIters) :
    ∃ F, compute_lj_force force3 [p0, p1] neighCount nl cutsq lj1 lj2 2 1 nIters = some F ∧
      (F 0).x ^ 2 + (F 0).y ^ 2 + (F 0).z ^ 2 =
        (lj1 * ((dist2 p0 p1)⁻¹) ^ 3 - lj2) ^ 2 / (dist2 p0 p1) ^ 7 := by
  obtain ⟨F, hF, hat, _⟩ := compute_lj_force_spec force3 [p0, p1] neighCount nl cutsq lj1 lj2
    2 1 nIters (by rfl) (validList_pair nl h0 h1)
  refine ⟨F, hF, ?_⟩
  have hF0 := hat hIt 0 (by decide) (by decide)
  rw [atomForce_pair p0 p1 nl cutsq lj1 lj2 h0, ljStep_eq] at hF0
  simp only [hcut, if_true] at hF0
  have hval := Option.some.inj hF0
  rw [← hval]
  have hne : dist2 p0 p1 ≠ 0 := ne_of_gt hpos
  have hr : (p0.x - p1.x) * (p0.x - p1.x) + (p0.y - p1.y) * (p0.y - p1.y)
      + (p0.z - p1.z) * (p0.z - p1.z) = dist2 p0 p1 := rfl
  have := magnitude_algebra (p0.x - p1.x) (p0.y - p1.y) (p0.z - p1.z) (dist2 p0 p1)
    (lj1 * (1 / dist2 p0 p1) ^ 3 - lj2) hr hne
  rw [one_div] at this
  simp only [ljPair, one_div]
  exact this

/-- Witness of C13: atoms at `(0, 0, 0)` and `(1, 2, 2)`, squared distance 9, `cutsq = 16`. -/
theorem two_atom_force_magnitude_witness :
    (swapList 0 = 1 ∧ swapList 1 = 0 ∧ (0 : ℚ) < dist2 ⟨0, 0, 0⟩ ⟨1, 2, 2⟩ ∧
      dist2 ⟨0, 0, 0⟩ ⟨1, 2, 2⟩ < 16 ∧ (1 : Int) ≤ 1) ∧
    ∃ F, compute_lj_force (fun _ => ⟨0, 0, 0⟩) [⟨0, 0, 0⟩, ⟨1, 2, 2⟩] 1 swapList 16 (3 / 2) 2
        2 1 1 = some F ∧
      (F 0).x ^ 2 + (F 0).y ^ 2 + (F 0).z ^ 2 =
        (3 / 2 * ((dist2 ⟨0, 0, 0⟩ ⟨1, 2, 2⟩)⁻¹) ^ 3 - 2) ^ 2 / (dist2 ⟨0, 0, 0⟩ ⟨1, 2, 2⟩) ^ 7 :=
  ⟨⟨by decide, by decide, by norm_num [dist2], by norm_num [dist2], by decide⟩,
    two_atom_force_magnitude (fun _ => ⟨0, 0, 0⟩) ⟨0, 0, 0⟩ ⟨1, 2, 2⟩ 1 swapList 16 (3 / 2) 2 1
      (by decide) (by decide) (by norm_num [dist2]) (by norm_num [dist2]) (by decide)⟩

/-- C15, counterexample. With `lj1 = lj2 = 2`, an atom at squared distance 1 (below
`cutsq = 16`) adds the zero vector: the accumulators are unchanged and the force that one pass
stores for atom 0 of the pair is zero. -/
theorem zero_contribution_counterexample :
    (0 : ℚ) < dist2 ⟨0, 0, 0⟩ ⟨1, 0, 0⟩ ∧ dist2 ⟨0, 0, 0⟩ ⟨1, 0, 0⟩ < 16 ∧
    ljPair 2 2 ⟨0, 0, 0⟩ ⟨1, 0, 0⟩ = ⟨0, 0, 0⟩ ∧
    ljStep 16 2 2 ⟨0, 0, 0⟩ ⟨1, 0, 0⟩ ⟨0, 0, 0⟩ = ⟨0, 0, 0⟩ ∧
    atomForce unitPair swapList 16 2 2 1 0 = some ⟨0, 0, 0⟩ := by
  have hs : ljStep 16 2 2 ⟨0, 0, 0⟩ ⟨1, 0, 0⟩ ⟨0, 0, 0⟩ = ⟨0, 0, 0⟩ := by
    norm_num [ljStep]
  refine ⟨by norm_num [dist2], by norm_num [dist2], by norm_num [ljPair, dist2], hs, ?_⟩
  rw [unitPair, atomForce_pair _ _ swapList 16 2 2 (by decide), hs]

/-- C15, as amended. For an entry whose atom is at squared distance `r2` with
`0 < r2 < cutsq`, the contribution `(p_i - p_j) * r2^-4 * (lj1 * r2^-3 - lj2)` that the
neighbour loop adds is the zero vector exactly when `lj1 * r2^-3 = lj2`; for all other
`lj1`, `lj2` it is a non-zero vector and the accumulators change. -/
theorem contribution_zero_iff (cutsq lj1 lj2 : ℚ) (ipos jpos f : Vec3)
    (hpos : 0 < dist2 ipos jpos) (hcut : dist2 ipos jpos < cutsq) :
    (ljPair lj1 lj2 ipos jpos = ⟨0, 0, 0⟩ ↔ lj1 * ((dist2 ipos jpos)⁻¹) ^ 3 = lj2) ∧
    (ljStep cutsq lj1 lj2 ipos jpos f = f ↔ lj1 * ((dist2 ipos jpos)⁻¹) ^ 3 = lj2) ∧
    ljStep cutsq lj1 lj2 ipos jpos f =
      ⟨f.x + (ipos.x - jpos.x) * (((dist2 ipos jpos)⁻¹) ^ 4
          * (lj1 * ((dist2 ipos jpos)⁻¹) ^ 3 - lj2)),
       f.y + (ipos.y - jpos.y) * (((dist2 ipos jpos)⁻¹) ^ 4
          * (lj1 * ((dist2 ipos jpos)⁻¹) ^ 3 - lj2)),
       f.z + (ipos.z - jpos.z) * (((dist2 ipos jpos)⁻¹) ^ 4
          * (lj1 * ((dist2 ipos jpos)⁻¹) ^ 3 - lj2))⟩ := by
  have hne : dist2 ipos jpos ≠ 0 := ne_of_gt hpos
  have hinv : ((dist2 ipos jpos)⁻¹) ^ 4 ≠ 0 := pow_ne_zero _ (inv_ne_zero hne)
  have hdel := dist2_pos_ne hpos
  have hs : ∀ c : ℚ, c * (1 / dist2 ipos jpos * (1 / dist2 ipos jpos) ^ 3
      * (lj1 * (1 / dist2 ipos jpos) ^ 3 - lj2)) =
      c * (((dist2 ipos jpos)⁻¹) ^ 4 * (lj1 * ((dist2 ipos jpos)⁻¹) ^ 3 - lj2)) := by
    intro c
    rw [one_div]
    ring
  have hpair : ljPair lj1 lj2 ipos jpos =
      ⟨(ipos.x - jpos.x) * (((dist2 ipos jpos)⁻¹) ^ 4
          * (lj1 * ((dist2 ipos jpos)⁻¹) ^ 3 - lj2)),
       (ipos.y - jpos.y) * (((dist2 ipos jpos)⁻¹) ^ 4
          * (lj1 * ((dist2 ipos jpos)⁻¹) ^ 3 - lj2)),
       (ipos.z - jpos.z) * (((dist2 ipos jpos)⁻¹) ^ 4
          * (lj1 * ((dist2 ipos jpos)⁻¹) ^ 3 - lj2))⟩ := by
    simp only [ljPair, hs]
  have hzero : ljPair lj1 lj2 ipos jpos = ⟨0, 0, 0⟩ ↔
      lj1 * ((dist2 ipos jpos)⁻¹) ^ 3 = lj2 := by
    rw [hpair]
    constructor
    · intro h
      have hx := congrArg Vec3.x h
      have hy := congrArg Vec3.y h
      have hz := congrArg Vec3.z h
      simp only [mul_eq_zero, hinv, false_or] at hx hy hz
      rcases hdel with hd | hd | hd
      · exact sub_eq_zero.mp ((hx.resolve_left hd))
      · exact sub_eq_zero.mp ((hy.resolve_left hd))
      · exact sub_eq_zero.mp ((hz.resolve_left hd))
    · intro h
      rw [sub_eq_zero.mpr h]
      simp
  have hstep : ljStep cutsq lj1 lj2 ipos jpos f =
      ⟨f.x + (ljPair lj1 lj2 ipos jpos).x, f.y + (ljPair lj1 lj2 ipos jpos).y,
       f.z + (ljPair lj1 lj2 ipos jpos).z⟩ := by
    rw [ljStep_eq]
    simp only [hcut, if_true]
  refine ⟨hzero, ?_, ?_⟩
  · rw [← hzero, hstep]
    constructor
    · intro h
      have hx := congrArg Vec3.x h
      have hy := congrArg Vec3.y h
      have hz := congrArg Vec3.z h
      simp only [add_right_eq_self] at hx hy hz
      cases hp : ljPair lj1 lj2 ipos jpos with
      | mk a b c =>
        rw [hp] at hx hy hz
        simp only at hx hy hz
        rw [hx, hy, hz]
    · intro h
      rw [h]
      simp
  · rw [hstep, hpair]

/-- Witness of the amended C15: atoms at squared distance 1, `cutsq = 16`, `lj1 = 3/2`,
`lj2 = 2`. -/
theorem contribution_zero_iff_witness :
    ((0 : ℚ) < dist2 ⟨0, 0, 0⟩ ⟨1, 0, 0⟩ ∧ dist2 ⟨0, 0, 0⟩ ⟨1, 0, 0⟩ < 16) ∧
    ((ljPair (3 / 2) 2 ⟨0, 0, 0⟩ ⟨1, 0, 0⟩ = ⟨0, 0, 0⟩ ↔
        3 / 2 * ((dist2 ⟨0, 0, 0⟩ ⟨1, 0, 0⟩)⁻¹) ^ 3 = 2) ∧
    (ljStep 16 (3 / 2) 2 ⟨0, 0, 0⟩ ⟨1, 0, 0⟩ ⟨0, 0, 0⟩ = ⟨0, 0, 0⟩ ↔
        3 / 2 * ((dist2 ⟨0, 0, 0⟩ ⟨1, 0, 0⟩)⁻¹) ^ 3 = 2) ∧
    ljStep 16 (3 / 2) 2 ⟨0, 0, 0⟩ ⟨1, 0, 0⟩ ⟨0, 0, 0⟩ =
      ⟨0 + (0 - 1) * (((dist2 ⟨0, 0, 0⟩ ⟨1, 0, 0⟩)⁻¹) ^ 4
          * (3 / 2 * ((dist2 ⟨0, 0, 0⟩ ⟨1, 0, 0⟩)⁻¹) ^ 3 - 2)),
       0 + (0 - 0) * (((dist2 ⟨0, 0, 0⟩ ⟨1, 0, 0⟩)⁻¹) ^ 4
          * (3 / 2 * ((dist2 ⟨0, 0, 0⟩ ⟨1, 0, 0⟩)⁻¹) ^ 3 - 2)),
       0 + (0 - 0) * (((dist2 ⟨0, 0, 0⟩ ⟨1, 0, 0⟩)⁻¹) ^ 4
          * (3 / 2 * ((dist2 ⟨0, 0, 0⟩ ⟨1, 0, 0⟩)⁻¹) ^ 3 - 2))⟩) :=
  ⟨⟨by norm_num [dist2], by norm_num [dist2]⟩,
    contribution_zero_iff 16 (3 / 2) 2 ⟨0, 0, 0⟩ ⟨1, 0, 0⟩ ⟨0, 0, 0⟩ (by norm_num [dist2])
      (by norm_num [dist2])⟩

theorem not_row_cell {K i m : Int} (hK : 1 ≤ K)
    (h : ∀ k, 0 ≤ k → k < K → m ≠ k + K * i) : m / K ≠ i := by
  intro hmi
  apply h (m % K) (Int.emod_nonneg m (by omega)) (Int.emod_lt_of_pos m (by omega))
  rw [← hmi]
  exact (Int.emod_add_ediv m K).symm

/-- C16. On the scenario with `K = 2` and `cutsq = 10`, the iteration of `buildNeighborList`
for atom 0 and the iteration for atom 1, each started with `totalPairs = 0`, each leave
`totalPairs = 2`, and the two run one after the other leave `totalPairs = 4`: every iteration
reads and writes the counter that all iterations share (line 575), besides its row, so an
iteration that starts from the value another one has read stores a count that misses that
one's addition. -/
theorem iterations_write_shared_counter :
    (∃ nl, buildLoop 4 scenario 10 2 [0] (fun _ => 0) 0 = some (nl, 2)) ∧
    (∃ nl, buildLoop 4 scenario 10 2 [1] (fun _ => 0) 0 = some (nl, 2)) ∧
    (∃ nl, buildLoop 4 scenario 10 2 [0, 1] (fun _ => 0) 0 = some (nl, 4)) := by
  have key : ∀ (is : List Int) (t : Int),
      (buildLoop 4 scenario 10 2 is (fun _ => 0) 0).map (fun r => r.2) = some t →
      ∃ nl, buildLoop 4 scenario 10 2 is (fun _ => 0) 0 = some (nl, t) := by
    intro is t h
    obtain ⟨r, hr, hf⟩ := Option.map_eq_some'.mp h
    refine ⟨r.1, ?_⟩
    rw [hr, ← hf]
  exact ⟨key [0] 2 (by decide!), key [1] 2 (by decide!), key [0, 1] 4 (by decide!)⟩

/-- The cells written by one iteration. The iteration of `buildNeighborList` for atom `i`
changes the neighbour list only in the `maxNeighbors` cells of row `i`, where it leaves the list
`currList` of the atom in increasing order of index, and adds its count `validPairs` to the
counter `totalPairs`. The iteration of `compute_lj_force` for atom `i` changes the force array only in
cell `i`. Neither returns a changed `position` (or, in the kernel, neighbour list): they are
arguments that are only read. -/
theorem iteration_frame (position : List Vec3) (nAtom K i : Int) (nl0 : Int → Int)
    (cutsq : ℚ) (tot : Int) (force3 : Int → Vec3) (neighList : Int → Int)
    (cutsq' lj1 lj2 : ℚ) (hN : nAtom = position.length) (hK : 1 ≤ K) (hi0 : 0 ≤ i)
    (hi1 : i < nAtom) (hv : ValidList neighList nAtom K) :
    (∃ nl currDist currList, nearestOf nAtom position K i = some (currDist, currList) ∧
      buildLoop nAtom position cutsq K [i] nl0 tot
        = some (nl, tot + validCount cutsq currDist) ∧
      rowOf nl K i = currList.insertionSort (fun a b => a ≤ b) ∧
      ∀ m, (∀ k, 0 ≤ k → k < K → m ≠ k + K * i) → nl m = nl0 m) ∧
    (∃ F f, atomForce position neighList cutsq' lj1 lj2 K i = some f ∧
      ljAtoms position neighList cutsq' lj1 lj2 K [i] force3 = some F ∧
      F i = f ∧ ∀ m, m ≠ i → F m = force3 m) := by
  constructor
  · obtain ⟨E, hE, hinv⟩ := nearestOf_inv position nAtom K i hN hK hi0 hi1
    obtain ⟨nl, hb, hrow, hframe⟩ := buildLoop_spec nAtom position cutsq K [i] nl0 tot
      (List.nodup_singleton i) (by
        intro m hm
        rw [List.mem_singleton.mp hm]
        exact ⟨_, _, hE, by simp [hinv.len], by simp [hinv.len]⟩)
    refine ⟨nl, _, _, hE, ?_, hrow i (List.mem_singleton_self i) _ _ hE, ?_⟩
    · rw [hb]
      simp [pairsOf, hE]
    · intro m hm
      apply hframe
      intro i' hi'
      rw [List.mem_singleton.mp hi']
      exact not_row_cell hK hm
  · obtain ⟨f, hf⟩ := atomForce_some cutsq' lj1 lj2 hv hN i (mem_intRange.mpr ⟨hi0, hi1⟩)
    obtain ⟨F, hF, h1, h2⟩ := ljAtoms_spec position neighList cutsq' lj1 lj2 K [i] force3
      (by
        intro m hm
        rw [List.mem_singleton.mp hm]
        exact ⟨f, hf⟩)
    refine ⟨F, f, hf, hF, ?_, ?_⟩
    · have := h1 i (List.mem_singleton_self i)
      rw [hf] at this
      exact (Option.some.inj this).symm
    · intro m hm
      exact h2 m (fun hh => hm (List.mem_singleton.mp hh))

/-- The cells written by the iterations for atom 0 of two atoms at distance 1, with `K = 1` in
the builder and the neighbour list `[1, 0]` in the kernel. -/
theorem iteration_frame_witness :
    ((2 : Int) = (unitPair.length : Int) ∧ (1 : Int) ≤ 1 ∧ (0 : Int) ≤ 0 ∧ (0 : Int) < 2 ∧
      ValidList swapList 2 1) ∧
    ((∃ nl currDist currList, nearestOf 2 unitPair 1 0 = some (currDist, currList) ∧
      buildLoop 2 unitPair 16 1 [0] (fun _ => 7) 0
        = some (nl, (0 : Int) + ((validCount 16 currDist : Nat) : Int)) ∧
      rowOf nl 1 0 = currList.insertionSort (fun a b => a ≤ b) ∧
      ∀ m, (∀ k, 0 ≤ k → k < 1 → m ≠ k + 1 * 0) → nl m = (fun _ => 7) m) ∧
    (∃ F f, atomForce unitPair swapList 16 (3 / 2) 2 1 0 = some f ∧
      ljAtoms unitPair swapList 16 (3 / 2) 2 1 [0] (fun _ => ⟨7, 8, 9⟩) = some F ∧
      F 0 = f ∧ ∀ m, m ≠ 0 → F m = (fun _ => (⟨7, 8, 9⟩ : Vec3)) m)) :=
  ⟨⟨by rfl, by decide, by decide, by decide, validList_swapList⟩,
    iteration_frame unitPair 2 1 0 (fun _ => 7) 16 0 (fun _ => ⟨7, 8, 9⟩) swapList 16 (3 / 2) 2
      (by rfl) (by decide) (by decide) (by decide) validList_swapList⟩

/-- C17, counterexample. With `K = 1`, starting from `[FLT_MAX]` and `[-1]`, atom 0 at squared
distance 5 is inserted; atom 1, also at squared distance 5, is not greater than the last entry
and yet is not inserted: the lists stay `[5]` and `[0]`. -/
theorem tie_with_last_counterexample :
    insertInOrder [FLT_MAX] [-1] 0 5 1 = some ([5], [0]) ∧ ¬ ((5 : ℚ) > 5) ∧
    insertInOrder [5] [0] 1 5 1 = some ([5], [0]) := by
  refine ⟨by decide, by decide, by decide⟩

theorem listsInv_init (δ : Int → ℚ) (K : Nat) :
    ListsInv δ K (List.replicate K FLT_MAX) (List.replicate K (-1)) := by
  refine ⟨by simp, by simp, ?_, ?_⟩
  · apply List.pairwise_of_forall_mem_list
    intro a ha b hb
    rw [List.eq_of_mem_replicate ha, List.eq_of_mem_replicate hb]
  · intro e he
    left
    rw [List.zip_replicate, Nat.min_self] at he
    rw [List.eq_of_mem_replicate he]
    exact ⟨rfl, rfl⟩

/-- C17, as amended. The lists `K` copies of `FLT_MAX` and `K` copies of `-1` satisfy the
invariant, and every call `insertInOrder(currDist, currList, j, distIJ, K)` on lists that
satisfy it has a result that satisfies it again: both lists have `K` entries, `currDist` is in
non-decreasing order and every pair is the initial fill or an atom with its squared distance.
A candidate with `distIJ` greater than or equal to the last entry leaves both lists unchanged;
a candidate with `distIJ` below the last entry is inserted before the first entry strictly
greater than `distIJ`, and the last entry is dropped. -/
theorem insertInOrder_invariant (δ : Int → ℚ) (K : Int) (currDist : List ℚ)
    (currList : List Int) (j : Int) (hK : 1 ≤ K) (h : ListsInv δ K.toNat currDist currList) :
    ListsInv δ K.toNat (List.replicate K.toNat FLT_MAX) (List.replicate K.toNat (-1)) ∧
    ∃ cd cl last, currDist.getLast? = some last ∧
      insertInOrder currDist currList j (δ j) K = some (cd, cl) ∧
      ListsInv δ K.toNat cd cl ∧
      (last ≤ δ j → cd = currDist ∧ cl = currList) ∧
      (δ j < last → ∃ a b a2 b2 l2, currDist = a ++ b ++ [last] ∧
        currList = a2 ++ b2 ++ [l2] ∧ a.length = a2.length ∧ b.length = b2.length ∧
        (∀ x ∈ a, x ≤ δ j) ∧ (∀ x ∈ b ++ [last], δ j < x) ∧
        cd = a ++ δ j :: b ∧ cl = a2 ++ j :: b2) := by
  refine ⟨listsInv_init δ K.toNat, ?_⟩
  obtain ⟨hl1, hl2, hsorted, hent⟩ := h
  have hfst : (currDist.zip currList).map Prod.fst = currDist :=
    List.map_fst_zip _ _ (by omega)
  have hsnd : (currDist.zip currList).map Prod.snd = currList :=
    List.map_snd_zip _ _ (by omega)
  have hlenE : (currDist.zip currList).length = K.toNat := by
    rw [List.length_zip, hl1, hl2, Nat.min_self]
  have hsE : SortedFst (currDist.zip currList) := by
    unfold SortedFst
    have : List.Pairwise (fun a b => a ≤ b) ((currDist.zip currList).map Prod.fst) := by
      rw [hfst]
      exact hsorted
    exact List.pairwise_map.mp this
  obtain ⟨R, hR, hcase⟩ := insertInOrder_pairs (currDist.zip currList) j (δ j) K hK hlenE hsE
  rw [hfst, hsnd] at hR
  have hne : currDist ≠ [] := by
    intro hnil
    rw [hnil] at hl1
    simp at hl1
    omega
  have hlast : currDist.getLast? = some (currDist.getLast hne) :=
    List.getLast?_eq_getLast _ hne
  have hlastmem : currDist.getLast hne ∈ currDist := List.getLast_mem hne
  refine ⟨R.map Prod.fst, R.map Prod.snd, currDist.getLast hne, hlast, hR, ?_⟩
  rcases hcase with ⟨hRE, hle⟩ | ⟨a, b, l, hE, hRab, ha, hb, hl⟩
  · have hle' : ∀ x ∈ currDist, x ≤ δ j := by
      intro x hx
      rw [← hfst] at hx
      obtain ⟨e, he, rfl⟩ := List.mem_map.mp hx
      exact hle e he
    refine ⟨?_, ?_, ?_⟩
    · rw [hRE, hfst, hsnd]
      exact ⟨hl1, hl2, hsorted, hent⟩
    · intro _
      rw [hRE, hfst, hsnd]
      exact ⟨rfl, rfl⟩
    · intro hlt
      exact absurd (hle' _ hlastmem) (not_le.mpr hlt)
  · have hcd : currDist = a.map Prod.fst ++ b.map Prod.fst ++ [l.1] := by
      rw [← hfst, hE]
      simp
    have hcl : currList = a.map Prod.snd ++ b.map Prod.snd ++ [l.2] := by
      rw [← hsnd, hE]
      simp
    have hlasteq : currDist.getLast hne = l.1 := by
      have : currDist.getLast? = some l.1 := by
        rw [hcd]
        simp
      rw [hlast] at this
      exact Option.some.inj this
    have hs := hsE
    rw [hE] at hs
    unfold SortedFst at hs
    have hs1 := List.pairwise_append.mp hs
    have hs2 := List.pairwise_append.mp hs1.1
    have hsR : SortedFst R := by
      rw [hRab]
      unfold SortedFst
      rw [List.pairwise_append]
      refine ⟨hs2.1, ?_, ?_⟩
      · rw [List.pairwise_cons]
        exact ⟨fun e he => le_of_lt (hb e he), hs2.2.1⟩
      · intro x hx y hy
        rcases List.mem_cons.mp hy with rfl | hy
        · exact ha x hx
        · exact hs2.2.2 x hx y hy
    refine ⟨?_, ?_, ?_⟩
    · refine ⟨?_, ?_, List.pairwise_map.mpr hsR, ?_⟩
      · rw [List.length_map, hRab, ← hlenE, hE]
        simp
      · rw [List.length_map, hRab, ← hlenE, hE]
        simp
      · intro e he
        have hzip : R = (R.map Prod.fst).zip (R.map Prod.snd) := List.zip_of_prod rfl rfl
        rw [← hzip, hRab] at he
        rcases List.mem_append.mp he with he | he
        · exact hent e (by rw [hE]; simp [he])
        · rcases List.mem_cons.mp he with rfl | he
          · exact Or.inr rfl
          · exact hent e (by rw [hE]; simp [he])
    · intro hge
      rw [hlasteq] at hge
      exact absurd hl (not_lt.mpr hge)
    · intro _
      refine ⟨a.map Prod.fst, b.map Prod.fst, a.map Prod.snd, b.map Prod.snd, l.2, ?_, hcl,
        by simp, by simp, ?_, ?_, ?_, ?_⟩
      · rw [hlasteq]
        exact hcd
      · intro x hx
        obtain ⟨e, he, rfl⟩ := List.mem_map.mp hx
        exact ha e he
      · intro x hx
        rcases List.mem_append.mp hx with hx | hx
        · obtain ⟨e, he, rfl⟩ := List.mem_map.mp hx
          exact hb e he
        · rw [List.mem_singleton.mp hx, hlasteq]
          exact hl
      · rw [hRab]
        simp
      · rw [hRab]
        simp

/-- Witness of the amended C17: the second insertion of the scan of atom 3 of the scenario
(`K = 2`, atom 1 at squared distance 66 into the lists `[75, FLT_MAX]` and `[0, -1]`). -/
theorem insertInOrder_invariant_witness :
    ((1 : Int) ≤ 2 ∧ ListsInv (sqDist scenario 3) (2 : Int).toNat [75, FLT_MAX] [0, -1]) ∧
    (ListsInv (sqDist scenario 3) (2 : Int).toNat (List.replicate (2 : Int).toNat FLT_MAX)
        (List.replicate (2 : Int).toNat (-1)) ∧
    ∃ cd cl last, [75, FLT_MAX].getLast? = some last ∧
      insertInOrder [75, FLT_MAX] [0, -1] 1 (sqDist scenario 3 1) 2 = some (cd, cl) ∧
      ListsInv (sqDist scenario 3) (2 : Int).toNat cd cl ∧
      (last ≤ sqDist scenario 3 1 → cd = [75, FLT_MAX] ∧ cl = [0, -1]) ∧
      (sqDist scenario 3 1 < last → ∃ a b a2 b2 l2, [75, FLT_MAX] = a ++ b ++ [last] ∧
        [0, -1] = a2 ++ b2 ++ [l2] ∧ a.length = a2.length ∧ b.length = b2.length ∧
        (∀ x ∈ a, x ≤ sqDist scenario 3 1) ∧ (∀ x ∈ b ++ [last], sqDist scenario 3 1 < x) ∧
        cd = a ++ sqDist scenario 3 1 :: b ∧ cl = a2 ++ 1 :: b2)) :=
  have hinv : ListsInv (sqDist scenario 3) (2 : Int).toNat [75, FLT_MAX] [0, -1] := by
    have h0 : sqDist scenario 3 0 = 75 := by decide!
    refine ⟨by decide, by decide, by decide, ?_⟩
    intro e he
    simp only [List.zip_cons_cons, List.zip_nil_right, List.mem_cons, List.mem_singleton,
      List.not_mem_nil, or_false] at he
    rcases he with rfl | rfl
    · exact Or.inr h0.symm
    · exact Or.inl ⟨rfl, rfl⟩
  ⟨⟨by decide, hinv⟩, insertInOrder_invariant (sqDist scenario 3) 2 [75, FLT_MAX] [0, -1] 1
    (by decide) hinv⟩

theorem relErr_self (d : Vec3) :
    (d.x ≠ 0 ∧ d.y ≠ 0 ∧ d.z ≠ 0 → relErr d d = ErrVal.finite 0) ∧
    (d.x = 0 ∨ d.y = 0 ∨ d.z = 0 → relErr d d = ErrVal.undefined) ∧
    ∀ bound, 0 ≤ bound → (relErr d d).exceeds bound = false := by
  refine ⟨?_, ?_, ?_⟩
  · rintro ⟨hx, hy, hz⟩
    simp [relErr, fdiv, ErrVal.magnitude, ErrVal.add, hx, hy, hz]
  · intro h
    by_cases hx : d.x = 0 <;> by_cases hy : d.y = 0 <;> by_cases hz : d.z = 0 <;>
      simp [hx, hy, hz] at h <;>
      simp [relErr, fdiv, ErrVal.magnitude, ErrVal.add, hx, hy, hz]
  · intro bound hb
    by_cases hx : d.x = 0 <;> by_cases hy : d.y = 0 <;> by_cases hz : d.z = 0 <;>
      simp [relErr, fdiv, ErrVal.magnitude, ErrVal.add, ErrVal.exceeds, hx, hy, hz, hb]

/-- C18, counterexample. For two atoms at distance 1 on the x axis with the neighbour list
`[1, 0]`, the force that `compute_lj_force` stores for atom 0 is `(1/2, 0, 0)`, and it is the
reference force of `checkResults`; the quotients of lines 272-273 are `0 / 0`, and the error
of atom 0 is NaN, not 0. -/
theorem zero_component_error_counterexample :
    ∃ F, compute_lj_force (fun _ => ⟨0, 0, 0⟩) unitPair 1 swapList 16 (3 / 2) 2 2 1 1 = some F ∧
      refForce unitPair swapList 16 (3 / 2) 2 1 0 = some (F 0) ∧
      F 0 = ⟨1 / 2, 0, 0⟩ ∧ relErr (F 0) (F 0) = ErrVal.undefined ∧
      relErr (F 0) (F 0) ≠ ErrVal.finite 0 := by
  obtain ⟨F, hF, hat, _⟩ := compute_lj_force_spec (fun _ => ⟨0, 0, 0⟩) unitPair 1 swapList 16
    (3 / 2) 2 2 1 1 (by rfl) validList_swapList
  have h0 := hat (by decide) 0 (by decide) (by decide)
  have h1 : atomForce unitPair swapList 16 (3 / 2) 2 1 0
      = some (ljStep 16 (3 / 2) 2 ⟨0, 0, 0⟩ ⟨1, 0, 0⟩ ⟨0, 0, 0⟩) :=
    atomForce_pair ⟨0, 0, 0⟩ ⟨1, 0, 0⟩ swapList 16 (3 / 2) 2 rfl
  have h2 : ljStep 16 (3 / 2) 2 ⟨0, 0, 0⟩ ⟨1, 0, 0⟩ ⟨0, 0, 0⟩ = ⟨1 / 2, 0, 0⟩ := by decide!
  have hF0 : F 0 = ⟨1 / 2, 0, 0⟩ := by
    rw [h1, h2] at h0
    exact (Option.some.inj h0).symm
  have hu : relErr (F 0) (F 0) = ErrVal.undefined := by
    rw [hF0]
    decide!
  refine ⟨F, hF, ?_, hF0, hu, ?_⟩
  · rw [refForce_eq_atomForce]
    exact h0
  · rw [hu]
    exact fun h => ErrVal.noConfusion h

/-- C18, as amended. On a position array of `inum` atoms and a valid neighbour list, after at
least one repetition, the reference force that `checkResults` recomputes for each atom is the
force that `compute_lj_force` has stored for it; the error of an atom is 0 where its three
force components are other than 0 and NaN where one of them is 0, and in both cases it does
not exceed `3 * eps` for `eps ≥ 0`; `checkResults` on the kernel's output returns true; and,
when no listed neighbour within the cutoff is at distance 0, `checkResults` returns false on
every force array that has an atom whose error against the kernel's force exceeds `3 * eps`. -/
theorem checkResults_accepts_kernel (force3 : Int → Vec3) (position : List Vec3)
    (neighCount : Int) (nl : Int → Int) (cutsq lj1 lj2 eps : ℚ) (inum K nIters : Int)
    (hN : inum = position.length) (hv : ValidList nl inum K) (hIt : 1 ≤ nIters)
    (heps : 0 ≤ eps) :
    ∃ F, compute_lj_force force3 position neighCount nl cutsq lj1 lj2 inum K nIters = some F ∧
      (∀ i, 0 ≤ i → i < inum →
        refForce position nl cutsq lj1 lj2 K i = some (F i) ∧
        ((F i).x ≠ 0 ∧ (F i).y ≠ 0 ∧ (F i).z ≠ 0 → relErr (F i) (F i) = ErrVal.finite 0) ∧
        ((F i).x = 0 ∨ (F i).y = 0 ∨ (F i).z = 0 → relErr (F i) (F i) = ErrVal.undefined) ∧
        (relErr (F i) (F i)).exceeds (3 * eps) = false) ∧
      checkResults lj1 lj2 F position nl inum eps K cutsq = some true ∧
      (NoCoincident position nl cutsq inum K → ∀ d_force : Int → Vec3,
        (∃ i, 0 ≤ i ∧ i < inum ∧ (relErr (d_force i) (F i)).exceeds (3 * eps) = true) →
        checkResults lj1 lj2 d_force position nl inum eps K cutsq = some false) := by
  obtain ⟨F, hF, hat, _⟩ :=
    compute_lj_force_spec force3 position neighCount nl cutsq lj1 lj2 inum K nIters hN hv
  have href : ∀ i, 0 ≤ i → i < inum → refForce position nl cutsq lj1 lj2 K i = some (F i) := by
    intro i hi0 hi1
    rw [refForce_eq_atomForce]
    exact hat hIt i hi0 hi1
  have hall : ∀ i ∈ intRange inum, ∃ ref, refForce position nl cutsq lj1 lj2 K i = some ref := by
    intro i hi
    have hi' := mem_intRange.mp hi
    exact ⟨_, href i hi'.1 hi'.2⟩
  have h3 : (0 : ℚ) ≤ 3 * eps := by positivity
  refine ⟨F, hF, fun i hi0 hi1 => ⟨href i hi0 hi1, (relErr_self _).1, (relErr_self _).2.1,
    (relErr_self _).2.2 _ h3⟩, ?_, ?_⟩
  · obtain ⟨b, hb, hiff⟩ := checkLoop_spec F position nl eps K cutsq lj1 lj2 (intRange inum) hall
    have hbt : b = true := by
      cases b with
      | true => rfl
      | false =>
        exfalso
        obtain ⟨i, hi, ref, hr1, hr2⟩ := hiff.mp rfl
        have hi' := mem_intRange.mp hi
        rw [href i hi'.1 hi'.2] at hr1
        rw [← Option.some.inj hr1, (relErr_self _).2.2 _ h3] at hr2
        exact Bool.noConfusion hr2
    rw [checkResults, hb, hbt]
  · intro _ d_force hex
    obtain ⟨i, hi0, hi1, herr⟩ := hex
    obtain ⟨b, hb, hiff⟩ :=
      checkLoop_spec d_force position nl eps K cutsq lj1 lj2 (intRange inum) hall
    have hbf : b = false :=
      hiff.mpr ⟨i, mem_intRange.mpr ⟨hi0, hi1⟩, F i, href i hi0 hi1, herr⟩
    rw [checkResults, hb, hbf]

/-- Witness of the amended C18 on two atoms at distance 3 with the neighbour list `[1, 0]`. -/
theorem checkResults_accepts_kernel_witness :
    ((2 : Int) = (skewPair.length : Int) ∧ ValidList swapList 2 1 ∧ (1 : Int) ≤ 1 ∧
      (0 : ℚ) ≤ 1 / 10) ∧
    ∃ F, compute_lj_force (fun _ => ⟨0, 0, 0⟩) skewPair 1 swapList 16 (3 / 2) 2 2 1 1 = some F ∧
      (∀ i, 0 ≤ i → i < 2 →
        refForce skewPair swapList 16 (3 / 2) 2 1 i = some (F i) ∧
        ((F i).x ≠ 0 ∧ (F i).y ≠ 0 ∧ (F i).z ≠ 0 → relErr (F i) (F i) = ErrVal.finite 0) ∧
        ((F i).x = 0 ∨ (F i).y = 0 ∨ (F i).z = 0 → relErr (F i) (F i) = ErrVal.undefined) ∧
        (relErr (F i) (F i)).exceeds (3 * (1 / 10)) = false) ∧
      checkResults (3 / 2) 2 F skewPair swapList 2 (1 / 10) 1 16 = some true ∧
      (NoCoincident skewPair swapList 16 2 1 → ∀ d_force : Int → Vec3,
        (∃ i, 0 ≤ i ∧ i < 2 ∧ (relErr (d_force i) (F i)).exceeds (3 * (1 / 10)) = true) →
        checkResults (3 / 2) 2 d_force skewPair swapList 2 (1 / 10) 1 16 = some false) :=
  ⟨⟨by rfl, validList_swapList, by decide, by norm_num⟩,
    checkResults_accepts_kernel (fun _ => ⟨0, 0, 0⟩) skewPair 1 swapList 16 (3 / 2) 2 (1 / 10)
      2 1 1 (by rfl) validList_swapList (by decide) (by norm_num)⟩

/-- C19. For `nAtom ≥ 2` atoms whose squared distances are all below `FLT_MAX` and
`1 ≤ maxNeighbors ≤ nAtom - 1`, `buildNeighborList` has a result in which every entry of every
row is an atom index in `[0, nAtom)`: no row holds the sentinel, and every read
`position[neighList[j + i * maxNeighbors]]` of `compute_lj_force` and of `checkResults` is
inside the array. -/
theorem built_list_entries_valid (position : List Vec3) (nAtom K : Int) (nl0 : Int → Int)
    (cutsq : ℚ) (hN : nAtom = position.length) (hK1 : 1 ≤ K) (hK2 : K ≤ nAtom - 1)
    (hD : ∀ a ∈ position, ∀ b ∈ position, dist2 a b < FLT_MAX) :
    ∃ nl total, buildNeighborList nAtom position nl0 cutsq K = some (nl, total) ∧
      ∀ i, 0 ≤ i → i < nAtom →
        (∀ c ∈ rowOf nl K i, 0 ≤ c ∧ c < nAtom) ∧ (-1 : Int) ∉ rowOf nl K i ∧
        ∀ j, 0 ≤ j → j < K →
          (0 ≤ nl (j + i * K) ∧ nl (j + i * K) < nAtom) ∧
          (readPos position (nl (j + i * K))).isSome = true ∧
          (readPos position (nl (j + K * i))).isSome = true := by
  obtain ⟨nl, total, hb, hv⟩ :=
    buildNeighborList_validList position nAtom K nl0 cutsq hN hK1 hK2 hD
  refine ⟨nl, total, hb, ?_⟩
  intro i hi0 hi1
  have hrow : ∀ c ∈ rowOf nl K i, 0 ≤ c ∧ c < nAtom := by
    intro c hc
    rw [rowOf_eq_cells] at hc
    obtain ⟨j, hj, rfl⟩ := List.mem_map.mp hc
    have hj' := mem_intRange.mp hj
    exact hv i j hi0 hi1 hj'.1 hj'.2
  refine ⟨hrow, ?_, ?_⟩
  · intro hc
    have := (hrow _ hc).1
    omega
  · intro j hj0 hj1
    have hval := hv i j hi0 hi1 hj0 hj1
    have hlt : nl (j + i * K) < position.length := by omega
    obtain ⟨p, hp, _⟩ := readPos_eq_some hval.1 hlt
    refine ⟨hval, by rw [hp]; rfl, ?_⟩
    rw [mul_comm K i, hp]
    rfl

/-- Witness of C19 on the four atoms of the scenario with `K = 2`. -/
theorem built_list_entries_valid_witness :
    ((4 : Int) = (scenario.length : Int) ∧ (1 : Int) ≤ 2 ∧ (2 : Int) ≤ 4 - 1 ∧
      ∀ a ∈ scenario, ∀ b ∈ scenario, dist2 a b < FLT_MAX) ∧
    ∃ nl total, buildNeighborList 4 scenario (fun _ => 0) 10 2 = some (nl, total) ∧
      ∀ i, 0 ≤ i → i < 4 →
        (∀ c ∈ rowOf nl 2 i, 0 ≤ c ∧ c < 4) ∧ (-1 : Int) ∉ rowOf nl 2 i ∧
        ∀ j, 0 ≤ j → j < 2 →
          (0 ≤ nl (j + i * 2) ∧ nl (j + i * 2) < 4) ∧
          (readPos scenario (nl (j + i * 2))).isSome = true ∧
          (readPos scenario (nl (j + 2 * i))).isSome = true :=
  ⟨⟨by rfl, by decide, by decide, by simp [scenario, dist2, FLT_MAX]; norm_num⟩,
    built_list_entries_valid scenario 4 2 (fun _ => 0) 10 (by rfl) (by decide) (by decide)
      (by simp [scenario, dist2, FLT_MAX]; norm_num)⟩

/-- C20, the code at the failing input. The size class 0 passes the assertion
`sizeClass >= 0 && sizeClass < 5` and the index `sizeClass - 1 = -1` is outside the four
entries of `probSizes`; the size classes 1 to 4 give the four canonical counts, and the
assertion fails for every other size class. -/
theorem size_class_zero_reads_outside :
    ((0 : Int) ≥ 0 ∧ (0 : Int) < 5) ∧ chooseAtoms 0 0 = SizeChoice.readOutside ∧
    chooseAtoms 1 0 = SizeChoice.atoms 12288 ∧ chooseAtoms 2 0 = SizeChoice.atoms 24576 ∧
    chooseAtoms 3 0 = SizeChoice.atoms 36864 ∧ chooseAtoms 4 0 = SizeChoice.atoms 73728 ∧
    ∀ s : Int, ¬ (s ≥ 0 ∧ s < 5) → chooseAtoms s 0 = SizeChoice.assertionFailed := by
  refine ⟨by decide, by decide, by decide, by decide, by decide, by decide, ?_⟩
  intro s hs
  simp [chooseAtoms, hs]

/-! ## Ties -/

theorem pairs_ext {R R' : List (ℚ × Int)} (h1 : R.map Prod.fst = R'.map Prod.fst)
    (h2 : R.map Prod.snd = R'.map Prod.snd) : R = R' := by
  rw [List.zip_of_prod (rfl : R.map Prod.fst = _) (rfl : R.map Prod.snd = _), h1, h2]
  exact (List.zip_of_prod rfl rfl).symm

theorem tieInv_congr {δ : Int → ℚ} {P Q : Int → Prop} {E : List (ℚ × Int)}
    (h : TieInv δ P E) (hPQ : ∀ m, P m ↔ Q m) : TieInv δ Q E where
  le_max := h.le_max
  order := h.order
  excl := fun m hm => h.excl m ((hPQ m).mpr hm)

theorem tieInv_init (δ : Int → ℚ) (K : Nat) :
    TieInv δ (fun _ => False) (List.replicate K (FLT_MAX, -1)) where
  le_max := by
    intro e he
    rw [List.eq_of_mem_replicate he]
  order := by
    apply List.pairwise_of_forall_mem_list
    intro a ha b hb
    rw [List.eq_of_mem_replicate ha, List.eq_of_mem_replicate hb]
    exact Or.inr ⟨rfl, Or.inr rfl⟩
  excl := fun m hm => hm.elim

theorem tieInv_step {δ : Int → ℚ} {K : Int} {P : Int → Prop} {E : List (ℚ × Int)}
    (hK : 1 ≤ K) (h : ScanInv δ K.toNat P E) (ht : TieInv δ P E) (hP0 : ∀ m, P m → 0 ≤ m)
    (j : Int) (hj0 : 0 ≤ j) (hlt : ∀ m, P m → m < j) :
    ∃ R, insertInOrder (E.map Prod.fst) (E.map Prod.snd) j (δ j) K
          = some (R.map Prod.fst, R.map Prod.snd) ∧
      ScanInv δ K.toNat (fun m => P m ∨ m = j) R ∧ TieInv δ (fun m => P m ∨ m = j) R := by
  have hP : ∀ m, P m → m ≠ -1 := fun m hm => by have := hP0 m hm; omega
  have hj : ¬ P j := fun hp => by have := hlt j hp; omega
  obtain ⟨R, hR, hcase⟩ := insertInOrder_pairs E j (δ j) K hK h.len h.sorted
  obtain ⟨R', hR', hinv⟩ := ScanInv.step hK h hP j hj (by omega)
  have hRR : R' = R := by
    rw [hR] at hR'
    have := Prod.mk.inj (Option.some.inj hR')
    exact pairs_ext this.1.symm this.2.symm
  subst hRR
  refine ⟨R', hR, hinv, ?_⟩
  have hidx : ∀ e ∈ E, e.2 < j := by
    intro e he
    rcases h.entry e he with rfl | ⟨hp, _⟩
    · show (-1 : Int) < j
      omega
    · exact hlt _ hp
  rcases hcase with ⟨rfl, hle⟩ | ⟨a, b, l, rfl, rfl, ha, hb, hl⟩
  · exact
      { le_max := ht.le_max
        order := ht.order
        excl := by
          intro m hm hmem e he
          rcases hm with hm | rfl
          · exact ht.excl m hm hmem e he
          · rcases lt_or_eq_of_le (hle e he) with h1 | h1
            · exact Or.inl h1
            · exact Or.inr ⟨h1, hidx e he⟩ }
  · have hlmax : l.1 ≤ FLT_MAX := ht.le_max l (by simp)
    have ho := ht.order
    have ho1 := List.pairwise_append.mp ho
    have ho2 := List.pairwise_append.mp ho1.1
    refine
      { le_max := ?_
        order := ?_
        excl := ?_ }
    · intro e he
      rcases List.mem_append.mp he with he | he
      · exact ht.le_max e (by simp [he])
      · rcases List.mem_cons.mp he with rfl | he
        · exact le_trans (le_of_lt hl) hlmax
        · exact ht.le_max e (by simp [he])
    · rw [List.pairwise_append]
      refine ⟨ho2.1, ?_, ?_⟩
      · rw [List.pairwise_cons]
        exact ⟨fun e he => Or.inl (hb e he), ho2.2.1⟩
      · intro x hx y hy
        rcases List.mem_cons.mp hy with rfl | hy
        · rcases lt_or_eq_of_le (ha x hx) with h1 | h1
          · exact Or.inl h1
          · exact Or.inr ⟨h1, Or.inl (hidx x (by simp [hx]))⟩
        · exact ho2.2.2 x hx y hy
    · intro m hm hmem e he
      have hmne : m ≠ j := by
        intro hmj
        apply hmem
        simp [hmj]
      have hPm : P m := by
        rcases hm with hm | hm
        · exact hm
        · exact absurd hm hmne
      have hma : m ∉ List.map Prod.snd a := fun hh => hmem (by
        simp only [List.map_append, List.map_cons, List.mem_append, List.mem_cons]
        exact Or.inl hh)
      have hmb : m ∉ List.map Prod.snd b := fun hh => hmem (by
        simp only [List.map_append, List.map_cons, List.mem_append, List.mem_cons]
        exact Or.inr (Or.inr hh))
      by_cases hml : l.2 = m
      · have hl1 : l.1 = δ m := by
          rcases h.entry l (by simp) with hsent | ⟨_, hd⟩
          · exfalso
            have := hP0 m hPm
            rw [← hml, hsent] at this
            simp at this
          · rw [hd, hml]
        have hbefore : ∀ x ∈ a ++ b, x.1 < δ m ∨ (x.1 = δ m ∧ x.2 < m) := by
          intro x hx
          rcases ho1.2.2 x hx l (by simp) with h1 | ⟨h1, h2⟩
          · exact Or.inl (hl1 ▸ h1)
          · refine Or.inr ⟨hl1 ▸ h1, ?_⟩
            rcases h2 with h2 | h2
            · exact hml ▸ h2
            · exfalso
              have := hP0 m hPm
              rw [← hml, h2] at this
              simp at this
        rcases List.mem_append.mp he with he | he
        · exact hbefore e (List.mem_append_left _ he)
        · rcases List.mem_cons.mp he with rfl | he
          · exact Or.inl (hl1 ▸ hl)
          · exact hbefore e (List.mem_append_right _ he)
      · have hmE : m ∉ List.map Prod.snd (a ++ b ++ [l]) := by
          simp only [List.map_append, List.map_cons, List.map_nil, List.mem_append,
            List.mem_cons, List.mem_singleton, List.not_mem_nil, or_false]
          intro hh
          rcases hh with (hh | hh) | hh
          · exact hma hh
          · exact hmb hh
          · exact hml hh.symm
        have hold := ht.excl m hPm hmE
        rcases List.mem_append.mp he with he | he
        · exact hold e (by simp [he])
        · rcases List.mem_cons.mp he with rfl | he
          · left
            rcases hold l (by simp) with h1 | ⟨h1, _⟩
            · exact lt_trans hl h1
            · exact h1 ▸ hl
          · exact hold e (by simp [he])

theorem scanAtoms_tie (position : List Vec3) (i K : Int) (hK : 1 ≤ K) (δ : Int → ℚ) :
    ∀ (js : List Int) (P : Int → Prop) (E : List (ℚ × Int)),
      ScanInv δ K.toNat P E → TieInv δ P E → (∀ m, P m → 0 ≤ m) →
      js.Pairwise (fun a b => a < b) →
      (∀ j ∈ js, 0 ≤ j ∧ ∀ m, P m → m < j) →
      (∀ j ∈ js, j ≠ i → distance position i j = some (δ j)) →
      ∃ R, scanAtoms position i K js (E.map Prod.fst) (E.map Prod.snd)
            = some (R.map Prod.fst, R.map Prod.snd) ∧
        ScanInv δ K.toNat (fun m => P m ∨ (m ∈ js ∧ m ≠ i)) R ∧
        TieInv δ (fun m => P m ∨ (m ∈ js ∧ m ≠ i)) R := by
  intro js
  induction js with
  | nil =>
    intro P E h ht _ _ _ _
    exact ⟨E, by simp [scanAtoms], h.congr (by simp), tieInv_congr ht (by simp)⟩
  | cons j js ih =>
    intro P E h ht hP0 hsorted hjs hdist
    have hs' := List.pairwise_cons.mp hsorted
    by_cases hij : i = j
    · obtain ⟨R, hR, hinv, htie⟩ := ih P E h ht hP0 hs'.2
        (fun m hm => hjs m (List.mem_cons_of_mem _ hm))
        (fun m hm => hdist m (List.mem_cons_of_mem _ hm))
      have hcongr : ∀ m, (P m ∨ (m ∈ js ∧ m ≠ i)) ↔ (P m ∨ (m ∈ j :: js ∧ m ≠ i)) := by
        intro m
        constructor
        · rintro (hm | ⟨hm, hmi⟩)
          · exact Or.inl hm
          · exact Or.inr ⟨List.mem_cons_of_mem _ hm, hmi⟩
        · rintro (hm | ⟨hm, hmi⟩)
          · exact Or.inl hm
          · rcases List.mem_cons.mp hm with rfl | hm
            · exact absurd hij.symm hmi
            · exact Or.inr ⟨hm, hmi⟩
      exact ⟨R, by simp [scanAtoms, hij, ← hR], hinv.congr hcongr, tieInv_congr htie hcongr⟩
    · have hj := hjs j (List.mem_cons_self _ _)
      obtain ⟨R1, hR1, hinv1, htie1⟩ := tieInv_step hK h ht hP0 j hj.1 hj.2
      have hP1 : ∀ m, (P m ∨ m = j) → 0 ≤ m := by
        rintro m (hm | rfl)
        · exact hP0 m hm
        · exact hj.1
      obtain ⟨R, hR, hinv, htie⟩ := ih (fun m => P m ∨ m = j) R1 hinv1 htie1 hP1 hs'.2
        (by
          intro m hm
          refine ⟨(hjs m (List.mem_cons_of_mem _ hm)).1, ?_⟩
          rintro m' (hpm | rfl)
          · exact (hjs m (List.mem_cons_of_mem _ hm)).2 m' hpm
          · exact hs'.1 m hm)
        (fun m hm => hdist m (List.mem_cons_of_mem _ hm))
      have hcongr : ∀ m, ((P m ∨ m = j) ∨ (m ∈ js ∧ m ≠ i)) ↔
          (P m ∨ (m ∈ j :: js ∧ m ≠ i)) := by
        intro m
        constructor
        · rintro ((hm | rfl) | ⟨hm, hmi⟩)
          · exact Or.inl hm
          · exact Or.inr ⟨List.mem_cons_self _ _, fun hh => hij hh.symm⟩
          · exact Or.inr ⟨List.mem_cons_of_mem _ hm, hmi⟩
        · rintro (hm | ⟨hm, hmi⟩)
          · exact Or.inl (Or.inl hm)
          · rcases List.mem_cons.mp hm with rfl | hm
            · exact Or.inl (Or.inr rfl)
            · exact Or.inr ⟨hm, hmi⟩
      refine ⟨R, ?_, hinv.congr hcongr, tieInv_congr htie hcongr⟩
      have hd := hdist j (List.mem_cons_self _ _) (fun hh => hij hh.symm)
      simp only [scanAtoms, hij, if_false, hd, hR1]
      exact hR

theorem intRange_increasing (n : Int) : (intRange n).Pairwise (fun a b => a < b) := by
  unfold intRange
  rw [List.pairwise_map]
  apply List.Pairwise.imp _ (List.pairwise_lt_range n.toNat)
  intro a b hab
  simp only [Int.ofNat_eq_coe]
  omega

theorem nearestOf_tie (position : List Vec3) (nAtom K i : Int)
    (hN : nAtom = position.length) (hK : 1 ≤ K) (hi0 : 0 ≤ i) (hi1 : i < nAtom) :
    ∃ E, nearestOf nAtom position K i = some (E.map Prod.fst, E.map Prod.snd) ∧
      ScanInv (sqDist position i) K.toNat (fun m => (0 ≤ m ∧ m < nAtom) ∧ m ≠ i) E ∧
      TieInv (sqDist position i) (fun m => (0 ≤ m ∧ m < nAtom) ∧ m ≠ i) E := by
  obtain ⟨R, hR, hinv, htie⟩ := scanAtoms_tie position i K hK (sqDist position i)
    (intRange nAtom) (fun _ => False) _ (ScanInv.init _ K.toNat) (tieInv_init _ K.toNat)
    (fun _ hm => hm.elim) (intRange_increasing nAtom)
    (by
      intro j hj
      exact ⟨(mem_intRange.mp hj).1, fun _ hm => hm.elim⟩)
    (by
      intro j hj _
      have hj' := mem_intRange.mp hj
      have hi1' : i < position.length := by omega
      have hj1' : j < position.length := by omega
      exact sqDist_spec hi0 hi1' hj'.1 hj1')
  have hcongr : ∀ m, (False ∨ (m ∈ intRange nAtom ∧ m ≠ i)) ↔ ((0 ≤ m ∧ m < nAtom) ∧ m ≠ i) := by
    intro m
    simp [mem_intRange]
  refine ⟨R, ?_, hinv.congr hcongr, tieInv_congr htie hcongr⟩
  have hK' : ¬ K < 0 := by omega
  simp only [nearestOf, hK', if_false]
  simpa using hR

/-- C21. When the position array holds `nAtom` atoms and `maxNeighbors ≥ 1`,
`buildNeighborList` has a result in which ties go to the lower index: for every atom `i` and
atoms `j < m`, both other than `i` and at the same squared distance from `i`, if `m` is in row
`i` then `j` is in row `i` too. -/
theorem ties_favour_lower_index (position : List Vec3) (nAtom K : Int) (nl0 : Int → Int)
    (cutsq : ℚ) (hN : nAtom = position.length) (hK1 : 1 ≤ K) :
    ∃ nl total, buildNeighborList nAtom position nl0 cutsq K = some (nl, total) ∧
      ∀ i j m, 0 ≤ i → i < nAtom → 0 ≤ j → j < m → m < nAtom → j ≠ i → m ≠ i →
        distance position i j = distance position i m →
        m ∈ rowOf nl K i → j ∈ rowOf nl K i := by
  obtain ⟨nl, hb, _, hrows⟩ := buildNeighborList_spec position nAtom K nl0 cutsq hN hK1
  refine ⟨nl, _, hb, ?_⟩
  intro i j m hi0 hi1 hj0 hjm hm1 hji hmi hdist hmrow
  obtain ⟨E, hE, hinv, hrow⟩ := hrows i hi0 hi1
  obtain ⟨E', hE', _, htie⟩ := nearestOf_tie position nAtom K i hN hK1 hi0 hi1
  have hEE : E' = E := by
    rw [hE] at hE'
    have := Prod.mk.inj (Option.some.inj hE')
    exact pairs_ext this.1.symm this.2.symm
  subst hEE
  have hperm := List.perm_insertionSort (fun a b : Int => a ≤ b) (E'.map Prod.snd)
  rw [hrow] at hmrow ⊢
  rw [hperm.mem_iff] at hmrow ⊢
  by_contra hjrow
  obtain ⟨e, he, hem⟩ := List.mem_map.mp hmrow
  have hδ : sqDist position i j = sqDist position i m := by
    unfold sqDist
    rw [hdist]
  have he1 : e.1 = sqDist position i m := by
    rcases hinv.entry e he with hsent | ⟨_, hd⟩
    · exfalso
      rw [hsent] at hem
      simp only at hem
      omega
    · rw [hd, hem]
  rcases htie.excl j ⟨⟨hj0, by omega⟩, hji⟩ hjrow e he with h1 | ⟨_, h2⟩
  · rw [he1, hδ] at h1
    exact lt_irrefl _ h1
  · rw [hem] at h2
    omega

/-- Witness of C21 on three atoms on a line with `K = 1`: atoms 1 and 2 are both at squared
distance 1 from atom 0. -/
theorem ties_favour_lower_index_witness :
    ((3 : Int) = (tieTriple.length : Int) ∧ (1 : Int) ≤ 1) ∧
    ∃ nl total, buildNeighborList 3 tieTriple (fun _ => 0) 16 1 = some (nl, total) ∧
      ∀ i j m, 0 ≤ i → i < 3 → 0 ≤ j → j < m → m < 3 → j ≠ i → m ≠ i →
        distance tieTriple i j = distance tieTriple i m →
        m ∈ rowOf nl 1 i → j ∈ rowOf nl 1 i :=
  ⟨⟨by rfl, by decide⟩,
    ties_favour_lower_index tieTriple 3 1 (fun _ => 0) 16 (by rfl) (by decide)⟩

theorem sentinels_first :
    ∀ (l : List Int), l.Pairwise (fun a b => a ≤ b) → (∀ c ∈ l, -1 ≤ c) →
      l = List.replicate (l.count (-1)) (-1) ++ l.filter (fun c => decide (c ≠ -1)) := by
  intro l
  induction l with
  | nil => intro _ _; simp
  | cons a t ih =>
    intro hs hge
    have hs' := List.pairwise_cons.mp hs
    have iht := ih hs'.2 (fun c hc => hge c (List.mem_cons_of_mem _ hc))
    by_cases ha : a = -1
    · subst ha
      have hf : (List.filter (fun c => decide (c ≠ -1)) ((-1 : Int) :: t))
          = List.filter (fun c => decide (c ≠ -1)) t := by
        rw [List.filter_cons_of_neg]
        simp
      rw [List.count_cons_self, List.replicate_succ, hf, List.cons_append, ← iht]
    · have hall : ∀ c ∈ a :: t, c ≠ -1 := by
        intro c hc
        have ha0 : -1 ≤ a := hge a (List.mem_cons_self _ _)
        rcases List.mem_cons.mp hc with rfl | hc
        · exact ha
        · have := hs'.1 c hc
          omega
      have hcount : List.count (-1) (a :: t) = 0 :=
        List.count_eq_zero.mpr (fun hmem => hall _ hmem rfl)
      have hfilter : List.filter (fun c => decide (c ≠ -1)) (a :: t) = a :: t := by
        rw [List.filter_eq_self]
        intro c hc
        simpa using hall c hc
      rw [hcount, hfilter]
      simp

/-- C22. When the position array holds `nAtom` atoms and `maxNeighbors ≥ 1`,
`buildNeighborList` has a result in which every row `i`, as `populateNeighborList` wrote it,
is a permutation of the list `currList` that `insertInOrder` built for `i`, is in
non-decreasing order of index value, and has its sentinels `-1` first, followed by atom
indices. -/
theorem rows_are_sorted_permutations (position : List Vec3) (nAtom K : Int)
    (nl0 : Int → Int) (cutsq : ℚ) (hN : nAtom = position.length) (hK1 : 1 ≤ K) :
    ∃ nl total, buildNeighborList nAtom position nl0 cutsq K = some (nl, total) ∧
      ∀ i, 0 ≤ i → i < nAtom →
        ∃ currDist currList, nearestOf nAtom position K i = some (currDist, currList) ∧
          (rowOf nl K i).Perm currList ∧
          (rowOf nl K i).Pairwise (fun a b => a ≤ b) ∧
          rowOf nl K i = List.replicate ((rowOf nl K i).count (-1)) (-1)
            ++ (rowOf nl K i).filter (fun c => decide (c ≠ -1)) ∧
          ∀ c ∈ (rowOf nl K i).filter (fun c => decide (c ≠ -1)), 0 ≤ c ∧ c < nAtom := by
  obtain ⟨nl, hb, _, hrows⟩ := buildNeighborList_spec position nAtom K nl0 cutsq hN hK1
  refine ⟨nl, _, hb, ?_⟩
  intro i hi0 hi1
  obtain ⟨E, hE, hinv, hrow⟩ := hrows i hi0 hi1
  have hperm : (rowOf nl K i).Perm (E.map Prod.snd) := by
    rw [hrow]
    exact List.perm_insertionSort _ _
  have hsorted : (rowOf nl K i).Pairwise (fun a b => a ≤ b) := by
    rw [hrow]
    exact List.sorted_insertionSort _ _
  have hent : ∀ c ∈ rowOf nl K i, c = -1 ∨ (0 ≤ c ∧ c < nAtom) := by
    intro c hc
    obtain ⟨e, he, rfl⟩ := List.mem_map.mp (hperm.mem_iff.mp hc)
    rcases hinv.entry e he with rfl | ⟨hp, _⟩
    · exact Or.inl rfl
    · exact Or.inr hp.1
  refine ⟨_, _, hE, hperm, hsorted, ?_, ?_⟩
  · apply sentinels_first _ hsorted
    intro c hc
    rcases hent c hc with rfl | h
    · exact le_refl _
    · omega
  · intro c hc
    rw [List.mem_filter] at hc
    rcases hent c hc.1 with rfl | h
    · simp at hc
    · exact h

/-- Witness of C22 on two atoms with `K = 2`, where each row holds one sentinel. -/
theorem rows_are_sorted_permutations_witness :
    ((2 : Int) = (unitPair.length : Int) ∧ (1 : Int) ≤ 2) ∧
    ∃ nl total, buildNeighborList 2 unitPair (fun _ => 0) 16 2 = some (nl, total) ∧
      ∀ i, 0 ≤ i → i < 2 →
        ∃ currDist currList, nearestOf 2 unitPair 2 i = some (currDist, currList) ∧
          (rowOf nl 2 i).Perm currList ∧
          (rowOf nl 2 i).Pairwise (fun a b => a ≤ b) ∧
          rowOf nl 2 i = List.replicate ((rowOf nl 2 i).count (-1)) (-1)
            ++ (rowOf nl 2 i).filter (fun c => decide (c ≠ -1)) ∧
          ∀ c ∈ (rowOf nl 2 i).filter (fun c => decide (c ≠ -1)), 0 ≤ c ∧ c < 2 :=
  ⟨⟨by rfl, by decide⟩,
    rows_are_sorted_permutations unitPair 2 2 (fun _ => 0) 16 (by rfl) (by decide)⟩

/-! ## Order of the entries of a row -/

theorem ljSum_perm (cutsq lj1 lj2 : ℚ) (pi : Vec3) {ps1 ps2 : List Vec3}
    (h : ps1.Perm ps2) : ljSum cutsq lj1 lj2 pi ps1 = ljSum cutsq lj1 lj2 pi ps2 := by
  have hf := h.filter (fun pj => decide (dist2 pi pj < cutsq))
  unfold ljSum
  simp only
  rw [(hf.map (fun pj => (ljPair lj1 lj2 pi pj).x)).sum_eq,
    (hf.map (fun pj => (ljPair lj1 lj2 pi pj).y)).sum_eq,
    (hf.map (fun pj => (ljPair lj1 lj2 pi pj).z)).sum_eq]

theorem perm_of_map_some {ps1 ps2 : List Vec3} (h : (ps1.map some).Perm (ps2.map some)) :
    ps1.Perm ps2 := by
  have := h.filterMap id
  simpa using this

theorem compute_lj_force_no_iteration (force3 : Int → Vec3) (position : List Vec3)
    (neighCount : Int) (nl : Int → Int) (cutsq lj1 lj2 : ℚ) (inum K nIters : Int)
    (h : nIters ≤ 0) :
    compute_lj_force force3 position neighCount nl cutsq lj1 lj2 inum K nIters
      = some force3 := by
  have : nIters.toNat = 0 := by omega
  simp [compute_lj_force, this, ljIters]

theorem validList_of_perm {nl1 nl2 : Int → Int} {inum K : Int} (hv : ValidList nl1 inum K)
    (hperm : ∀ i, 0 ≤ i → i < inum → (rowOf nl1 K i).Perm (rowOf nl2 K i)) :
    ValidList nl2 inum K := by
  intro i j hi0 hi1 hj0 hj1
  have hmem : nl2 (j + i * K) ∈ rowOf nl2 K i := by
    rw [rowOf_eq_cells]
    exact List.mem_map.mpr ⟨j, mem_intRange.mpr ⟨hj0, hj1⟩, rfl⟩
  have hmem1 := (hperm i hi0 hi1).mem_iff.mpr hmem
  rw [rowOf_eq_cells] at hmem1
  obtain ⟨j', hj', hjeq⟩ := List.mem_map.mp hmem1
  have hj'' := mem_intRange.mp hj'
  rw [← hjeq]
  exact hv i j' hi0 hi1 hj''.1 hj''.2

theorem atomForce_perm {position : List Vec3} {nl1 nl2 : Int → Int} {inum K : Int}
    (cutsq lj1 lj2 : ℚ) (hN : inum = position.length) (hv : ValidList nl1 inum K)
    (hperm : ∀ i, 0 ≤ i → i < inum → (rowOf nl1 K i).Perm (rowOf nl2 K i)) {i : Int}
    (hi0 : 0 ≤ i) (hi1 : i < inum) :
    ∃ f, atomForce position nl1 cutsq lj1 lj2 K i = some f ∧
      atomForce position nl2 cutsq lj1 lj2 K i = some f := by
  have hv2 := validList_of_perm hv hperm
  obtain ⟨ipos1, ps1, hipos1, hps1, hsum1⟩ := atomForce_eq_sum cutsq lj1 lj2 hv hN hi0 hi1
  obtain ⟨ipos2, ps2, hipos2, hps2, hsum2⟩ := atomForce_eq_sum cutsq lj1 lj2 hv2 hN hi0 hi1
  have hipos : ipos2 = ipos1 := by
    rw [hipos1] at hipos2
    exact (Option.some.inj hipos2).symm
  subst hipos
  have hp : ps1.Perm ps2 := by
    apply perm_of_map_some
    rw [← hps1, ← hps2]
    have := (hperm i hi0 hi1).map (readPos position)
    rw [rowOf_eq_cells, rowOf_eq_cells, List.map_map, List.map_map] at this
    exact this
  refine ⟨_, hsum1, ?_⟩
  rw [hsum2, ljSum_perm cutsq lj1 lj2 ipos2 hp]

/-- C23. On a position array of `inum` atoms, for two neighbour lists whose rows are
permutations of each other, the entries of the first being atom indices, `compute_lj_force`
has a result on both and leaves the same force array, and the reference forces of
`checkResults` are the same too: the force of atom `i` depends on the entries of row `i` only
as a multiset. -/
theorem force_independent_of_row_order (force3 : Int → Vec3) (position : List Vec3)
    (neighCount : Int) (nl1 nl2 : Int → Int) (cutsq lj1 lj2 : ℚ) (inum K nIters : Int)
    (hN : inum = position.length) (hv : ValidList nl1 inum K)
    (hperm : ∀ i, 0 ≤ i → i < inum → (rowOf nl1 K i).Perm (rowOf nl2 K i)) :
    ∃ F1 F2,
      compute_lj_force force3 position neighCount nl1 cutsq lj1 lj2 inum K nIters = some F1 ∧
      compute_lj_force force3 position neighCount nl2 cutsq lj1 lj2 inum K nIters = some F2 ∧
      (∀ m, F1 m = F2 m) ∧
      ∀ i, 0 ≤ i → i < inum →
        ∃ f, atomForce position nl1 cutsq lj1 lj2 K i = some f ∧
          atomForce position nl2 cutsq lj1 lj2 K i = some f ∧
          refForce position nl1 cutsq lj1 lj2 K i = some f ∧
          refForce position nl2 cutsq lj1 lj2 K i = some f := by
  have hv2 := validList_of_perm hv hperm
  have hatoms : ∀ i, 0 ≤ i → i < inum →
      ∃ f, atomForce position nl1 cutsq lj1 lj2 K i = some f ∧
        atomForce position nl2 cutsq lj1 lj2 K i = some f ∧
        refForce position nl1 cutsq lj1 lj2 K i = some f ∧
        refForce position nl2 cutsq lj1 lj2 K i = some f := by
    intro i hi0 hi1
    obtain ⟨f, h1, h2⟩ := atomForce_perm cutsq lj1 lj2 hN hv hperm hi0 hi1
    exact ⟨f, h1, h2, by rw [refForce_eq_atomForce, h1], by rw [refForce_eq_atomForce, h2]⟩
  by_cases hIt : 1 ≤ nIters
  · obtain ⟨F1, hF1, ha1, hfr1⟩ :=
      compute_lj_force_spec force3 position neighCount nl1 cutsq lj1 lj2 inum K nIters hN hv
    obtain ⟨F2, hF2, ha2, hfr2⟩ :=
      compute_lj_force_spec force3 position neighCount nl2 cutsq lj1 lj2 inum K nIters hN hv2
    refine ⟨F1, F2, hF1, hF2, ?_, hatoms⟩
    intro m
    by_cases hm : 0 ≤ m ∧ m < inum
    · obtain ⟨f, h1, h2, _⟩ := hatoms m hm.1 hm.2
      have e1 := ha1 hIt m hm.1 hm.2
      have e2 := ha2 hIt m hm.1 hm.2
      rw [h1] at e1
      rw [h2] at e2
      rw [← Option.some.inj e1, ← Option.some.inj e2]
    · rw [hfr1 m hm, hfr2 m hm]
  · have h0 : nIters ≤ 0 := by omega
    exact ⟨force3, force3,
      compute_lj_force_no_iteration force3 position neighCount nl1 cutsq lj1 lj2 inum K nIters h0,
      compute_lj_force_no_iteration force3 position neighCount nl2 cutsq lj1 lj2 inum K nIters h0,
      fun _ => rfl, hatoms⟩

theorem validList_listA : ValidList listA 3 2 := by
  intro i j hi0 hi1 hj0 hj1
  have hi : i = 0 ∨ i = 1 ∨ i = 2 := by omega
  have hj : j = 0 ∨ j = 1 := by omega
  rcases hi with rfl | rfl | rfl <;> rcases hj with rfl | rfl <;> decide

theorem perm_listA_listB :
    ∀ i, 0 ≤ i → i < 3 → (rowOf listA 2 i).Perm (rowOf listB 2 i) := by
  intro i hi0 hi1
  have hi : i = 0 ∨ i = 1 ∨ i = 2 := by omega
  rcases hi with rfl | rfl | rfl
  · have h1 : rowOf listA 2 0 = [1, 2] := by decide
    have h2 : rowOf listB 2 0 = [2, 1] := by decide
    rw [h1, h2]
    exact List.Perm.swap _ _ _
  · have h1 : rowOf listA 2 1 = [0, 2] := by decide
    have h2 : rowOf listB 2 1 = [2, 0] := by decide
    rw [h1, h2]
    exact List.Perm.swap _ _ _
  · have h1 : rowOf listA 2 2 = [0, 1] := by decide
    have h2 : rowOf listB 2 2 = [1, 0] := by decide
    rw [h1, h2]
    exact List.Perm.swap _ _ _

/-- Witness of C23 on three atoms on a line, with the rows `[1, 2]`, `[0, 2]`, `[0, 1]` and
the same rows with their two entries exchanged. -/
theorem force_independent_of_row_order_witness :
    ((3 : Int) = (tieTriple.length : Int) ∧ ValidList listA 3 2 ∧
      ∀ i, 0 ≤ i → i < 3 → (rowOf listA 2 i).Perm (rowOf listB 2 i)) ∧
    ∃ F1 F2,
      compute_lj_force (fun _ => ⟨0, 0, 0⟩) tieTriple 2 listA 16 (3 / 2) 2 3 2 1 = some F1 ∧
      compute_lj_force (fun _ => ⟨0, 0, 0⟩) tieTriple 2 listB 16 (3 / 2) 2 3 2 1 = some F2 ∧
      (∀ m, F1 m = F2 m) ∧
      ∀ i, 0 ≤ i → i < 3 →
        ∃ f, atomForce tieTriple listA 16 (3 / 2) 2 2 i = some f ∧
          atomForce tieTriple listB 16 (3 / 2) 2 2 i = some f ∧
          refForce tieTriple listA 16 (3 / 2) 2 2 i = some f ∧
          refForce tieTriple listB 16 (3 / 2) 2 2 i = some f :=
  ⟨⟨by rfl, validList_listA, perm_listA_listB⟩,
    force_independent_of_row_order (fun _ => ⟨0, 0, 0⟩) tieTriple 2 listA listB 16 (3 / 2) 2
      3 2 1 (by rfl) validList_listA perm_listA_listB⟩

/-! ## Reads of the neighbour list -/

theorem mem_listReads {inum K : Int} {isDouble : Bool} {x : Int} :
    x ∈ listReads inum K isDouble ↔
      ∃ i j, (0 ≤ i ∧ i < inum) ∧ (0 ≤ j ∧ j < K) ∧ x ∈ listReadsAt inum K isDouble i j := by
  unfold listReads
  simp only [List.mem_flatten, List.mem_map, mem_intRange]
  constructor
  · rintro ⟨l, ⟨i, hi, rfl⟩, hx⟩
    obtain ⟨l', hl', hx'⟩ := List.mem_flatten.mp hx
    obtain ⟨j, hj, rfl⟩ := List.mem_map.mp hl'
    exact ⟨i, j, hi, mem_intRange.mp hj, hx'⟩
  · rintro ⟨i, j, hi, hj, hx⟩
    exact ⟨_, ⟨i, hi, rfl⟩,
      List.mem_flatten.mpr ⟨_, List.mem_map.mpr ⟨j, mem_intRange.mpr hj, rfl⟩, hx⟩⟩

theorem last_lookAhead_mem (N K : Int) (isDouble : Bool) (hN : 1 ≤ N) (hK : 1 ≤ K) :
    N * K + 30 ∈ listReads N K isDouble := by
  rw [mem_listReads]
  refine ⟨N - 1, K - 1, ⟨by omega, by omega⟩, ⟨by omega, by omega⟩, ?_⟩
  unfold listReadsAt
  apply List.mem_append_left
  apply List.mem_append_left
  unfold lookAhead
  refine List.mem_map.mpr ⟨15, mem_intRange.mpr ⟨by decide, by decide⟩, ?_⟩
  ring

/-- C24, the code at the failing input. For 4 atoms with 2 neighbours each (a list of 8
cells), the look-ahead read for the last atom and its last neighbour with `c = 15` is at index
`3 * 2 + 1 + 15 + 16 = 38`, outside `[0, 8)`. For every `N ≥ 1` and `K ≥ 1`, also for the
12288 atoms and 128 neighbours of the first size class, one pass reads the index `N * K + 30`,
which is not below `N * K`; the reads `neighList[j + i * K]` themselves are all inside
`[0, N * K)`. -/
theorem look_ahead_reads_outside :
    (38 ∈ listReads 4 2 false ∧ ¬ ((38 : Int) < 4 * 2)) ∧
    (12288 * 128 + 30 ∈ listReads 12288 128 false) ∧
    (∀ (N K : Int) (isDouble : Bool), 1 ≤ N → 1 ≤ K →
      N * K + 30 ∈ listReads N K isDouble ∧ ¬ (N * K + 30 < N * K)) ∧
    (∀ (N K i j : Int) (isDouble : Bool), 0 ≤ i → i < N → 0 ≤ j → j < K →
      j + i * K ∈ listReads N K isDouble ∧ 0 ≤ j + i * K ∧ j + i * K < N * K) := by
  refine ⟨⟨?_, by decide⟩, ?_, ?_, ?_⟩
  · exact last_lookAhead_mem 4 2 false (by decide) (by decide)
  · exact last_lookAhead_mem 12288 128 false (by decide) (by decide)
  · intro N K isDouble hN hK
    exact ⟨last_lookAhead_mem N K isDouble hN hK, by omega⟩
  · intro N K i j isDouble hi0 hi1 hj0 hj1
    refine ⟨?_, ?_, ?_⟩
    · rw [mem_listReads]
      refine ⟨i, j, ⟨hi0, hi1⟩, ⟨hj0, hj1⟩, ?_⟩
      unfold listReadsAt
      apply List.mem_append_right
      exact List.mem_singleton_self _
    · have := mul_nonneg hi0 (by omega : (0 : Int) ≤ K)
      omega
    · have h1 : (i + 1) * K ≤ N * K := by
        apply mul_le_mul_of_nonneg_right (by omega) (by omega)
      have h2 : (i + 1) * K = i * K + K := by ring
      omega

end MD
